import Mathlib

/-
Shallow embedding of the automatic graph layout engine of the repository
(src/unnamed/part_002, the graphAutoLayout module) together with the store
level caller autoLayoutFromNode (src/src/store/graphStore.ts) and the layout
constants (NODE_CENTER_OFFSET from the graphLayout constants module).

Modelling conventions:
- JS numbers are modelled as rationals (the source performs only +, -, *, /,
  comparisons, abs, floor and the like on them, except for the radial trig,
  square root and pi, which are taken as parameters in a MathModel record).
- JS Map objects are modelled as association lists with JS Map semantics:
  set updates an existing key in place and appends a fresh key at the end,
  get returns the value of the first (unique) matching key, iteration order
  is list order, size is list length.
- JS Set objects used only for membership are modelled as lists with contains.
- while loops over growing work queues are modelled with an explicit fuel
  parameter that is chosen at every call site to be at least the number of
  iterations the loop can perform (each iteration either consumes one queue
  slot, and the queue only grows when a previously unvisited id is added).
- for loops that only accumulate integer sums are rendered as sums over
  index lists; integer addition is commutative and associative, so the value
  is exactly the value the loop computes.
-/

namespace GT

set_option maxRecDepth 40000
set_option maxHeartbeats 4000000

/-- Association list with JS Map semantics over an arbitrary key type. -/
abbrev Assoc (κ : Type) (α : Type) : Type := List (κ × α)

namespace Assoc

variable {κ α : Type} [DecidableEq κ]

/-- Empty JS Map. -/
def empty : Assoc κ α := []

/-- JS Map.get. -/
def get (m : Assoc κ α) (k : κ) : Option α :=
  (List.find? (fun p => p.1 = k) m).map (fun p => p.2)

/-- JS Map.set: update in place when the key is present, append otherwise. -/
def set (m : Assoc κ α) (k : κ) (v : α) : Assoc κ α :=
  if m.any (fun p => p.1 = k) then
    m.map (fun p => if p.1 = k then (k, v) else p)
  else
    m ++ [(k, v)]

/-- JS Map.has. -/
def hasKey (m : Assoc κ α) (k : κ) : Bool := m.any (fun p => p.1 = k)

/-- JS Map.size. -/
def size (m : Assoc κ α) : Nat := m.length

end Assoc

/-- 2D point (JS object with x and y). -/
structure Point where
  x : ℚ
  y : ℚ
deriving DecidableEq, Repr

/-- Graph edge as the layout reads it: only source and target matter. -/
structure GEdge where
  source : String
  target : String
deriving DecidableEq, Repr

/-- Graph node as the layout and the store read it: id, top-left position and
the locked flag of its data record (the rest of the node data is never read
by the layout or by autoLayoutFromNode). -/
structure GNode where
  id : String
  position : Point
  locked : Bool := false
deriving DecidableEq, Repr

/-- String keyed JS Map. -/
abbrev StrMap (α : Type) : Type := Assoc String α

/-- NODE_CENTER_OFFSET from the graphLayout constants: half the visual node
size of 120 x 50 pixels. -/
def NODE_CENTER_OFFSET : Point := ⟨60, 25⟩

/-- layoutStyle values. -/
inductive LayoutStyle where
  | layered
  | radial
deriving DecidableEq, Repr

/-- AutoLayoutOptions: every field optional, none meaning the key is absent. -/
structure AutoLayoutOptions where
  layoutStyle : Option LayoutStyle := none
  includeOtherComponents : Option Bool := none
  ringSpacing : Option ℚ := none
  nodeSpacing : Option ℚ := none
  componentGap : Option ℚ := none
  columnMaxHeight : Option ℚ := none
  xScale : Option ℚ := none
  yScale : Option ℚ := none
  maxAttempts : Option ℕ := none
deriving DecidableEq, Repr

/-- Required AutoLayoutOptions, the result of merging with the defaults. -/
structure ResolvedOptions where
  layoutStyle : LayoutStyle
  includeOtherComponents : Bool
  ringSpacing : ℚ
  nodeSpacing : ℚ
  componentGap : ℚ
  columnMaxHeight : ℚ
  xScale : ℚ
  yScale : ℚ
  maxAttempts : ℕ
deriving DecidableEq, Repr

/-- DEFAULT_OPTIONS of the source. -/
def DEFAULT_OPTIONS : ResolvedOptions :=
  { layoutStyle := LayoutStyle.radial
    includeOtherComponents := false
    ringSpacing := 140
    nodeSpacing := 140
    componentGap := 320
    columnMaxHeight := 1200
    xScale := 1
    yScale := 1
    maxAttempts := 12 }

/-- Spread merge of the defaults with the caller supplied options. -/
def mergeOptions (o : AutoLayoutOptions) : ResolvedOptions :=
  { layoutStyle := o.layoutStyle.getD DEFAULT_OPTIONS.layoutStyle
    includeOtherComponents :=
      o.includeOtherComponents.getD DEFAULT_OPTIONS.includeOtherComponents
    ringSpacing := o.ringSpacing.getD DEFAULT_OPTIONS.ringSpacing
    nodeSpacing := o.nodeSpacing.getD DEFAULT_OPTIONS.nodeSpacing
    componentGap := o.componentGap.getD DEFAULT_OPTIONS.componentGap
    columnMaxHeight := o.columnMaxHeight.getD DEFAULT_OPTIONS.columnMaxHeight
    xScale := o.xScale.getD DEFAULT_OPTIONS.xScale
    yScale := o.yScale.getD DEFAULT_OPTIONS.yScale
    maxAttempts := o.maxAttempts.getD DEFAULT_OPTIONS.maxAttempts }

/-- Result record of the layout composer. -/
structure AutoLayoutResult where
  positions : StrMap Point
  crossings : ℤ

/-- Half node size used by the overlap test: getNodeHalfSizeWithPadding. -/
def getNodeHalfSizeWithPadding (padding : ℚ) : ℚ × ℚ :=
  (NODE_CENTER_OFFSET.x + padding, NODE_CENTER_OFFSET.y + padding)

/-- boxesOverlap: axis aligned boxes of the two centers intersect. -/
def boxesOverlap (a b : Point) (halfWidth halfHeight : ℚ) : Bool :=
  decide (|a.x - b.x| < halfWidth * 2 ∧ |a.y - b.y| < halfHeight * 2)

/-- cross: 2D cross product of (a-o) and (b-o). -/
def crossProd (o a b : Point) : ℚ :=
  (a.x - o.x) * (b.y - o.y) - (a.y - o.y) * (b.x - o.x)

/-- Epsilon of the orientation test (1e-9). -/
def EPS : ℚ := 1 / 1000000000

/-- orientation: sign of the cross product, with near-zero collapsed to 0. -/
def orientation (a b c : Point) : ℤ :=
  let v := crossProd a b c
  if |v| < EPS then 0 else if v > 0 then 1 else -1

/-- segmentsProperlyCross: the two orientation pairs strictly straddle. -/
def segmentsProperlyCross (p1 q1 p2 q2 : Point) : Bool :=
  let o1 := orientation p1 q1 p2
  let o2 := orientation p1 q1 q2
  let o3 := orientation p2 q2 p1
  let o4 := orientation p2 q2 q1
  decide (o1 * o2 < 0 ∧ o3 * o4 < 0)

/-- buildUndirectedAdjacency. The returned map is read through get with a
default of the empty list, so it is modelled as the total function sending a
node id to its neighbor list; an edge with an endpoint outside nodeIds
contributes nothing, every other edge pushes both directions (so a self loop
pushes the node onto its own list twice, and duplicate edges push again). -/
def buildUndirectedAdjacency (nodeIds : List String) (edges : List GEdge) :
    String → List String := fun n =>
  edges.foldl (fun acc e =>
    if nodeIds.contains e.source && nodeIds.contains e.target then
      acc ++ (if e.source = n then [e.target] else [])
          ++ (if e.target = n then [e.source] else [])
    else acc) []

/-- Enqueue step shared by the visited set loops: skip a visited neighbor,
otherwise append it to the visited set and the queue. -/
def bfsStep (vq : List String × List String) (neighborId : String) :
    List String × List String :=
  if vq.1.contains neighborId then vq
  else (vq.1 ++ [neighborId], vq.2 ++ [neighborId])

/-- Work loop of computeComponentIdSetFromRoot: process the queue entry at
position head, enqueue unvisited neighbors. fuel bounds the number of loop
iterations; every call site passes fuel at least the greatest possible queue
length, so the loop always runs to completion. -/
def bfsLoop (adjacency : String → List String) :
    ℕ → List String → List String → ℕ → List String
  | 0, visited, _, _ => visited
  | fuel + 1, visited, queue, head =>
    match queue[head]? with
    | none => visited
    | some currentId =>
      let step := (adjacency currentId).foldl bfsStep (visited, queue)
      bfsLoop adjacency fuel step.1 step.2 (head + 1)

/-- computeComponentIdSetFromRoot: BFS visited set (in insertion order) from
rootId. The root is added to the visited set before the loop runs. -/
def computeComponentIdSetFromRoot (rootId : String)
    (adjacency : String → List String) (fuel : ℕ) : List String :=
  bfsLoop adjacency fuel [rootId] [rootId] 0

/-- Inner collection loop of computeConnectedComponents: BFS recording the
component in pop order, with a shared visited set. -/
def ccBfsLoop (adjacency : String → List String) :
    ℕ → List String → List String → List String → ℕ →
      List String × List String
  | 0, visited, component, _, _ => (visited, component)
  | fuel + 1, visited, component, queue, head =>
    match queue[head]? with
    | none => (visited, component)
    | some currentId =>
      let component2 := component ++ [currentId]
      let step := (adjacency currentId).foldl bfsStep (visited, queue)
      ccBfsLoop adjacency fuel step.1 component2 step.2 (head + 1)

/-- computeConnectedComponents: BFS partition of nodeIds in input order. -/
def computeConnectedComponents (nodeIds : List String)
    (adjacency : String → List String) : List (List String) :=
  (nodeIds.foldl (fun (st : List String × List (List String)) startId =>
    if st.1.contains startId then st
    else
      let fuel := nodeIds.length + 1
      let r := ccBfsLoop adjacency fuel (st.1 ++ [startId]) [] [startId] 0
      (r.1, st.2 ++ [r.2]))
    ([], [])).2

/-- Bounds record. -/
structure Bounds where
  minX : ℚ
  maxX : ℚ
  minY : ℚ
  maxY : ℚ
  width : ℚ
  height : ℚ
deriving DecidableEq, Repr

/-- computeBoundsFromCenters: box covering the centers of the given ids
expanded by the half extent and padding; all ids missing from the map give
the zero bounds (the Infinity check of the source). -/
def computeBoundsFromCenters (centers : StrMap Point) (ids : List String)
    (padding : ℚ) : Bounds :=
  let pts := ids.filterMap (fun id => centers.get id)
  match pts with
  | [] => ⟨0, 0, 0, 0, 0, 0⟩
  | p0 :: rest =>
    let halfWidth := NODE_CENTER_OFFSET.x
    let halfHeight := NODE_CENTER_OFFSET.y
    let m0 := (p0.x - halfWidth, p0.x + halfWidth, p0.y - halfHeight,
      p0.y + halfHeight)
    let m := rest.foldl (fun (m : ℚ × ℚ × ℚ × ℚ) p =>
      (min m.1 (p.x - halfWidth), max m.2.1 (p.x + halfWidth),
       min m.2.2.1 (p.y - halfHeight), max m.2.2.2 (p.y + halfHeight))) m0
    let minX := m.1 - padding
    let maxX := m.2.1 + padding
    let minY := m.2.2.1 - padding
    let maxY := m.2.2.2 + padding
    ⟨minX, maxX, minY, maxY, maxX - minX, maxY - minY⟩

/-- Sum of an integer valued function over a list (an accumulating loop). -/
def listSum {α : Type} (l : List α) (f : α → ℤ) : ℤ := (l.map f).sum

/-- Sum of f over all index pairs i < j of the list (a nested loop where the
inner index starts one past the outer index). -/
def pairSum {α : Type} (f : α → α → ℤ) : List α → ℤ
  | [] => 0
  | x :: xs => listSum xs (f x) + pairSum f xs

/-- edgesShareEndpoint. -/
def edgesShareEndpoint (a b : GEdge) : Bool :=
  decide (a.source = b.source ∨ a.source = b.target ∨
    a.target = b.source ∨ a.target = b.target)

/-- filter of the edges of one component (both endpoints inside). -/
def filterComponentEdges (edges : List GEdge) (nodeIdSet : List String) :
    List GEdge :=
  edges.filter (fun e =>
    nodeIdSet.contains e.source && nodeIdSet.contains e.target)

/-- Contribution of the edge pair at indices i and j to a crossing count:
0 when either index is out of range, when the edges share an endpoint or when
an endpoint has no center, 1 when the segments properly cross. -/
def crossTermAt (centers : StrMap Point) (es : List GEdge) (i j : ℕ) : ℤ :=
  match es[i]?, es[j]? with
  | some a, some b =>
    if edgesShareEndpoint a b then 0
    else
      match centers.get a.source, centers.get a.target,
        centers.get b.source, centers.get b.target with
      | some a1, some a2, some b1, some b2 =>
        if segmentsProperlyCross a1 a2 b1 b2 then 1 else 0
      | _, _, _, _ => 0
  | _, _ => 0

/-- countEdgeCrossings: full pairwise crossing count over the component
edges (the double loop over i < j rendered as a pair sum over indices). -/
def countEdgeCrossings (centers : StrMap Point) (edges : List GEdge)
    (nodeIdSet : List String) : ℤ :=
  let ce := filterComponentEdges edges nodeIdSet
  pairSum (crossTermAt centers ce) (List.range ce.length)

/-- buildIncidentEdgeIndexMap, read as the total function from a node id to
the list of indices of edges incident to it (a self loop at x pushes its
index onto the list of x twice, as the source push and the target push). -/
def buildIncidentEdgeIndexMap (edges : List GEdge) : String → List ℕ :=
  fun x => edges.enum.foldl (fun acc p =>
    acc ++ (if p.2.source = x then [p.1] else [])
        ++ (if p.2.target = x then [p.1] else [])) []

/-- countCrossingsInvolvingMarkedEdgeIndices: crossings of pairs with at
least one affected edge, as (affected x unaffected) plus (affected pairs with
list position i < j). The boolean marker array of the source is maintained in
lock step with the affected list, so a marked index is exactly a member of
the list. -/
def countCrossingsInvolvingMarkedEdgeIndices (edges : List GEdge)
    (centers : StrMap Point) (affected : List ℕ) : ℤ :=
  if affected.isEmpty then 0
  else
    let part1 := listSum affected (fun i =>
      listSum (List.range edges.length) (fun j =>
        if affected.contains j then 0 else crossTermAt centers edges i j))
    let part2 := pairSum (crossTermAt centers edges) affected
    part1 + part2

/-- getLevelY: y of the node at the given index of a level, centered at 0. -/
def getLevelY (index count : ℕ) (spacingY : ℚ) : ℚ :=
  ((index : ℚ) - ((count : ℚ) - 1) / 2) * spacingY

/-- chooseComponentCenterId: highest degree, ties by lowest ambient index. -/
def chooseComponentCenterId (componentIds : List String)
    (adjacency : String → List String) (orderIndex : StrMap ℕ) : String :=
  let first := componentIds.headD ""
  let pick := componentIds.foldl
    (fun (st : String × ℤ × Option ℕ) id =>
      let degree : ℤ := (adjacency id).length
      let ord := orderIndex.get id
      if degree > st.2.1 then (id, degree, ord)
      else if degree = st.2.1 then
        match ord, st.2.2 with
        | some o, some bo => if o < bo then (id, st.2.1, some o) else st
        | some o, none => (id, st.2.1, some o)
        | none, _ => st
      else st)
    (first, -1, none)
  pick.1

/-- Insertion of one element into a sorted list, placing it before the first
element it compares less-or-equal to. -/
def insertLE {α : Type} (le : α → α → Bool) (x : α) : List α → List α
  | [] => [x]
  | y :: ys => if le x y then x :: y :: ys else y :: insertLE le x ys

/-- Stable sort by a boolean comparator (JS Array.prototype.sort is a stable
sort; all comparators of the source are total preorders, for which stable
sorts agree, so insertion sort realises the same permutation). -/
def sortBy {α : Type} (le : α → α → Bool) : List α → List α
  | [] => []
  | x :: xs => insertLE le x (sortBy le xs)

/-- List of the integers from lo to hi inclusive. -/
def intRange (lo hi : ℤ) : List ℤ :=
  (List.range (hi + 1 - lo).toNat).map (fun n => lo + (n : ℤ))

/-- Grid cells covered by a scaled node box, in the x-major, y-minor order of
the two nested cell loops. -/
def cellsOf (pos : Point) (halfWidth halfHeight cellSize : ℚ) :
    List (ℤ × ℤ) :=
  let minCellX := ⌊(pos.x - halfWidth) / cellSize⌋
  let maxCellX := ⌊(pos.x + halfWidth) / cellSize⌋
  let minCellY := ⌊(pos.y - halfHeight) / cellSize⌋
  let maxCellY := ⌊(pos.y + halfHeight) / cellSize⌋
  (intRange minCellX maxCellX).flatMap (fun cx =>
    (intRange minCellY maxCellY).map (fun cy => (cx, cy)))

/-- Main loop of hasAnyNodeOverlap over the id list, carrying the map of
scaled positions and the spatial hash grid; returns true as soon as one pair
of boxes overlaps. -/
def overlapLoop (centers : StrMap Point) (scale padding : ℚ) :
    List String → StrMap Point → Assoc (ℤ × ℤ) (List String) → Bool
  | [], _, _ => false
  | id :: rest, scaled, grid =>
    match centers.get id with
    | none => overlapLoop centers scale padding rest scaled grid
    | some p =>
      let hw := (getNodeHalfSizeWithPadding padding).1
      let hh := (getNodeHalfSizeWithPadding padding).2
      let cellSize := max (hw * 2) (hh * 2)
      let pos : Point := ⟨p.x * scale, p.y * scale⟩
      let scaled2 := scaled.set id pos
      let cells := cellsOf pos hw hh cellSize
      let hit := cells.any (fun c =>
        match grid.get c with
        | none => false
        | some bucket => bucket.any (fun otherId =>
            match scaled2.get otherId with
            | none => false
            | some other => boxesOverlap pos other hw hh))
      if hit then true
      else
        let grid2 := cells.foldl (fun g c =>
          match g.get c with
          | some bucket => g.set c (bucket ++ [id])
          | none => g.set c [id]) grid
        overlapLoop centers scale padding rest scaled2 grid2

/-- hasAnyNodeOverlap: grid bucketed pairwise box overlap test at a scale. -/
def hasAnyNodeOverlap (centers : StrMap Point) (ids : List String)
    (scale padding : ℚ) : Bool :=
  overlapLoop centers scale padding ids Assoc.empty Assoc.empty

/-- Shared shape of the center transfer loops (forEach with a lookup, a
pointwise transform and a set). -/
def placeCenters (centers : StrMap Point) (ids : List String)
    (f : Point → Point) (pc0 : StrMap Point) : StrMap Point :=
  ids.foldl (fun pc id =>
    match centers.get id with
    | none => pc
    | some p => pc.set id (f p)) pc0

/-- Scale every listed center by s into a fresh map. -/
def scaleCenters (centers : StrMap Point) (ids : List String) (s : ℚ) :
    StrMap Point :=
  placeCenters centers ids (fun p => ⟨p.x * s, p.y * s⟩) Assoc.empty

/-- Ten iteration binary search between low and high: keep the half without
overlap, return the final high. -/
def compressSearch (centers : StrMap Point) (ids : List String)
    (padding : ℚ) : ℕ → ℚ → ℚ → ℚ
  | 0, _, high => high
  | n + 1, low, high =>
    let mid := (low + high) / 2
    if hasAnyNodeOverlap centers ids mid padding then
      compressSearch centers ids padding n mid high
    else
      compressSearch centers ids padding n low mid

/-- Result of compressCentersIfPossible. -/
structure CompressResult where
  centers : StrMap Point
  scale : ℚ

/-- compressCentersIfPossible: clamp the requested minimum scale, use it
directly when already overlap free, otherwise binary search in
[minScale, 1]. -/
def compressCentersIfPossible (centers : StrMap Point) (ids : List String)
    (minScale padding : ℚ) : CompressResult :=
  let safeMinScale := max (1 / 10) (min 1 minScale)
  if hasAnyNodeOverlap centers ids safeMinScale padding then
    let high := compressSearch centers ids padding 10 safeMinScale 1
    { centers := scaleCenters centers ids high, scale := high }
  else
    { centers := scaleCenters centers ids safeMinScale, scale := safeMinScale }

/-- Per attempt arguments shared by both engines. -/
structure EngineArgs where
  componentIds : List String
  centerId : String
  adjacency : String → List String
  orderIndex : StrMap ℕ
  edges : List GEdge
  options : ResolvedOptions
  seed : ℕ

/-- Result of one engine attempt. -/
structure EngineResult where
  centers : StrMap Point
  crossings : ℤ

/-- BFS distance loop of the engines: assigns currentDistance + 1 to every
unvisited neighbor inside the component. fuel bounds the iterations; the
queue holds at most one slot per component id, so componentIds.length + 1 is
always enough. -/
def distStep (componentSet : List String) (d : ℕ)
    (dq : StrMap ℕ × List String) (neighborId : String) :
    StrMap ℕ × List String :=
  if !(componentSet.contains neighborId) then dq
  else if (dq.1.get neighborId).isSome then dq
  else (dq.1.set neighborId (d + 1), dq.2 ++ [neighborId])

/-- BFS distance loop of the engines: assigns currentDistance + 1 to every
unvisited neighbor inside the component (moved doc: see distStep). -/
def distBfsLoop (adjacency : String → List String)
    (componentSet : List String) :
    ℕ → StrMap ℕ → List String → ℕ → StrMap ℕ
  | 0, dist, _, _ => dist
  | fuel + 1, dist, queue, head =>
    match queue[head]? with
    | none => dist
    | some currentId =>
      match dist.get currentId with
      | none => distBfsLoop adjacency componentSet fuel dist queue (head + 1)
      | some d =>
        let step := (adjacency currentId).foldl
          (distStep componentSet d) (dist, queue)
        distBfsLoop adjacency componentSet fuel step.1 step.2 (head + 1)

/-- BFS distance map of the layered engine, rooted at centerId. -/
def layeredDistanceMap (a : EngineArgs) : StrMap ℕ :=
  distBfsLoop a.adjacency a.componentIds (a.componentIds.length + 1)
    (Assoc.empty.set a.centerId 0) [a.centerId] 0

/-- Greatest distance key present among the component ids (with floor 0). -/
def layeredMaxDistance (dist : StrMap ℕ) (componentIds : List String) : ℕ :=
  componentIds.foldl (fun m id =>
    match dist.get id with
    | some d => max m d
    | none => m) 0

/-- Level of one distance: the component ids at that distance, in component
order (the aggregation loop pushes in iteration order). -/
def levelOf (dist : StrMap ℕ) (componentIds : List String) (d : ℕ) :
    List String :=
  componentIds.filter (fun id => dist.get id = some d)

/-- Seed perturbation of the initial level order: possibly reverse, then
rotate left by seed mod length. -/
def seedPerturb (seed : ℕ) (ids : List String) : List String :=
  if ids.length > 1 then
    let ids1 := if seed % 2 = 1 then ids.reverse else ids
    let offset := seed % ids1.length
    if offset ≠ 0 then ids1.drop offset ++ ids1.take offset else ids1
  else ids

/-- Ambient order comparator (orderIndex with default 0). -/
def ambientLE (orderIndex : StrMap ℕ) (x y : String) : Bool :=
  decide ((orderIndex.get x).getD 0 ≤ (orderIndex.get y).getD 0)

/-- Initial ordered levels: for each distance 0..maxDistance, the level
sorted by ambient index then perturbed by the seed. -/
def initialOrderedLevels (a : EngineArgs) (dist : StrMap ℕ) (maxD : ℕ) :
    List (List String) :=
  (List.range (maxD + 1)).map (fun d =>
    seedPerturb a.seed (sortBy (ambientLE a.orderIndex)
      (levelOf dist a.componentIds d)))

/-- Index map of a level list (JS Map built by forEach set). -/
def indexMapOf (ids : List String) : StrMap ℕ :=
  ids.enum.foldl (fun m p => m.set p.2 p.1) Assoc.empty

/-- computeBarycenter: mean neighbor index at the given distance, none when
no neighbor qualifies. -/
def computeBarycenter (adjacency : String → List String) (dist : StrMap ℕ)
    (nodeId : String) (neighborDistance : ℕ) (neighborIndex : StrMap ℕ) :
    Option ℚ :=
  let s := (adjacency nodeId).foldl (fun (p : ℚ × ℕ) neighborId =>
    if dist.get neighborId = some neighborDistance then
      match neighborIndex.get neighborId with
      | some idx => (p.1 + (idx : ℚ), p.2 + 1)
      | none => p
    else p) (0, 0)
  if s.2 = 0 then none else some (s.1 / (s.2 : ℚ))

/-- Comparator of the barycenter sweeps, as the boolean cmp at most zero:
null barycenters sort last, ties by ambient index. -/
def sweepLE (adjacency : String → List String) (dist : StrMap ℕ)
    (orderIndex : StrMap ℕ) (neighborDistance : ℕ)
    (neighborIndex : StrMap ℕ) (x y : String) : Bool :=
  match computeBarycenter adjacency dist x neighborDistance neighborIndex,
    computeBarycenter adjacency dist y neighborDistance neighborIndex with
  | none, none => ambientLE orderIndex x y
  | none, some _ => false
  | some _, none => true
  | some bx, some bv =>
    if bx ≠ bv then decide (bx ≤ bv) else ambientLE orderIndex x y

/-- Forward barycenter sweep over distances 1..maxDistance. -/
def forwardSweep (a : EngineArgs) (dist : StrMap ℕ) (maxD : ℕ)
    (lv : List (List String)) : List (List String) :=
  (List.range maxD).foldl (fun lv k =>
    let d := k + 1
    let current := lv.getD d []
    let prev := lv.getD (d - 1) []
    if current.length ≤ 1 then lv
    else lv.set d (sortBy
      (sweepLE a.adjacency dist a.orderIndex (d - 1) (indexMapOf prev))
      current)) lv

/-- Backward barycenter sweep over distances maxDistance-1 down to 0. -/
def backwardSweep (a : EngineArgs) (dist : StrMap ℕ) (maxD : ℕ)
    (lv : List (List String)) : List (List String) :=
  (List.range maxD).foldl (fun lv k =>
    let d := maxD - 1 - k
    let current := lv.getD d []
    let next := lv.getD (d + 1) []
    if current.length ≤ 1 then lv
    else lv.set d (sortBy
      (sweepLE a.adjacency dist a.orderIndex (d + 1) (indexMapOf next))
      current)) lv

/-- Eight iterations of forward then backward sweeps. -/
def barycenterIterations (a : EngineArgs) (dist : StrMap ℕ) (maxD : ℕ)
    (lv : List (List String)) : List (List String) :=
  (List.range 8).foldl (fun lv _ =>
    backwardSweep a dist maxD (forwardSweep a dist maxD lv)) lv

/-- Ordered levels of the layered engine after barycenter refinement. -/
def layeredOrderedLevels (a : EngineArgs) : List (List String) :=
  let dist := layeredDistanceMap a
  let maxD := layeredMaxDistance dist a.componentIds
  barycenterIterations a dist maxD (initialOrderedLevels a dist maxD)

/-- Write one ordered level into the center map: x from the distance, y
from the index within the level. -/
def levelWrite (opts : ResolvedOptions) (cs : StrMap Point)
    (dp : ℕ × List String) : StrMap Point :=
  let d := dp.1
  let ids := dp.2
  let count := ids.length
  let x := opts.ringSpacing * (d : ℚ) * opts.xScale
  let spacingY := opts.nodeSpacing * opts.yScale
  ids.enum.foldl (fun cs2 q =>
    cs2.set q.2 ⟨x, getLevelY q.1 count spacingY⟩) cs

/-- Centers induced by ordered levels. -/
def centersFromLevels (opts : ResolvedOptions) (lv : List (List String)) :
    StrMap Point :=
  lv.enum.foldl (levelWrite opts) Assoc.empty

/-- Initial centers of the layered engine, with the fallback that guarantees
the center id is present. -/
def layeredInitialCenters (a : EngineArgs) : StrMap Point :=
  let cs := centersFromLevels a.options (layeredOrderedLevels a)
  if cs.hasKey a.centerId then cs else cs.set a.centerId ⟨0, 0⟩

/-- Component edges of one engine attempt. -/
def engineComponentEdges (a : EngineArgs) : List GEdge :=
  filterComponentEdges a.edges a.componentIds

/-- Crossing count before the local swap refinement (0 when the component
has at most one edge). -/
def layeredInitialCrossings (a : EngineArgs) : ℤ :=
  if 1 < (engineComponentEdges a).length then
    countEdgeCrossings (layeredInitialCenters a) (engineComponentEdges a)
      a.componentIds
  else 0

/-- Loop constants of the local swap refinement. -/
structure RefineCtx where
  componentEdges : List GEdge
  incident : String → List ℕ
  opts : ResolvedOptions
  maxDistance : ℕ
  maxSwaps : ℕ

/-- Mutable state of the local swap refinement. -/
structure RefineState where
  lv : List (List String)
  centers : StrMap Point
  crossings : ℤ
  swaps : ℕ
  improved : Bool

/-- Append the members of ys not yet collected (the marker array dedup used
when the affected index list is assembled). -/
def dedupAppend (xs ys : List ℕ) : List ℕ :=
  (xs ++ ys).foldl (fun acc i => if acc.contains i then acc else acc ++ [i]) []

/-- One adjacent swap attempt at positions i and i+1 of level d: skip when
neither node has incident edges, otherwise evaluate the marked crossing
count before and after the swap, keep the swap exactly when it strictly
decreases, else roll the level order and the two centers back. The swap
counter increments on every evaluated attempt. -/
def swapAttempt (ctx : RefineCtx) (d : ℕ) (st : RefineState) (i : ℕ) :
    RefineState :=
  let ids := st.lv.getD d []
  let count := ids.length
  let x := ctx.opts.ringSpacing * (d : ℚ) * ctx.opts.xScale
  let spacingY := ctx.opts.nodeSpacing * ctx.opts.yScale
  match ids[i]?, ids[i + 1]? with
  | some aId, some bId =>
    let aInc := ctx.incident aId
    let bInc := ctx.incident bId
    if aInc.isEmpty && bInc.isEmpty then st
    else
      let affected := dedupAppend aInc bInc
      let before := countCrossingsInvolvingMarkedEdgeIndices
        ctx.componentEdges st.centers affected
      let yA := getLevelY i count spacingY
      let yB := getLevelY (i + 1) count spacingY
      let ids2 := (ids.set i bId).set (i + 1) aId
      let centers2 := (st.centers.set aId ⟨x, yB⟩).set bId ⟨x, yA⟩
      let after := countCrossingsInvolvingMarkedEdgeIndices
        ctx.componentEdges centers2 affected
      if after < before then
        { lv := st.lv.set d ids2
          centers := centers2
          crossings := st.crossings + after - before
          swaps := st.swaps + 1
          improved := true }
      else
        { st with
          lv := st.lv.set d ((ids2.set i aId).set (i + 1) bId)
          centers := (centers2.set aId ⟨x, yA⟩).set bId ⟨x, yB⟩
          swaps := st.swaps + 1 }
  | _, _ => st

/-- Inner loop over adjacent positions i of level d; the condition
i < length - 1 and crossings > 0 is re-evaluated on the live state each
iteration, and the loop breaks once the swap budget is reached. fuel bounds
the iterations (the level length is invariant under swaps, so the level
length is always enough). -/
def sweepPairs (ctx : RefineCtx) (d : ℕ) :
    ℕ → ℕ → RefineState → RefineState
  | 0, _, st => st
  | fuel + 1, i, st =>
    let ids := st.lv.getD d []
    if i + 1 < ids.length ∧ 0 < st.crossings then
      if ctx.maxSwaps ≤ st.swaps then st
      else sweepPairs ctx d fuel (i + 1) (swapAttempt ctx d st i)
    else st

/-- Middle loop over the levels of one pass: level d is swept when the live
crossing count is positive and the level holds at least two nodes. -/
def sweepLevels (ctx : RefineCtx) (st : RefineState) : RefineState :=
  (List.range (ctx.maxDistance + 1)).foldl (fun st d =>
    if 0 < st.crossings then
      let ids := st.lv.getD d []
      if ids.length ≤ 1 then st
      else sweepPairs ctx d ids.length 0 st
    else st) st

/-- Outer pass loop: run sweeps while passes remain and crossings are
positive, stopping when a pass makes no improvement or the swap budget is
spent. -/
def passLoop (ctx : RefineCtx) : ℕ → RefineState → RefineState
  | 0, st => st
  | n + 1, st =>
    if 0 < st.crossings then
      let st1 := sweepLevels ctx { st with improved := false }
      if st1.improved = false then st1
      else if ctx.maxSwaps ≤ st1.swaps then st1
      else passLoop ctx n st1
    else st

/-- Pass budget: min(24, max(6, ceil(nodeCount / 10))). -/
def refineMaxPasses (nodeCount : ℕ) : ℕ :=
  min 24 (max 6 ((nodeCount + 9) / 10))

/-- Swap budget: min(2000, nodeCount * 40). -/
def refineMaxSwaps (nodeCount : ℕ) : ℕ :=
  min 2000 (nodeCount * 40)

/-- Refinement context of one layered attempt. -/
def layeredRefineCtx (a : EngineArgs) : RefineCtx :=
  { componentEdges := engineComponentEdges a
    incident := buildIncidentEdgeIndexMap (engineComponentEdges a)
    opts := a.options
    maxDistance := layeredMaxDistance (layeredDistanceMap a) a.componentIds
    maxSwaps := refineMaxSwaps a.componentIds.length }

/-- Refinement state at the start of the local search. -/
def layeredStartState (a : EngineArgs) : RefineState :=
  { lv := layeredOrderedLevels a
    centers := layeredInitialCenters a
    crossings := layeredInitialCrossings a
    swaps := 0
    improved := false }

/-- computeLayeredCentersForComponent: BFS layers, barycenter ordering,
grid coordinates, then greedy adjacent swap local search when the initial
crossing count is positive and the component has more than one edge. -/
def computeLayeredCentersForComponent (a : EngineArgs) : EngineResult :=
  let st0 := layeredStartState a
  if 0 < st0.crossings ∧ 1 < (engineComponentEdges a).length then
    let stF := passLoop (layeredRefineCtx a)
      (refineMaxPasses a.componentIds.length) st0
    { centers := stF.centers, crossings := stF.crossings }
  else
    { centers := st0.centers, crossings := st0.crossings }

/-- Parameters of the JS math library used by the radial engine: pi, cosine,
sine and square root are opaque to this development (floating point trig is
not exactly real trig, so the radial claims are proved for every choice of
these parameters). -/
structure MathModel where
  pi : ℚ
  cos : ℚ → ℚ
  sin : ℚ → ℚ
  sqrt : ℚ → ℚ

/-- JS Math.round: floor of x + 1/2. -/
def jsRound (x : ℚ) : ℤ := ⌊x + 1 / 2⌋

/-- Enqueue step of the parent recording BFS. -/
def parentStep (componentSet : List String) (currentId : String) (d : ℕ)
    (dpq : StrMap ℕ × StrMap (Option String) × List String)
    (neighborId : String) :
    StrMap ℕ × StrMap (Option String) × List String :=
  if !(componentSet.contains neighborId) then dpq
  else if (dpq.1.get neighborId).isSome then dpq
  else (dpq.1.set neighborId (d + 1),
    dpq.2.1.set neighborId (some currentId),
    dpq.2.2 ++ [neighborId])

/-- BFS loop recording distances and spanning tree parents (first
discoverer wins). -/
def parentBfsLoop (adjacency : String → List String)
    (componentSet : List String) :
    ℕ → StrMap ℕ → StrMap (Option String) → List String → ℕ →
      StrMap ℕ × StrMap (Option String)
  | 0, dist, par, _, _ => (dist, par)
  | fuel + 1, dist, par, queue, head =>
    match queue[head]? with
    | none => (dist, par)
    | some currentId =>
      match dist.get currentId with
      | none =>
        parentBfsLoop adjacency componentSet fuel dist par queue (head + 1)
      | some d =>
        let step := (adjacency currentId).foldl
          (parentStep componentSet currentId d) (dist, par, queue)
        parentBfsLoop adjacency componentSet fuel step.1 step.2.1 step.2.2
          (head + 1)

/-- Distance and parent maps of the radial engine BFS. -/
def radialBfs (a : EngineArgs) : StrMap ℕ × StrMap (Option String) :=
  parentBfsLoop a.adjacency a.componentIds (a.componentIds.length + 1)
    (Assoc.empty.set a.centerId 0) (Assoc.empty.set a.centerId none)
    [a.centerId] 0

/-- Greatest value of the distance map (with floor 0); the radial engine
takes the max over the map values rather than over the component ids. -/
def radialMaxDistance (dist : StrMap ℕ) : ℕ :=
  (dist.map (fun p => p.2)).foldl max 0

/-- First level neighbors of the root, ordered by ambient index. -/
def radialRootChildren (a : EngineArgs) (dist : StrMap ℕ) : List String :=
  sortBy (ambientLE a.orderIndex)
    (a.componentIds.filter (fun id => dist.get id = some 1))

/-- getRootChildGroup: walk the BFS parent chain up to the child of the
root. The source memoises this recursion in a cache map, which does not
change its value; the recursion is modelled with fuel (each step moves to
the BFS parent, whose distance is strictly smaller, so the component size
bounds the chain length). A falsy parent entry (absent, null or the empty
string) yields null. -/
def getRootChildGroup (centerId : String) (par : StrMap (Option String)) :
    ℕ → String → Option String
  | 0, _ => none
  | fuel + 1, nodeId =>
    if nodeId = centerId then none
    else
      match par.get nodeId with
      | none => none
      | some none => none
      | some (some p) =>
        if p = "" then none
        else if p = centerId then
          (if nodeId = "" then none else some nodeId)
        else getRootChildGroup centerId par fuel p

/-- Subtree sizes of the root children: count of non-root component ids in
each group. -/
def radialGroupSize (a : EngineArgs) (par : StrMap (Option String))
    (rootChildren : List String) : StrMap ℕ :=
  let fuel := a.componentIds.length + 1
  let init := rootChildren.foldl (fun m gid => m.set gid 0) Assoc.empty
  a.componentIds.foldl (fun m id =>
    if id = a.centerId then m
    else
      match getRootChildGroup a.centerId par fuel id with
      | none => m
      | some g => m.set g ((m.get g).getD 0 + 1)) init

/-- Nodes of each group at each positive depth, in component order. -/
def radialGroupDepthNodes (a : EngineArgs) (dist : StrMap ℕ)
    (par : StrMap (Option String)) (rootChildren : List String) :
    Assoc String (Assoc ℕ (List String)) :=
  let fuel := a.componentIds.length + 1
  let init := rootChildren.foldl (fun m gid => m.set gid Assoc.empty)
    Assoc.empty
  a.componentIds.foldl (fun m id =>
    if id = a.centerId then m
    else
      match dist.get id with
      | none => m
      | some depth =>
        if depth = 0 then m
        else
          match getRootChildGroup a.centerId par fuel id with
          | none => m
          | some g =>
            match m.get g with
            | none => m
            | some depthMap =>
              let list := (depthMap.get depth).getD []
              m.set g (depthMap.set depth (list ++ [id]))) init

/-- Angular wedge of one root child. -/
structure Wedge where
  start : ℚ
  span : ℚ
  innerStart : ℚ
  innerSpan : ℚ
deriving DecidableEq, Repr

/-- Weight of one group: max single layer width plus a rounded square root
share of the subtree size. -/
def radialGroupWeight (M : MathModel)
    (depthNodes : Assoc String (Assoc ℕ (List String))) (size : StrMap ℕ)
    (gid : String) : ℤ :=
  let maxLayerCount :=
    ((depthNodes.get gid).getD Assoc.empty).foldl
      (fun m p => max m p.2.length) 1
  let s : ℕ := max 1 ((size.get gid).getD 1)
  max 1 ((maxLayerCount : ℤ) + jsRound (M.sqrt (s : ℚ) * (7 / 20)))

/-- Wedge assignment: angle spans proportional to the group weights, with a
shared gap and a trimmed inner margin. -/
def radialWedges (M : MathModel) (seed : ℕ) (rootChildren : List String)
    (weight : String → ℤ) : Assoc String Wedge :=
  let totalGap := min (2 * M.pi * (1 / 25)) (7 / 20)
  let gap := totalGap / (rootChildren.length : ℚ)
  let availableAngle := 2 * M.pi - totalGap
  let baseStartAngle := -(M.pi / 2) + (seed : ℚ) * (37 / 100)
  let totalWeight : ℚ :=
    max 1 ((rootChildren.foldl (fun s gid => s + weight gid) 0 : ℤ) : ℚ)
  (rootChildren.foldl (fun (st : Assoc String Wedge × ℚ) gid =>
    let w : ℚ := (weight gid : ℚ)
    let span := availableAngle * (w / totalWeight)
    let margin := min (3 / 50) (span * (2 / 25))
    let innerSpan := max (1 / 10000) (span - 2 * margin)
    (st.1.set gid ⟨st.2, span, st.2 + margin, innerSpan⟩, st.2 + span + gap))
    (Assoc.empty, baseStartAngle)).1

/-- Angle comparator of one depth ring: by assigned parent angle (falsy
parents and unassigned angles count 0), ties by ambient index. -/
def parentAngleLE (orderIndex : StrMap ℕ) (par : StrMap (Option String))
    (angleById : StrMap ℚ) (x y : String) : Bool :=
  let angleOf := fun (id : String) =>
    match par.get id with
    | some (some p) => if p = "" then 0 else (angleById.get p).getD 0
    | _ => (0 : ℚ)
  let ax := angleOf x
  let ay := angleOf y
  if ax ≠ ay then decide (ax ≤ ay) else ambientLE orderIndex x y

/-- Depth blending weight alpha. -/
def radialAlpha (depth : ℕ) : ℚ :=
  if depth ≤ 1 then 0
  else max (1 / 4) (9 / 20 - ((depth : ℚ) - 2) * (2 / 25))

/-- Angle assignment pass: depths outward, groups in root child order, the
ring of one group sorted by parent angle and spread over the inner span,
blended toward the parent angle by alpha. -/
def radialAngles (a : EngineArgs) (par : StrMap (Option String))
    (depthNodes : Assoc String (Assoc ℕ (List String)))
    (wedges : Assoc String Wedge) (rootChildren : List String)
    (maxD : ℕ) : StrMap ℚ :=
  let start := Assoc.empty.set a.centerId (0 : ℚ)
  (List.range maxD).foldl (fun angleById k =>
    let depth := k + 1
    rootChildren.foldl (fun angleById gid =>
      match wedges.get gid with
      | none => angleById
      | some wedge =>
        let ids := (((depthNodes.get gid).getD Assoc.empty).get depth).getD []
        if ids.isEmpty then angleById
        else
          let sorted := sortBy (parentAngleLE a.orderIndex par angleById) ids
          let count := sorted.length
          let alpha := radialAlpha depth
          sorted.enum.foldl (fun angleById p =>
            let uniformAngle := wedge.innerStart +
              wedge.innerSpan * (((p.1 : ℚ) + 1 / 2) / (count : ℚ))
            let desiredAngle :=
              match par.get p.2 with
              | some (some q) =>
                if q = "" then uniformAngle
                else (angleById.get q).getD uniformAngle
              | _ => uniformAngle
            angleById.set p.2
              (uniformAngle * (1 - alpha) + desiredAngle * alpha)) angleById)
      angleById) start

/-- Per group radius tables: rings accumulate outward by the minimum ring
spacing, with an arc length lower bound when a ring holds several nodes. -/
def radialRadiusTables (opts : ResolvedOptions)
    (depthNodes : Assoc String (Assoc ℕ (List String)))
    (wedges : Assoc String Wedge) (rootChildren : List String)
    (maxD : ℕ) : Assoc String (Assoc ℕ ℚ) :=
  let minRingSpacing := max opts.ringSpacing (NODE_CENTER_OFFSET.y * 2 + 28)
  let minNodeSpacing := max opts.nodeSpacing (NODE_CENTER_OFFSET.x * 2 + 24)
  rootChildren.foldl (fun tables gid =>
    match wedges.get gid with
    | none => tables
    | some wedge =>
      match depthNodes.get gid with
      | none => tables
      | some depthMap =>
        let table := ((List.range maxD).foldl
          (fun (st : Assoc ℕ ℚ × ℚ) k =>
            let depth := k + 1
            let count := ((depthMap.get depth).getD []).length
            if count = 0 then st
            else
              let baseRadius := st.2 + minRingSpacing
              let requiredRadius : ℚ :=
                if 1 < count then
                  minNodeSpacing * ((count : ℚ) - 1) / wedge.innerSpan
                else 0
              let radius := max baseRadius requiredRadius
              (st.1.set depth radius, radius))
          (Assoc.empty, 0)).1
        tables.set gid table) Assoc.empty

/-- Final coordinate step of the radial engine: skip the root, look up
ring radius and angle, emit the polar coordinates. The group falsy check of
the radius lookup treats the empty string group like null. -/
def radialCenterStep (M : MathModel) (a : EngineArgs) (dist : StrMap ℕ)
    (par : StrMap (Option String)) (tables : Assoc String (Assoc ℕ ℚ))
    (angleById : StrMap ℚ) (minRingSpacing : ℚ) (fuel : ℕ)
    (cs : StrMap Point) (id : String) : StrMap Point :=
  if id = a.centerId then cs
  else
    match dist.get id with
    | none => cs
    | some depth =>
      if depth = 0 then cs
      else
        let radius :=
          match getRootChildGroup a.centerId par fuel id with
          | some g =>
            (((tables.get g).getD Assoc.empty).get depth).getD
              ((depth : ℚ) * minRingSpacing)
          | none => (depth : ℚ) * minRingSpacing
        match angleById.get id with
        | none => cs
        | some angle =>
          cs.set id ⟨M.cos angle * radius * a.options.xScale,
            M.sin angle * radius * a.options.yScale⟩

/-- computeRadialCentersForComponent: BFS rings around the root, wedges per
root child, angles blended toward parents, per wedge radii, then uniform
compression and a crossing count. -/
def computeRadialCentersForComponent (M : MathModel) (a : EngineArgs) :
    EngineResult :=
  let componentEdges := engineComponentEdges a
  let bfs := radialBfs a
  let dist := bfs.1
  let par := bfs.2
  let maxD := radialMaxDistance dist
  let rootChildren := radialRootChildren a dist
  let centers0 : StrMap Point := Assoc.empty.set a.centerId ⟨0, 0⟩
  if rootChildren.isEmpty then { centers := centers0, crossings := 0 }
  else
    let fuel := a.componentIds.length + 1
    let size := radialGroupSize a par rootChildren
    let depthNodes := radialGroupDepthNodes a dist par rootChildren
    let weight := radialGroupWeight M depthNodes size
    let wedges := radialWedges M a.seed rootChildren weight
    let angleById := radialAngles a par depthNodes wedges rootChildren maxD
    let tables := radialRadiusTables a.options depthNodes wedges
      rootChildren maxD
    let minRingSpacing :=
      max a.options.ringSpacing (NODE_CENTER_OFFSET.y * 2 + 28)
    let centers := a.componentIds.foldl
      (radialCenterStep M a dist par tables angleById minRingSpacing fuel)
      centers0
    let ids := a.centerId :: a.componentIds.filter (fun id => id ≠ a.centerId)
    let compress := compressCentersIfPossible centers ids (7 / 20) 10
    let finalCenters := compress.centers
    let crossings :=
      if 1 < componentEdges.length then
        countEdgeCrossings finalCenters componentEdges a.componentIds
      else 0
    { centers := finalCenters, crossings := crossings }

/-- One engine attempt, selected by layoutStyle. -/
def engineAttempt (M : MathModel) (a : EngineArgs) : EngineResult :=
  match a.options.layoutStyle with
  | LayoutStyle.layered => computeLayeredCentersForComponent a
  | LayoutStyle.radial => computeRadialCentersForComponent M a

/-- Arguments of one component layout, without the seed. -/
structure ComponentArgs where
  componentIds : List String
  centerId : String
  adjacency : String → List String
  orderIndex : StrMap ℕ
  edges : List GEdge
  options : ResolvedOptions

/-- EngineArgs of one attempt. -/
def ComponentArgs.withSeed (c : ComponentArgs) (seed : ℕ) : EngineArgs :=
  { componentIds := c.componentIds
    centerId := c.centerId
    adjacency := c.adjacency
    orderIndex := c.orderIndex
    edges := c.edges
    options := c.options
    seed := seed }

/-- Strict comparison against the best crossing count so far, where none is
the initial positive infinity. -/
def betterThan (r : ℤ) (best : Option ℤ) : Bool :=
  match best with
  | none => true
  | some b => decide (r < b)

/-- Attempt loop of the orchestrator: run seeds in order, short circuit on
zero crossings, otherwise keep the strictly best attempt; the best crossing
count starts at infinity (modelled as none). -/
def bestLoop (M : MathModel) (c : ComponentArgs) :
    ℕ → ℕ → Option (StrMap Point) → Option ℤ → EngineResult
  | _, 0, bestCenters, bestCrossings =>
    { centers := bestCenters.getD Assoc.empty
      crossings := bestCrossings.getD 0 }
  | seed, n + 1, bestCenters, bestCrossings =>
    let r := engineAttempt M (c.withSeed seed)
    if r.crossings = 0 then { centers := r.centers, crossings := 0 }
    else if betterThan r.crossings bestCrossings then
      bestLoop M c (seed + 1) n (some r.centers) (some r.crossings)
    else bestLoop M c (seed + 1) n bestCenters bestCrossings

/-- computeBestCentersForComponent: best of max(1, maxAttempts) seeds. -/
def computeBestCentersForComponent (M : MathModel) (c : ComponentArgs) :
    EngineResult :=
  bestLoop M c 0 (max 1 c.options.maxAttempts) none none

/-- Ambient order index map of the node list (forEach set, so the last
occurrence of a duplicated id wins, as in the source). -/
def buildOrderIndex (nodeIdsInOrder : List String) : StrMap ℕ :=
  nodeIdsInOrder.enum.foldl (fun m p => m.set p.2 p.1) Assoc.empty

/-- Packing state of the extra component loop. -/
structure PackState where
  placedCenters : StrMap Point
  crossings : ℤ
  cursorX : ℚ
  cursorY : ℚ
  columnWidth : ℚ

/-- One packing step: start a new column when the current one is full,
then place the component at the cursor. -/
def packStep (opts : ResolvedOptions) (rootBounds : Bounds)
    (columnMaxHeight : ℚ) (st : PackState)
    (layout : List String × StrMap Point × ℤ) : PackState :=
  let ids := layout.1
  let centers := layout.2.1
  let relBounds := computeBoundsFromCenters centers ids 80
  let st :=
    if st.cursorY + relBounds.height > rootBounds.minY + columnMaxHeight
        ∧ st.cursorY ≠ rootBounds.minY then
      { st with
        cursorX := st.cursorX + st.columnWidth + opts.componentGap
        cursorY := rootBounds.minY
        columnWidth := 0 }
    else st
  let offsetX := st.cursorX - relBounds.minX
  let offsetY := st.cursorY - relBounds.minY
  let placed := placeCenters centers ids
    (fun rel => ⟨rel.x + offsetX, rel.y + offsetY⟩) st.placedCenters
  { placedCenters := placed
    crossings := st.crossings + layout.2.2
    cursorX := st.cursorX
    cursorY := st.cursorY + relBounds.height + opts.componentGap
    columnWidth := max st.columnWidth relBounds.width }

/-- Place the extra components in packed columns to the right of the root
bounds. -/
def packOtherComponents (opts : ResolvedOptions) (rootBounds : Bounds)
    (columnMaxHeight : ℚ)
    (layouts : List (List String × StrMap Point × ℤ))
    (placedCenters : StrMap Point) (crossings : ℤ) : StrMap Point × ℤ :=
  let final := layouts.foldl (packStep opts rootBounds columnMaxHeight)
    { placedCenters := placedCenters
      crossings := crossings
      cursorX := rootBounds.maxX + opts.componentGap
      cursorY := rootBounds.minY
      columnWidth := 0 }
  (final.placedCenters, final.crossings)

/-- Node ids of the snapshot, in order. -/
def composerNodeIds (nodes : List GNode) : List String :=
  nodes.map (fun n => n.id)

/-- Undirected adjacency of the snapshot. -/
def composerAdjacency (nodes : List GNode) (edges : List GEdge) :
    String → List String :=
  buildUndirectedAdjacency (composerNodeIds nodes) edges

/-- Node ids of the root component, in snapshot order. -/
def composerRootComponentIds (nodes : List GNode) (edges : List GEdge)
    (rootId : String) : List String :=
  (composerNodeIds nodes).filter (fun id =>
    (computeComponentIdSetFromRoot rootId (composerAdjacency nodes edges)
      ((composerNodeIds nodes).length + 2)).contains id)

/-- Component arguments of the root component layout. -/
def composerRootArgs (nodes : List GNode) (edges : List GEdge)
    (rootId : String) (options : AutoLayoutOptions) : ComponentArgs :=
  { componentIds := composerRootComponentIds nodes edges rootId
    centerId := rootId
    adjacency := composerAdjacency nodes edges
    orderIndex := buildOrderIndex (composerNodeIds nodes)
    edges := edges
    options := mergeOptions options }

/-- World anchored centers of the root component. -/
def composerPlacedCenters (M : MathModel) (nodes : List GNode)
    (edges : List GEdge) (rootId : String) (options : AutoLayoutOptions)
    (rootCenter : Point) : StrMap Point :=
  placeCenters
    (computeBestCentersForComponent M
      (composerRootArgs nodes edges rootId options)).centers
    (composerRootComponentIds nodes edges rootId)
    (fun rel => ⟨rootCenter.x + rel.x, rootCenter.y + rel.y⟩) Assoc.empty

/-- Layouts of the non root components, in discovery order. -/
def composerOtherLayouts (M : MathModel) (nodes : List GNode)
    (edges : List GEdge) (rootId : String) (options : AutoLayoutOptions) :
    List (List String × StrMap Point × ℤ) :=
  let otherComponents := (computeConnectedComponents (composerNodeIds nodes)
    (composerAdjacency nodes edges)).filter (fun ids =>
      !(ids.contains rootId))
  otherComponents.map (fun componentIds =>
    let layout := computeBestCentersForComponent M
      { componentIds := componentIds
        centerId := chooseComponentCenterId componentIds
          (composerAdjacency nodes edges)
          (buildOrderIndex (composerNodeIds nodes))
        adjacency := composerAdjacency nodes edges
        orderIndex := buildOrderIndex (composerNodeIds nodes)
        edges := edges
        options := mergeOptions options }
    (componentIds, layout.centers, layout.crossings))

/-- Placed centers and total crossings after the optional packing of the
other components. -/
def composerPacked (M : MathModel) (nodes : List GNode)
    (edges : List GEdge) (rootId : String) (options : AutoLayoutOptions)
    (rootCenter : Point) : StrMap Point × ℤ :=
  let placedCenters := composerPlacedCenters M nodes edges rootId options
    rootCenter
  let rootCrossings := (computeBestCentersForComponent M
    (composerRootArgs nodes edges rootId options)).crossings
  if (mergeOptions options).includeOtherComponents then
    let rootBounds := computeBoundsFromCenters placedCenters
      (composerRootComponentIds nodes edges rootId) 80
    let columnMaxHeight := max (mergeOptions options).columnMaxHeight
      rootBounds.height
    packOtherComponents (mergeOptions options) rootBounds columnMaxHeight
      (composerOtherLayouts M nodes edges rootId options) placedCenters
      rootCrossings
  else (placedCenters, rootCrossings)

/-- computeAutoLayoutPositions: the placement composer. Finds the root node,
discovers the root component, runs the orchestrator, translates the
relative centers to the root anchor, optionally packs the other components,
and converts centers back to top-left positions. -/
def computeAutoLayoutPositions (M : MathModel) (nodes : List GNode)
    (edges : List GEdge) (rootId : String) (options : AutoLayoutOptions) :
    AutoLayoutResult :=
  match nodes.find? (fun n => n.id = rootId) with
  | none => { positions := Assoc.empty, crossings := 0 }
  | some rootNode =>
    if (composerRootComponentIds nodes edges rootId).isEmpty then
      { positions := Assoc.empty, crossings := 0 }
    else
      let rootCenter : Point :=
        ⟨rootNode.position.x + NODE_CENTER_OFFSET.x,
         rootNode.position.y + NODE_CENTER_OFFSET.y⟩
      let packed := composerPacked M nodes edges rootId options rootCenter
      let positions : StrMap Point := packed.1.map (fun p =>
        (p.1, ⟨p.2.x - NODE_CENTER_OFFSET.x, p.2.y - NODE_CENTER_OFFSET.y⟩))
      { positions := positions, crossings := packed.2 }

/-- Options of the store action autoLayoutFromNode: the recognised layout
options plus the fixedNodeIds list the store merges with the locked nodes.
The engine interface of the layout module does not declare fixedNodeIds, so
the merged list is forwarded inside the options object but never read. -/
structure StoreLayoutOptions where
  base : AutoLayoutOptions := {}
  fixedNodeIds : Option (List String) := none

/-- JS Set built from a list: first occurrence order, duplicates dropped. -/
def dedupStr (l : List String) : List String :=
  l.foldl (fun acc x => if acc.contains x then acc else acc ++ [x]) []

/-- Set of fixed node ids the store assembles: caller supplied fixedNodeIds
merged with the ids of the nodes whose data is locked. -/
def storeFixedNodeIdSet (nodes : List GNode)
    (options : Option StoreLayoutOptions) : List String :=
  let lockedNodeIds := (nodes.filter (fun n => n.locked)).map (fun n => n.id)
  dedupStr (((options.map (fun o => o.fixedNodeIds)).join.getD [])
    ++ lockedNodeIds)

/-- Result of the store action. -/
structure StoreLayoutOutcome where
  nodes : List GNode
  ok : Bool
  crossings : ℤ

/-- autoLayoutFromNode of the graph store: assemble the fixed id set, run
the composer (which ignores the forwarded fixedNodeIds key), and on a non
empty result apply every returned position to the node list. -/
def autoLayoutFromNode (M : MathModel) (nodes : List GNode)
    (edges : List GEdge) (nodeId : String)
    (options : Option StoreLayoutOptions) : StoreLayoutOutcome :=
  let result := computeAutoLayoutPositions M nodes edges nodeId
    ((options.map (fun o => o.base)).getD {})
  if result.positions.size = 0 then
    { nodes := nodes, ok := false, crossings := result.crossings }
  else
    { nodes := nodes.map (fun node =>
        match result.positions.get node.id with
        | none => node
        | some position => { node with position := position })
      ok := true
      crossings := result.crossings }

section AssocLemmas

variable {κ α : Type} [DecidableEq κ]

theorem Assoc.get_empty (k : κ) : (Assoc.empty : Assoc κ α).get k = none :=
  rfl

theorem Assoc.get_cons (a : κ × α) (m : Assoc κ α) (q : κ) :
    Assoc.get (a :: m) q = if a.1 = q then some a.2 else m.get q := by
  by_cases h : a.1 = q <;> simp [Assoc.get, List.find?_cons, h]

theorem Assoc.get_replace_ne (m : Assoc κ α) (k : κ) (v : α) (q : κ)
    (h : q ≠ k) :
    Assoc.get (m.map (fun p => if p.1 = k then (k, v) else p)) q = m.get q := by
  induction m with
  | nil => rfl
  | cons a rest ih =>
    rw [List.map_cons]
    by_cases ha : a.1 = k
    · rw [if_pos ha, Assoc.get_cons, Assoc.get_cons, if_neg (fun hh : a.1 = q => h (ha ▸ hh).symm)]
      exact (if_neg (fun hh : (k, v).1 = q => h hh.symm)) ▸ ih
    · rw [if_neg ha, Assoc.get_cons, Assoc.get_cons]
      by_cases haq : a.1 = q
      · rw [if_pos haq, if_pos haq]
      · rw [if_neg haq, if_neg haq, ih]

theorem Assoc.get_replace_eq (m : Assoc κ α) (k : κ) (v : α)
    (h : m.any (fun p => p.1 = k) = true) :
    Assoc.get (m.map (fun p => if p.1 = k then (k, v) else p)) k = some v := by
  induction m with
  | nil => simp at h
  | cons a rest ih =>
    rw [List.map_cons]
    by_cases ha : a.1 = k
    · rw [if_pos ha, Assoc.get_cons, if_pos (rfl : (k, v).1 = k)]
    · rw [if_neg ha, Assoc.get_cons, if_neg ha]
      refine ih ?_
      rcases List.any_eq_true.mp h with ⟨p, hp, hpk⟩
      cases List.mem_cons.mp hp with
      | inl heq => exact absurd (by rw [heq] at hpk; exact of_decide_eq_true hpk) ha
      | inr hmem => exact List.any_eq_true.mpr ⟨p, hmem, hpk⟩

theorem Assoc.get_append_single (m : Assoc κ α) (k : κ) (v : α) (q : κ) :
    Assoc.get (m ++ [(k, v)]) q =
      match m.get q with
      | some w => some w
      | none => if k = q then some v else none := by
  induction m with
  | nil =>
    show Assoc.get [(k, v)] q = if k = q then some v else none
    rw [Assoc.get_cons]
    rfl
  | cons a rest ih =>
    rw [List.cons_append, Assoc.get_cons, Assoc.get_cons]
    by_cases ha : a.1 = q
    · rw [if_pos ha, if_pos ha]
    · rw [if_neg ha, if_neg ha, ih]

theorem Assoc.get_none_of_not_any (m : Assoc κ α) (q : κ)
    (h : m.any (fun p => p.1 = q) = false) : m.get q = none := by
  induction m with
  | nil => rfl
  | cons a rest ih =>
    simp only [List.any_cons, Bool.or_eq_false_iff, decide_eq_false_iff_not]
      at h
    rw [Assoc.get_cons, if_neg h.1, ih h.2]

/-- JS Map get after set. -/
theorem Assoc.get_set (m : Assoc κ α) (k : κ) (v : α) (q : κ) :
    (m.set k v).get q = if q = k then some v else m.get q := by
  unfold Assoc.set
  by_cases hany : m.any (fun p => p.1 = k) = true
  · rw [if_pos hany]
    by_cases hq : q = k
    · subst hq; rw [if_pos rfl]; exact Assoc.get_replace_eq m q v hany
    · rw [if_neg hq]; exact Assoc.get_replace_ne m k v q hq
  · rw [if_neg hany, Assoc.get_append_single]
    by_cases hq : q = k
    · subst hq
      rw [Assoc.get_none_of_not_any m q (Bool.eq_false_iff.mpr hany)]
    · rw [if_neg hq]
      cases hm : m.get q with
      | some w => rfl
      | none => rw [if_neg (fun hh : k = q => hq hh.symm)]

theorem Assoc.hasKey_iff_get_isSome (m : Assoc κ α) (k : κ) :
    m.hasKey k = true ↔ (m.get k).isSome = true := by
  unfold Assoc.hasKey Assoc.get
  simp [List.any_eq_true, List.find?_isSome]

/-- get through a value translating map (key preserving). -/
theorem Assoc.get_map_value (m : Assoc κ α) {β : Type} (f : κ × α → β)
    (q : κ) :
    Assoc.get (m.map (fun p => (p.1, f p))) q =
      (m.get q).map (fun v => f (q, v)) := by
  induction m with
  | nil => rfl
  | cons a rest ih =>
    rw [List.map_cons, Assoc.get_cons, Assoc.get_cons]
    by_cases ha : a.1 = q
    · rw [if_pos (ha : ((a.1, f a) : κ × β).1 = q), if_pos ha]
      show some (f a) = some (f (q, a.2))
      rw [← ha]
    · rw [if_neg (ha : ¬((a.1, f a) : κ × β).1 = q), if_neg ha, ih]

end AssocLemmas

section SumLemmas

variable {α β : Type}

theorem listSum_nil (f : α → ℤ) : listSum [] f = 0 := rfl

theorem listSum_cons (x : α) (xs : List α) (f : α → ℤ) :
    listSum (x :: xs) f = f x + listSum xs f := by
  simp [listSum]

theorem listSum_congr {l : List α} {f g : α → ℤ}
    (h : ∀ x ∈ l, f x = g x) : listSum l f = listSum l g := by
  induction l with
  | nil => rfl
  | cons x xs ih =>
    rw [listSum_cons, listSum_cons, h x (List.mem_cons_self x xs),
      ih (fun y hy => h y (List.mem_cons_of_mem x hy))]

theorem listSum_const_zero (l : List α) :
    listSum l (fun _ => (0 : ℤ)) = 0 := by
  induction l with
  | nil => rfl
  | cons x xs ih => rw [listSum_cons, ih]; ring

theorem listSum_zero {l : List α} {f : α → ℤ} (h : ∀ x ∈ l, f x = 0) :
    listSum l f = 0 := by
  rw [listSum_congr h, listSum_const_zero]

theorem listSum_add (l : List α) (f g : α → ℤ) :
    listSum l (fun x => f x + g x) = listSum l f + listSum l g := by
  induction l with
  | nil => rfl
  | cons x xs ih => rw [listSum_cons, listSum_cons, listSum_cons, ih]; ring

theorem listSum_sub (l : List α) (f g : α → ℤ) :
    listSum l (fun x => f x - g x) = listSum l f - listSum l g := by
  induction l with
  | nil => rfl
  | cons x xs ih => rw [listSum_cons, listSum_cons, listSum_cons, ih]; ring

theorem listSum_append (l1 l2 : List α) (f : α → ℤ) :
    listSum (l1 ++ l2) f = listSum l1 f + listSum l2 f := by
  simp [listSum]

theorem listSum_perm {l1 l2 : List α} (h : l1.Perm l2) (f : α → ℤ) :
    listSum l1 f = listSum l2 f :=
  (h.map f).sum_eq

theorem listSum_split (l : List α) (p : α → Bool) (f : α → ℤ) :
    listSum l f =
      listSum (l.filter p) f + listSum (l.filter (fun x => !(p x))) f := by
  induction l with
  | nil => rfl
  | cons x xs ih =>
    by_cases hp : p x
    · rw [listSum_cons, List.filter_cons_of_pos hp, listSum_cons,
        List.filter_cons_of_neg (by simp [hp]), ih]
      ring
    · rw [listSum_cons, List.filter_cons_of_neg (by simpa using hp),
        List.filter_cons_of_pos (by simpa using hp), listSum_cons, ih]
      ring

theorem listSum_swap (l : List α) (m : List β) (g : α → β → ℤ) :
    listSum l (fun x => listSum m (g x)) =
      listSum m (fun y => listSum l (fun x => g x y)) := by
  induction l with
  | nil =>
    rw [listSum_nil, listSum_zero (fun y _ => listSum_nil _)]
  | cons x xs ih =>
    rw [listSum_cons, ih, ← listSum_add]
    exact listSum_congr (fun y _ => (listSum_cons x xs (fun x => g x y)).symm)

theorem pairSum_nil (f : α → α → ℤ) : pairSum f [] = 0 := rfl

theorem pairSum_cons (f : α → α → ℤ) (x : α) (xs : List α) :
    pairSum f (x :: xs) = listSum xs (f x) + pairSum f xs := rfl

theorem pairSum_congr {l : List α} {f g : α → α → ℤ}
    (h : ∀ x ∈ l, ∀ y ∈ l, f x y = g x y) : pairSum f l = pairSum g l := by
  induction l with
  | nil => rfl
  | cons x xs ih =>
    rw [pairSum_cons, pairSum_cons,
      listSum_congr (fun y hy => h x (List.mem_cons_self x xs) y
        (List.mem_cons_of_mem x hy)),
      ih (fun a ha b hb => h a (List.mem_cons_of_mem x ha) b
        (List.mem_cons_of_mem x hb))]

theorem pairSum_sub (l : List α) (f g : α → α → ℤ) :
    pairSum (fun x y => f x y - g x y) l = pairSum f l - pairSum g l := by
  induction l with
  | nil => rfl
  | cons x xs ih => rw [pairSum_cons, pairSum_cons, pairSum_cons, listSum_sub, ih]; ring

theorem pairSum_two_mul {l : List α} {f : α → α → ℤ}
    (hsym : ∀ x ∈ l, ∀ y ∈ l, f x y = f y x) :
    2 * pairSum f l =
      listSum l (fun x => listSum l (f x)) - listSum l (fun x => f x x) := by
  induction l with
  | nil => rfl
  | cons x xs ih =>
    have hx : x ∈ x :: xs := List.mem_cons_self x xs
    have hsub : ∀ a ∈ xs, ∀ b ∈ xs, f a b = f b a := fun a ha b hb =>
      hsym a (List.mem_cons_of_mem x ha) b (List.mem_cons_of_mem x hb)
    rw [pairSum_cons, listSum_cons, listSum_cons, listSum_cons]
    rw [listSum_congr (fun a (ha : a ∈ xs) =>
      listSum_cons x xs (f a) : ∀ a ∈ xs, listSum (x :: xs) (f a) = _)]
    rw [listSum_add, listSum_congr (fun a ha => hsym a
      (List.mem_cons_of_mem x ha) x hx)]
    have := ih hsub
    ring_nf
    ring_nf at this
    linarith [this]

end SumLemmas

section PermLemmas

variable {α : Type}

theorem insertLE_perm (le : α → α → Bool) (x : α) (l : List α) :
    (insertLE le x l).Perm (x :: l) := by
  induction l with
  | nil => exact List.Perm.refl _
  | cons y ys ih =>
    unfold insertLE
    by_cases h : le x y
    · rw [if_pos h]
    · rw [if_neg h]
      exact (List.Perm.cons y ih).trans (List.Perm.swap x y ys)

theorem sortBy_perm (le : α → α → Bool) (l : List α) :
    (sortBy le l).Perm l := by
  induction l with
  | nil => exact List.Perm.refl _
  | cons x xs ih =>
    exact (insertLE_perm le x (sortBy le xs)).trans (List.Perm.cons x ih)

theorem seedPerturb_perm (seed : ℕ) (l : List String) :
    (seedPerturb seed l).Perm l := by
  unfold seedPerturb
  by_cases hlen : l.length > 1
  · rw [if_pos hlen]
    by_cases hseed : seed % 2 = 1
    · rw [if_pos hseed]
      by_cases hoff : seed % l.reverse.length ≠ 0
      · rw [if_pos hoff]
        exact (List.perm_append_comm.trans
          (by rw [List.take_append_drop])).trans (List.reverse_perm l)
      · rw [if_neg hoff]
        exact List.reverse_perm l
    · rw [if_neg hseed]
      by_cases hoff : seed % l.length ≠ 0
      · rw [if_pos hoff]
        exact List.perm_append_comm.trans (by rw [List.take_append_drop])
      · rw [if_neg hoff]
  · rw [if_neg hlen]

end PermLemmas

/-- Concrete math model used by closed evaluations; the theorems about the
radial engine hold for every MathModel, and the closed evaluations below
exercise only code paths that never call the model. -/
def trivMathModel : MathModel :=
  { pi := 0, cos := fun _ => 0, sin := fun _ => 0, sqrt := fun _ => 0 }

section AdjacencyLemmas

/-- Every neighbor produced by adjacency construction lies in the node set,
and a node outside the node set has an empty neighbor list entry. -/
theorem mem_buildUndirectedAdjacency {nodeIds : List String}
    {edges : List GEdge} {n m : String}
    (h : m ∈ buildUndirectedAdjacency nodeIds edges n) :
    nodeIds.contains m = true ∧ nodeIds.contains n = true := by
  unfold buildUndirectedAdjacency at h
  suffices hgen : ∀ (es : List GEdge) (acc : List String),
      (∀ x ∈ acc, nodeIds.contains x = true ∧ nodeIds.contains n = true) →
      ∀ x ∈ es.foldl (fun acc e =>
        if nodeIds.contains e.source && nodeIds.contains e.target then
          acc ++ (if e.source = n then [e.target] else [])
              ++ (if e.target = n then [e.source] else [])
        else acc) acc,
        nodeIds.contains x = true ∧ nodeIds.contains n = true by
    exact hgen edges [] (by intro x hx; cases hx) m h
  intro es
  induction es with
  | nil => intro acc hacc x hx; exact hacc x hx
  | cons e rest ih =>
    intro acc hacc x hx
    rw [List.foldl_cons] at hx
    by_cases hvalid : (nodeIds.contains e.source &&
        nodeIds.contains e.target) = true
    · rw [if_pos hvalid] at hx
      refine ih _ ?_ x hx
      intro y hy
      rcases List.mem_append.mp hy with hy1 | hy2
      · rcases List.mem_append.mp hy1 with hy3 | hy4
        · exact hacc y hy3
        · by_cases hsrc : e.source = n
          · rw [if_pos hsrc] at hy4
            rcases List.mem_singleton.mp hy4 with rfl
            exact ⟨(Bool.and_eq_true _ _).mp hvalid |>.2,
              hsrc ▸ ((Bool.and_eq_true _ _).mp hvalid |>.1)⟩
          · rw [if_neg hsrc] at hy4; cases hy4
      · by_cases htgt : e.target = n
        · rw [if_pos htgt] at hy2
          rcases List.mem_singleton.mp hy2 with rfl
          exact ⟨(Bool.and_eq_true _ _).mp hvalid |>.1,
            htgt ▸ ((Bool.and_eq_true _ _).mp hvalid |>.2)⟩
        · rw [if_neg htgt] at hy2; cases hy2
    · rw [if_neg hvalid] at hx
      exact ih _ hacc x hx

/-- A node outside the node set has the empty adjacency entry. -/
theorem buildUndirectedAdjacency_not_mem {nodeIds : List String}
    {edges : List GEdge} {n : String}
    (h : nodeIds.contains n = false) :
    buildUndirectedAdjacency nodeIds edges n = [] := by
  cases hres : buildUndirectedAdjacency nodeIds edges n with
  | nil => rfl
  | cons x xs =>
    have := mem_buildUndirectedAdjacency
      (hres ▸ List.mem_cons_self x xs : x ∈ buildUndirectedAdjacency nodeIds edges n)
    rw [h] at this
    exact absurd this.2 (by simp)

/-- A nonempty adjacency entry forces a contributing edge: contrapositive
form used to rule out self loops at a neighborless root. -/
theorem buildUndirectedAdjacency_ne_nil {nodeIds : List String}
    {edges : List GEdge} {e : GEdge} {n : String} (he : e ∈ edges)
    (hs : nodeIds.contains e.source = true)
    (ht : nodeIds.contains e.target = true)
    (hn : e.source = n ∨ e.target = n) :
    buildUndirectedAdjacency nodeIds edges n ≠ [] := by
  unfold buildUndirectedAdjacency
  suffices hgen : ∀ (es : List GEdge) (acc : List String),
      (e ∈ es ∨ acc ≠ []) →
      es.foldl (fun acc e =>
        if nodeIds.contains e.source && nodeIds.contains e.target then
          acc ++ (if e.source = n then [e.target] else [])
              ++ (if e.target = n then [e.source] else [])
        else acc) acc ≠ [] by
    exact hgen edges [] (Or.inl he)
  intro es
  induction es with
  | nil =>
    intro acc hacc
    rcases hacc with h1 | h2
    · cases h1
    · exact h2
  | cons e2 rest ih =>
    intro acc hacc
    rw [List.foldl_cons]
    rcases hacc with h1 | h2
    · rcases List.mem_cons.mp h1 with rfl | hrest
      · refine ih _ (Or.inr ?_)
        rw [if_pos (by rw [hs, ht]; rfl)]
        rcases hn with hsrc | htgt
        · rw [if_pos hsrc]; simp
        · rw [if_pos htgt]; simp
      · exact ih _ (Or.inl hrest)
    · refine ih _ (Or.inr ?_)
      by_cases hvalid : (nodeIds.contains e2.source &&
          nodeIds.contains e2.target) = true
      · rw [if_pos hvalid]; simp [h2]
      · rw [if_neg hvalid]; exact h2

end AdjacencyLemmas

section BfsLemmas

/-- A finished BFS queue position returns the visited set for any fuel. -/
theorem bfsLoop_done (adjacency : String → List String) (fuel : ℕ)
    (visited queue : List String) (head : ℕ) (h : queue[head]? = none) :
    bfsLoop adjacency fuel visited queue head = visited := by
  cases fuel with
  | zero => rfl
  | succ n => unfold bfsLoop; rw [h]

/-- BFS from a root whose adjacency entry is empty visits only the root. -/
theorem computeComponentIdSetFromRoot_no_neighbors
    (adjacency : String → List String) (rootId : String) (fuel : ℕ)
    (h : adjacency rootId = []) :
    computeComponentIdSetFromRoot rootId adjacency fuel = [rootId] := by
  unfold computeComponentIdSetFromRoot
  cases fuel with
  | zero => rfl
  | succ n =>
    unfold bfsLoop
    rw [show ([rootId][0]? = some rootId) from rfl]
    simp only [h, List.foldl_nil]
    exact bfsLoop_done adjacency n [rootId] [rootId] 1 rfl

/-- The visited set only grows inside the enqueue fold. -/
theorem bfs_fold_visited_mem (neighbors : List String)
    (visited queue : List String) {x : String} (hx : x ∈ visited) :
    x ∈ (neighbors.foldl bfsStep (visited, queue)).1 := by
  induction neighbors generalizing visited queue with
  | nil => exact hx
  | cons nb rest ih =>
    rw [List.foldl_cons]
    unfold bfsStep
    by_cases hc : (visited.contains nb) = true
    · rw [if_pos hc]; exact ih visited queue hx
    · rw [if_neg hc]
      exact ih _ _ (List.mem_append_left _ hx)

/-- The root always belongs to the BFS visited result. -/
theorem mem_bfsLoop (adjacency : String → List String) (fuel : ℕ)
    (visited queue : List String) (head : ℕ) {x : String}
    (hx : x ∈ visited) : x ∈ bfsLoop adjacency fuel visited queue head := by
  induction fuel generalizing visited queue head with
  | zero => exact hx
  | succ n ih =>
    unfold bfsLoop
    cases hq : queue[head]? with
    | none => exact hx
    | some currentId =>
      exact ih _ _ _ (bfs_fold_visited_mem _ _ _ hx)

/-- The root is always visited by computeComponentIdSetFromRoot. -/
theorem root_mem_computeComponentIdSetFromRoot (rootId : String)
    (adjacency : String → List String) (fuel : ℕ) :
    rootId ∈ computeComponentIdSetFromRoot rootId adjacency fuel :=
  mem_bfsLoop adjacency fuel [rootId] [rootId] 0 (List.mem_singleton.mpr rfl)

end BfsLemmas

section PlaceLemmas

/-- A key with no source center is never written by placeCenters. -/
theorem placeCenters_get_of_none (centers : StrMap Point)
    (ids : List String) (f : Point → Point) (pc0 : StrMap Point)
    {q : String} (hq : centers.get q = none) :
    (placeCenters centers ids f pc0).get q = pc0.get q := by
  induction ids generalizing pc0 with
  | nil => rfl
  | cons id rest ih =>
    show (placeCenters centers (id :: rest) f pc0).get q = pc0.get q
    unfold placeCenters
    rw [List.foldl_cons]
    cases hid : centers.get id with
    | none =>
      simp only [hid]
      exact ih pc0
    | some p =>
      simp only [hid]
      rw [show List.foldl _ (pc0.set id (f p)) rest =
        placeCenters centers rest f (pc0.set id (f p)) from rfl,
        ih (pc0.set id (f p)), Assoc.get_set]
      rw [if_neg (fun hqe : q = id => by
        rw [hqe] at hq; rw [hq] at hid; cases hid)]

/-- A key outside the id list is never written by placeCenters. -/
theorem placeCenters_get_of_not_mem (centers : StrMap Point)
    (ids : List String) (f : Point → Point) (pc0 : StrMap Point)
    {q : String} (hq : q ∉ ids) :
    (placeCenters centers ids f pc0).get q = pc0.get q := by
  induction ids generalizing pc0 with
  | nil => rfl
  | cons id rest ih =>
    have hrest : q ∉ rest := fun h => hq (List.mem_cons_of_mem id h)
    show (placeCenters centers (id :: rest) f pc0).get q = pc0.get q
    unfold placeCenters
    rw [List.foldl_cons]
    cases hid : centers.get id with
    | none =>
      simp only [hid]
      exact ih pc0 hrest
    | some p =>
      simp only [hid]
      rw [show List.foldl _ (pc0.set id (f p)) rest =
        placeCenters centers rest f (pc0.set id (f p)) from rfl,
        ih (pc0.set id (f p)) hrest, Assoc.get_set,
        if_neg (fun hqe : q = id => hq (hqe ▸ List.mem_cons_self id rest))]

/-- A listed key with a source center receives its transformed value. -/
theorem placeCenters_get_of_mem (centers : StrMap Point)
    (ids : List String) (f : Point → Point) (pc0 : StrMap Point)
    {q : String} {rel : Point} (hmem : q ∈ ids)
    (hget : centers.get q = some rel) :
    (placeCenters centers ids f pc0).get q = some (f rel) := by
  induction ids generalizing pc0 with
  | nil => cases hmem
  | cons id rest ih =>
    by_cases hrest : q ∈ rest
    · show (placeCenters centers (id :: rest) f pc0).get q = some (f rel)
      unfold placeCenters
      rw [List.foldl_cons]
      cases hid : centers.get id with
      | none =>
        simp only [hid]
        exact ih pc0 hrest
      | some p =>
        simp only [hid]
        exact ih (pc0.set id (f p)) hrest
    · have hqid : q = id := by
        rcases List.mem_cons.mp hmem with h | h
        · exact h
        · exact absurd h hrest
      subst hqid
      show (placeCenters centers (q :: rest) f pc0).get q = some (f rel)
      unfold placeCenters
      rw [List.foldl_cons]
      simp only [hget]
      rw [show (List.foldl _ (pc0.set q (f rel)) rest =
        placeCenters centers rest f (pc0.set q (f rel))) from rfl]
      rw [placeCenters_get_of_not_mem centers rest f _ hrest, Assoc.get_set,
        if_pos rfl]

end PlaceLemmas

section FilterLemmas

/-- A filter over a nodup list whose predicate picks exactly one present
element returns the singleton of that element. -/
theorem filter_eq_singleton_of_nodup {l : List String} {p : String → Bool}
    {x : String} (hn : l.Nodup) (hx : x ∈ l) (hpx : p x = true)
    (honly : ∀ y ∈ l, p y = true → y = x) : l.filter p = [x] := by
  induction l with
  | nil => cases hx
  | cons a rest ih =>
    have hna := List.nodup_cons.mp hn
    rcases List.mem_cons.mp hx with rfl | hxrest
    · rw [List.filter_cons_of_pos hpx]
      have : rest.filter p = [] := by
        apply List.filter_eq_nil_iff.mpr
        intro y hy
        intro hpy
        exact absurd (honly y (List.mem_cons_of_mem x hy) hpy ▸ hy) hna.1
      rw [this]
    · have hax : ¬ p a = true := fun hpa =>
        absurd (honly a (List.mem_cons_self a rest) hpa ▸ hxrest) hna.1
      rw [List.filter_cons_of_neg (by simpa using hax)]
      exact ih hna.2 hxrest (fun y hy hpy =>
        honly y (List.mem_cons_of_mem a hy) hpy)

end FilterLemmas

section DistInvariants

/-- One distance enqueue step keeps the zero distance invariant. -/
theorem distStep_zero_inv (componentSet : List String) (centerId : String)
    (d : ℕ) (dq : StrMap ℕ × List String) (nb : String)
    (h0 : dq.1.get centerId = some 0)
    (honly : ∀ id, dq.1.get id = some 0 → id = centerId) :
    (distStep componentSet d dq nb).1.get centerId = some 0 ∧
    ∀ id, (distStep componentSet d dq nb).1.get id = some 0 →
      id = centerId := by
  unfold distStep
  by_cases hc : (!(componentSet.contains nb)) = true
  · rw [if_pos hc]; exact ⟨h0, honly⟩
  · rw [if_neg hc]
    by_cases hs : (dq.1.get nb).isSome = true
    · rw [if_pos hs]; exact ⟨h0, honly⟩
    · rw [if_neg hs]
      constructor
      · show (dq.1.set nb (d + 1)).get centerId = some 0
        rw [Assoc.get_set, if_neg (fun hce : centerId = nb => by
          rw [← hce, h0] at hs; simp at hs)]
        exact h0
      · intro id hid
        have hid2 : (dq.1.set nb (d + 1)).get id = some 0 := hid
        rw [Assoc.get_set] at hid2
        by_cases hidnb : id = nb
        · rw [if_pos hidnb] at hid2
          exact absurd (Option.some.inj hid2) (Nat.succ_ne_zero d)
        · rw [if_neg hidnb] at hid2
          exact honly id hid2

/-- The enqueue fold keeps the zero distance invariant. -/
theorem distFold_zero_inv (componentSet : List String) (centerId : String)
    (d : ℕ) :
    ∀ (nbs : List String) (dq : StrMap ℕ × List String),
    dq.1.get centerId = some 0 →
    (∀ id, dq.1.get id = some 0 → id = centerId) →
    ((nbs.foldl (distStep componentSet d) dq).1.get centerId = some 0 ∧
      ∀ id, (nbs.foldl (distStep componentSet d) dq).1.get id = some 0 →
        id = centerId)
  | [], dq, h0, honly => ⟨h0, honly⟩
  | nb :: rest, dq, h0, honly => by
    rw [List.foldl_cons]
    have hs := distStep_zero_inv componentSet centerId d dq nb h0 honly
    exact distFold_zero_inv componentSet centerId d rest _ hs.1 hs.2

/-- Distance map invariant: the root keeps distance zero and distance zero
is assigned only to the root, for any fuel and queue state. -/
theorem distBfsLoop_zero_inv (adjacency : String → List String)
    (componentSet : List String) (centerId : String) (fuel : ℕ)
    (dist : StrMap ℕ) (queue : List String) (head : ℕ)
    (h0 : dist.get centerId = some 0)
    (honly : ∀ id, dist.get id = some 0 → id = centerId) :
    (distBfsLoop adjacency componentSet fuel dist queue head).get centerId =
      some 0 ∧
    ∀ id, (distBfsLoop adjacency componentSet fuel dist queue
      head).get id = some 0 → id = centerId := by
  induction fuel generalizing dist queue head with
  | zero => exact ⟨h0, honly⟩
  | succ n ih =>
    cases hq : queue[head]? with
    | none =>
      simp only [distBfsLoop, hq]
      exact ⟨h0, honly⟩
    | some currentId =>
      cases hd : dist.get currentId with
      | none =>
        simp only [distBfsLoop, hq, hd]
        exact ih dist queue (head + 1) h0 honly
      | some d =>
        simp only [distBfsLoop, hq, hd]
        have hres := distFold_zero_inv componentSet centerId d
          (adjacency currentId) (dist, queue) h0 honly
        exact ih _ _ (head + 1) hres.1 hres.2

/-- Distance map invariant of the layered engine BFS. -/
theorem layeredDistanceMap_zero_inv (a : EngineArgs) :
    (layeredDistanceMap a).get a.centerId = some 0 ∧
    ∀ id, (layeredDistanceMap a).get id = some 0 → id = a.centerId := by
  unfold layeredDistanceMap
  refine distBfsLoop_zero_inv _ _ _ _ _ _ _ ?_ ?_
  · rw [Assoc.get_set, if_pos rfl]
  · intro id hid
    rw [Assoc.get_set] at hid
    by_cases h : id = a.centerId
    · exact h
    · rw [if_neg h] at hid
      cases hid

end DistInvariants

section GenericFold

/-- Invariant preservation through a left fold. -/
theorem foldl_inv {σ α : Type} {P : σ → Prop} (f : σ → α → σ)
    (hf : ∀ s a, P s → P (f s a)) :
    ∀ (l : List α) (s : σ), P s → P (l.foldl f s)
  | [], s, h => h
  | a :: l, s, h => by
    rw [List.foldl_cons]
    exact foldl_inv f hf l (f s a) (hf s a h)

/-- Invariant preservation through a left fold, membership aware. -/
theorem foldl_inv_mem {σ α : Type} {P : σ → Prop} (f : σ → α → σ) :
    ∀ (l : List α), (∀ s a, a ∈ l → P s → P (f s a)) →
      ∀ (s : σ), P s → P (l.foldl f s)
  | [], _, _, h => h
  | a :: l, hf, s, h => by
    rw [List.foldl_cons]
    exact foldl_inv_mem f l
      (fun s2 b hb h2 => hf s2 b (List.mem_cons_of_mem a hb) h2)
      (f s a) (hf s a (List.mem_cons_self a l) h)

/-- The second component of an enumFrom entry is a list member. -/
theorem enumFrom_snd_mem {α : Type} :
    ∀ (n : ℕ) (l : List α) (p : ℕ × α), p ∈ l.enumFrom n → p.2 ∈ l
  | _, [], _, h => by cases h
  | n, x :: xs, p, h => by
    rw [List.enumFrom_cons] at h
    rcases List.mem_cons.mp h with rfl | h2
    · exact List.mem_cons_self x xs
    · exact List.mem_cons_of_mem x (enumFrom_snd_mem (n + 1) xs p h2)

/-- An enumFrom entry reads back through getElem?. -/
theorem enumFrom_getElem {α : Type} :
    ∀ (n : ℕ) (l : List α) (p : ℕ × α), p ∈ l.enumFrom n →
      n ≤ p.1 ∧ l[p.1 - n]? = some p.2
  | _, [], _, h => by cases h
  | n, x :: xs, p, h => by
    rw [List.enumFrom_cons] at h
    rcases List.mem_cons.mp h with rfl | h2
    · exact ⟨Nat.le_refl n, by simp⟩
    · obtain ⟨hle, hget⟩ := enumFrom_getElem (n + 1) xs p h2
      refine ⟨Nat.le_of_succ_le hle, ?_⟩
      have hpos : 1 ≤ p.1 - n := Nat.le_sub_of_add_le (by omega)
      have : p.1 - n = (p.1 - (n + 1)) + 1 := by omega
      rw [this]
      simpa using hget

/-- Swapping two adjacent entries of a list is a permutation. -/
theorem set_swap_perm {α : Type} :
    ∀ (l : List α) (i : ℕ) (a b : α), l[i]? = some a →
      l[i + 1]? = some b → ((l.set i b).set (i + 1) a).Perm l
  | [], i, a, b, ha, _ => by cases ha
  | x :: xs, 0, a, b, ha, hb => by
    obtain rfl : x = a := by simpa using ha
    cases xs with
    | nil => cases hb
    | cons y ys =>
      obtain rfl : y = b := by simpa using hb
      exact List.Perm.swap _ _ ys
  | x :: xs, i + 1, a, b, ha, hb => by
    have ha2 : xs[i]? = some a := by simpa using ha
    have hb2 : xs[i + 1]? = some b := by simpa using hb
    show (x :: (xs.set i b).set (i + 1) a).Perm (x :: xs)
    exact List.Perm.cons x (set_swap_perm xs i a b ha2 hb2)

end GenericFold

section RootCenterLemmas

/-- Levels invariant: whenever the root occurs in a level, that level is
the singleton root and sits at distance zero. -/
def LvRoot (root : String) (lv : List (List String)) : Prop :=
  ∀ d, root ∈ lv.getD d [] → lv.getD d [] = [root] ∧ d = 0

/-- getD of a list update at another index, or at the same index. -/
theorem getD_set_self {α : Type} (l : List α) (i : ℕ) (x : α) (dflt : α)
    (hi : i < l.length) : (l.set i x).getD i dflt = x := by
  rw [List.getD_eq_getElem?_getD, List.getElem?_set_self (by simpa using hi)]
  rfl

theorem getD_set_ne {α : Type} (l : List α) (i j : ℕ) (x : α) (dflt : α)
    (hij : j ≠ i) : (l.set i x).getD j dflt = l.getD j dflt := by
  rw [List.getD_eq_getElem?_getD, List.getElem?_set_ne (fun h => hij h.symm),
    ← List.getD_eq_getElem?_getD]

/-- Replacing a level of length at least two by a permutation of itself
preserves the LvRoot invariant. -/
theorem LvRoot_set {root : String} {lv : List (List String)} {d : ℕ}
    {s : List String} (hperm : s.Perm (lv.getD d []))
    (hlen : 1 < (lv.getD d []).length) (h : LvRoot root lv) :
    LvRoot root (lv.set d s) := by
  intro d2 hmem
  by_cases hd : d2 = d
  · subst hd
    by_cases hlt : d2 < lv.length
    · rw [getD_set_self lv d2 s [] hlt] at hmem
      have hold := (h d2 (hperm.mem_iff.mp hmem)).1
      rw [hold] at hlen
      simp at hlen
    · rw [List.getD_eq_getElem?_getD,
        List.getElem?_eq_none (by simpa using Nat.le_of_not_lt hlt)] at hmem
      · cases hmem
  · rw [getD_set_ne lv d d2 s [] hd] at hmem ⊢
    exact h d2 hmem

/-- The seed perturbation of a singleton is the singleton. -/
theorem seedPerturb_singleton (seed : ℕ) (x : String) :
    seedPerturb seed [x] = [x] := rfl

/-- Initial ordered levels satisfy the LvRoot invariant. -/
theorem initialOrderedLevels_LvRoot (a : EngineArgs) (dist : StrMap ℕ)
    (maxD : ℕ) (h0 : dist.get a.centerId = some 0)
    (honly : ∀ id, dist.get id = some 0 → id = a.centerId)
    (hnd : a.componentIds.Nodup) :
    LvRoot a.centerId (initialOrderedLevels a dist maxD) := by
  intro d hmem
  have hget : (initialOrderedLevels a dist maxD).getD d [] =
      if d < maxD + 1 then seedPerturb a.seed (sortBy (ambientLE a.orderIndex)
        (levelOf dist a.componentIds d)) else [] := by
    unfold initialOrderedLevels
    rw [List.getD_eq_getElem?_getD, List.getElem?_map]
    by_cases hd : d < maxD + 1
    · rw [if_pos hd, List.getElem?_range hd]
      rfl
    · rw [if_neg hd, List.getElem?_eq_none
        (by simpa using Nat.le_of_not_lt hd)]
      rfl
  rw [hget] at hmem ⊢
  by_cases hd : d < maxD + 1
  · rw [if_pos hd] at hmem ⊢
    have hmem2 : a.centerId ∈ levelOf dist a.componentIds d :=
      ((sortBy_perm _ _).mem_iff.mp
        ((seedPerturb_perm _ _).mem_iff.mp hmem))
    have hfil := List.mem_filter.mp hmem2
    have hdist : dist.get a.centerId = some d := by
      simpa using hfil.2
    have hd0 : d = 0 := by
      rw [h0] at hdist
      exact (Option.some.inj hdist).symm
    subst hd0
    have hsingle : levelOf dist a.componentIds 0 = [a.centerId] := by
      unfold levelOf
      refine filter_eq_singleton_of_nodup hnd hfil.1 (by simpa using h0) ?_
      intro y _ hpy
      exact honly y (by simpa using hpy)
    rw [show levelOf dist a.componentIds 0 =
      a.componentIds.filter (fun id => dist.get id = some 0) from rfl] at hsingle
    unfold levelOf
    rw [hsingle]
    exact ⟨rfl, rfl⟩
  · rw [if_neg hd] at hmem
    cases hmem

/-- Both barycenter sweeps preserve the LvRoot invariant. -/
theorem forwardSweep_LvRoot (a : EngineArgs) (dist : StrMap ℕ) (maxD : ℕ)
    {lv : List (List String)} (h : LvRoot a.centerId lv) :
    LvRoot a.centerId (forwardSweep a dist maxD lv) := by
  unfold forwardSweep
  refine foldl_inv _ ?_ _ _ h
  intro lv k hlv
  by_cases hlen : (lv.getD (k + 1) []).length ≤ 1
  · rw [if_pos hlen]; exact hlv
  · rw [if_neg hlen]
    exact LvRoot_set (sortBy_perm _ _) (Nat.lt_of_not_le hlen) hlv

theorem backwardSweep_LvRoot (a : EngineArgs) (dist : StrMap ℕ) (maxD : ℕ)
    {lv : List (List String)} (h : LvRoot a.centerId lv) :
    LvRoot a.centerId (backwardSweep a dist maxD lv) := by
  unfold backwardSweep
  refine foldl_inv _ ?_ _ _ h
  intro lv k hlv
  by_cases hlen : (lv.getD (maxD - 1 - k) []).length ≤ 1
  · rw [if_pos hlen]; exact hlv
  · rw [if_neg hlen]
    exact LvRoot_set (sortBy_perm _ _) (Nat.lt_of_not_le hlen) hlv

/-- The ordered levels of the layered engine satisfy LvRoot. -/
theorem layeredOrderedLevels_LvRoot (a : EngineArgs)
    (hnd : a.componentIds.Nodup) :
    LvRoot a.centerId (layeredOrderedLevels a) := by
  unfold layeredOrderedLevels barycenterIterations
  obtain ⟨h0, honly⟩ := layeredDistanceMap_zero_inv a
  refine foldl_inv _ ?_ _ _
    (initialOrderedLevels_LvRoot a _ _ h0 honly hnd)
  intro lv _ hlv
  exact backwardSweep_LvRoot a _ _ (forwardSweep_LvRoot a _ _ hlv)

/-- A set fold over pairs whose keys avoid root preserves the root entry. -/
theorem setPairs_get_not_mem :
    ∀ (pairs : List (ℕ × String)) (f : ℕ × String → Point)
      (cs : StrMap Point) (root : String), (∀ p ∈ pairs, p.2 ≠ root) →
      (pairs.foldl (fun cs2 q => cs2.set q.2 (f q)) cs).get root =
        cs.get root
  | [], _, _, _, _ => rfl
  | p :: rest, f, cs, root, h => by
    rw [List.foldl_cons,
      setPairs_get_not_mem rest f _ root
        (fun q hq => h q (List.mem_cons_of_mem p hq)),
      Assoc.get_set,
      if_neg (fun he : root = p.2 =>
        h p (List.mem_cons_self p rest) he.symm)]

/-- levelWrite leaves keys outside the level untouched. -/
theorem levelWrite_get_not_mem (opts : ResolvedOptions) (cs : StrMap Point)
    (dp : ℕ × List String) {root : String} (h : root ∉ dp.2) :
    (levelWrite opts cs dp).get root = cs.get root := by
  unfold levelWrite
  exact setPairs_get_not_mem dp.2.enum _ cs root
    (fun q hq he => h (he ▸ enumFrom_snd_mem 0 dp.2 q hq))

/-- levelWrite of the singleton root level writes the level origin. -/
theorem levelWrite_get_singleton (opts : ResolvedOptions) (cs : StrMap Point)
    (d : ℕ) (root : String) :
    (levelWrite opts cs (d, [root])).get root =
      some ⟨opts.ringSpacing * (d : ℚ) * opts.xScale,
        getLevelY 0 1 (opts.nodeSpacing * opts.yScale)⟩ := by
  simp only [levelWrite]
  rw [show (([root] : List String).enum) = [(0, root)] from rfl,
    List.foldl_cons, List.foldl_nil, Assoc.get_set, if_pos rfl]
  rfl

/-- The fold of levelWrite over root-free entries preserves the root. -/
theorem levelFold_get_not_mem (opts : ResolvedOptions) (root : String) :
    ∀ (entries : List (ℕ × List String)) (cs : StrMap Point),
      (∀ p ∈ entries, root ∉ p.2) →
      (entries.foldl (levelWrite opts) cs).get root = cs.get root
  | [], _, _ => rfl
  | e :: rest, cs, h => by
    rw [List.foldl_cons,
      levelFold_get_not_mem opts root rest _
        (fun p hp => h p (List.mem_cons_of_mem e hp)),
      levelWrite_get_not_mem opts cs e (h e (List.mem_cons_self e rest))]

/-- centersFromLevels of root-free levels has no root entry. -/
theorem centersFromLevels_get_none (opts : ResolvedOptions)
    (lv : List (List String)) (root : String)
    (h : ∀ p ∈ lv.enum, root ∉ p.2) :
    (centersFromLevels opts lv).get root = none := by
  unfold centersFromLevels
  rw [levelFold_get_not_mem opts root lv.enum Assoc.empty h]
  rfl

/-- Root entry of the initial layered centers: always the origin. -/
theorem layeredInitialCenters_root (a : EngineArgs)
    (hnd : a.componentIds.Nodup) :
    (layeredInitialCenters a).get a.centerId = some ⟨0, 0⟩ := by
  have hlv := layeredOrderedLevels_LvRoot a hnd
  by_cases hmem : a.centerId ∈ (layeredOrderedLevels a).getD 0 []
  · obtain ⟨h0, _⟩ := hlv 0 hmem
    have hcenters : (centersFromLevels a.options
        (layeredOrderedLevels a)).get a.centerId = some ⟨0, 0⟩ := by
      cases hl : layeredOrderedLevels a with
      | nil =>
        rw [hl] at h0
        simp at h0
      | cons l0 rest =>
        rw [hl] at h0
        have hl0 : l0 = [a.centerId] := by simpa using h0
        subst hl0
        unfold centersFromLevels
        rw [show (([a.centerId] :: rest) : List (List String)).enum =
          (0, [a.centerId]) :: rest.enumFrom 1 from rfl, List.foldl_cons]
        rw [levelFold_get_not_mem a.options a.centerId (rest.enumFrom 1) _ ?_]
        · rw [levelWrite_get_singleton]
          rw [show a.options.ringSpacing * ((0 : ℕ) : ℚ) * a.options.xScale
            = 0 from by norm_num]
          rw [show getLevelY 0 1 (a.options.nodeSpacing * a.options.yScale)
            = 0 from by unfold getLevelY; norm_num]
        · intro p hp hmem2
          obtain ⟨hge, hget⟩ := enumFrom_getElem 1 rest p hp
          have hlvp : (layeredOrderedLevels a).getD p.1 [] = p.2 := by
            rw [hl, List.getD_eq_getElem?_getD]
            have hp1 : p.1 = (p.1 - 1) + 1 := by omega
            rw [hp1, List.getElem?_cons_succ, hget]
            rfl
          obtain ⟨_, hzero⟩ := hlv p.1 (hlvp ▸ hmem2)
          omega
    unfold layeredInitialCenters
    rw [if_pos ((Assoc.hasKey_iff_get_isSome _ _).mpr
      (by rw [hcenters]; rfl))]
    exact hcenters
  · have hnone : ∀ p ∈ (layeredOrderedLevels a).enum, a.centerId ∉ p.2 := by
      intro p hp hmem2
      obtain ⟨_, hget⟩ := enumFrom_getElem 0 (layeredOrderedLevels a) p hp
      have hlvp : (layeredOrderedLevels a).getD p.1 [] = p.2 := by
        rw [List.getD_eq_getElem?_getD]
        rw [show p.1 - 0 = p.1 from rfl] at hget
        rw [hget]
        rfl
      obtain ⟨hsing, hzero⟩ := hlv p.1 (hlvp ▸ hmem2)
      rw [hzero] at hsing
      refine hmem ?_
      rw [hsing]
      exact List.mem_singleton.mpr rfl
    have hcn := centersFromLevels_get_none a.options
      (layeredOrderedLevels a) a.centerId hnone
    unfold layeredInitialCenters
    rw [if_neg (fun hk => by
      have := (Assoc.hasKey_iff_get_isSome _ _).mp hk
      rw [hcn] at this
      simp at this)]
    rw [Assoc.get_set, if_pos rfl]

end RootCenterLemmas

section RefineRootLemmas

/-- Refinement invariant: the root center stays at the origin and the level
structure keeps the root isolated at distance zero. -/
def RootCenterInv (root : String) (st : RefineState) : Prop :=
  st.centers.get root = some ⟨0, 0⟩ ∧ LvRoot root st.lv

/-- Membership from a successful getElem?. -/
theorem mem_of_get? {α : Type} {l : List α} {i : ℕ} {a : α}
    (h : l[i]? = some a) : a ∈ l := by
  rcases List.getElem?_eq_some_iff.mp h with ⟨hlt, heq⟩
  exact heq ▸ List.getElem_mem hlt

/-- A nonempty getD entry forces the index below the length. -/
theorem lt_length_of_getD_ne_nil {α : Type} {l : List (List α)} {d : ℕ}
    (h : l.getD d [] ≠ []) : d < l.length := by
  by_contra hlt
  rw [List.getD_eq_getElem?_getD,
    List.getElem?_eq_none (Nat.le_of_not_lt hlt)] at h
  exact h rfl

/-- One swap attempt preserves the root invariants. -/
theorem swapAttempt_root {root : String} (ctx : RefineCtx) (d : ℕ)
    (st : RefineState) (i : ℕ) (h : RootCenterInv root st) :
    RootCenterInv root (swapAttempt ctx d st i) := by
  cases hai : (st.lv.getD d [])[i]? with
  | none =>
    simp only [swapAttempt, hai]
    exact h
  | some aId =>
    cases hbi : (st.lv.getD d [])[i + 1]? with
    | none =>
      simp only [swapAttempt, hai, hbi]
      exact h
    | some bId =>
      simp only [swapAttempt, hai, hbi]
      have hia : i < (st.lv.getD d []).length := by
        rcases List.getElem?_eq_some_iff.mp hai with ⟨hlt, _⟩
        exact hlt
      have hib : i + 1 < (st.lv.getD d []).length := by
        rcases List.getElem?_eq_some_iff.mp hbi with ⟨hlt, _⟩
        exact hlt
      have hlen2 : 1 < (st.lv.getD d []).length := by omega
      have hdlt : d < st.lv.length :=
        lt_length_of_getD_ne_nil (fun he => by
          rw [he] at hai; cases hai)
      have hna : aId ≠ root := by
        intro he
        subst he
        obtain ⟨hsing, _⟩ := h.2 d (mem_of_get? hai)
        rw [hsing] at hlen2
        simp at hlen2
      have hnb : bId ≠ root := by
        intro he
        subst he
        obtain ⟨hsing, _⟩ := h.2 d (mem_of_get? hbi)
        rw [hsing] at hlen2
        simp at hlen2
      have hperm := set_swap_perm (st.lv.getD d []) i aId bId hai hbi
      have hlv1 : LvRoot root (st.lv.set d
          (((st.lv.getD d []).set i bId).set (i + 1) aId)) :=
        LvRoot_set hperm hlen2 h.2
      by_cases hinc : (((ctx.incident aId).isEmpty) &&
          ((ctx.incident bId).isEmpty)) = true
      · rw [if_pos hinc]
        exact h
      · rw [if_neg hinc]
        have hcent2 : ∀ (p q : Point),
            ((st.centers.set aId p).set bId q).get root =
              some ⟨0, 0⟩ := by
          intro p q
          rw [Assoc.get_set, if_neg (fun he => hnb he.symm),
            Assoc.get_set, if_neg (fun he => hna he.symm)]
          exact h.1
        split
        · exact ⟨hcent2 _ _, hlv1⟩
        · constructor
          · show ((((st.centers.set aId _).set bId _).set aId _).set bId
              _).get root = some ⟨0, 0⟩
            rw [Assoc.get_set, if_neg (fun he => hnb he.symm),
              Assoc.get_set, if_neg (fun he => hna he.symm)]
            exact hcent2 _ _
          · have hids2a : (((st.lv.getD d []).set i bId).set
                (i + 1) aId)[i]? = some bId := by
              rw [List.getElem?_set_ne (by omega),
                List.getElem?_set_self hia]
            have hids2b : (((st.lv.getD d []).set i bId).set
                (i + 1) aId)[i + 1]? = some aId := by
              rw [List.getElem?_set_self (by simpa using hib)]
            refine LvRoot_set ?_ hlen2 h.2
            exact (set_swap_perm _ i bId aId hids2a hids2b).trans hperm

/-- The pair sweep preserves the root invariants. -/
theorem sweepPairs_root {root : String} (ctx : RefineCtx) (d : ℕ) :
    ∀ (fuel i : ℕ) (st : RefineState), RootCenterInv root st →
      RootCenterInv root (sweepPairs ctx d fuel i st)
  | 0, _, _, h => h
  | fuel + 1, i, st, h => by
    simp only [sweepPairs]
    by_cases hc : i + 1 < (st.lv.getD d []).length ∧ 0 < st.crossings
    · rw [if_pos hc]
      by_cases hs : ctx.maxSwaps ≤ st.swaps
      · rw [if_pos hs]
        exact h
      · rw [if_neg hs]
        exact sweepPairs_root ctx d fuel (i + 1) _
          (swapAttempt_root ctx d st i h)
    · rw [if_neg hc]
      exact h

/-- The level sweep preserves the root invariants. -/
theorem sweepLevels_root {root : String} (ctx : RefineCtx)
    (st : RefineState) (h : RootCenterInv root st) :
    RootCenterInv root (sweepLevels ctx st) := by
  unfold sweepLevels
  refine foldl_inv _ ?_ _ _ h
  intro st2 d h2
  by_cases hcr : 0 < st2.crossings
  · rw [if_pos hcr]
    by_cases hlen : (st2.lv.getD d []).length ≤ 1
    · rw [if_pos hlen]
      exact h2
    · rw [if_neg hlen]
      exact sweepPairs_root ctx d _ 0 st2 h2
  · rw [if_neg hcr]
    exact h2

/-- The pass loop preserves the root invariants. -/
theorem passLoop_root {root : String} (ctx : RefineCtx) :
    ∀ (n : ℕ) (st : RefineState), RootCenterInv root st →
      RootCenterInv root (passLoop ctx n st)
  | 0, _, h => h
  | n + 1, st, h => by
    unfold passLoop
    by_cases hcr : 0 < st.crossings
    · rw [if_pos hcr]
      have h1 := sweepLevels_root ctx { st with improved := false }
        ⟨h.1, h.2⟩
      by_cases himp : (sweepLevels ctx { st with improved := false
          }).improved = false
      · rw [if_pos himp]
        exact h1
      · rw [if_neg himp]
        by_cases hs : ctx.maxSwaps ≤
            (sweepLevels ctx { st with improved := false }).swaps
        · rw [if_pos hs]
          exact h1
        · rw [if_neg hs]
          exact passLoop_root ctx n _ h1
    · rw [if_neg hcr]
      exact h

/-- The layered engine leaves the root center at the origin. -/
theorem layered_centers_root (a : EngineArgs)
    (hnd : a.componentIds.Nodup) :
    (computeLayeredCentersForComponent a).centers.get a.centerId =
      some ⟨0, 0⟩ := by
  have h0 : RootCenterInv a.centerId (layeredStartState a) :=
    ⟨layeredInitialCenters_root a hnd, layeredOrderedLevels_LvRoot a hnd⟩
  simp only [computeLayeredCentersForComponent]
  by_cases hc : 0 < (layeredStartState a).crossings ∧
      1 < (engineComponentEdges a).length
  · rw [if_pos hc]
    exact (passLoop_root (layeredRefineCtx a)
      (refineMaxPasses a.componentIds.length) _ h0).1
  · rw [if_neg hc]
    exact h0.1

end RefineRootLemmas

section RadialRootLemmas

/-- One radial coordinate step never touches the root entry. -/
theorem radialCenterStep_root (M : MathModel) (a : EngineArgs)
    (dist : StrMap ℕ) (par : StrMap (Option String))
    (tables : Assoc String (Assoc ℕ ℚ)) (angleById : StrMap ℚ)
    (mrs : ℚ) (fuel : ℕ) (cs : StrMap Point) (id : String) :
    (radialCenterStep M a dist par tables angleById mrs fuel cs id).get
      a.centerId = cs.get a.centerId := by
  unfold radialCenterStep
  by_cases hid : id = a.centerId
  · rw [if_pos hid]
  · rw [if_neg hid]
    cases hd : dist.get id with
    | none => simp only [hd]
    | some depth =>
      simp only [hd]
      by_cases hdep : depth = 0
      · rw [if_pos hdep]
      · rw [if_neg hdep]
        cases hangle : angleById.get id with
        | none => simp only [hangle]
        | some angle =>
          simp only [hangle]
          rw [Assoc.get_set, if_neg (fun he => hid he.symm)]

/-- Scaling a center list headed by a root at the origin keeps the root at
the origin. -/
theorem scaleCenters_root (centers : StrMap Point) (root : String)
    (rest : List String) (s : ℚ) (h : centers.get root = some ⟨0, 0⟩) :
    (scaleCenters centers (root :: rest) s).get root = some ⟨0, 0⟩ := by
  unfold scaleCenters
  rw [placeCenters_get_of_mem _ _ _ _ (List.mem_cons_self root rest) h]
  norm_num

/-- Compression keeps a root sitting at the origin at the origin. -/
theorem compressCentersIfPossible_root (centers : StrMap Point)
    (root : String) (rest : List String) (minScale padding : ℚ)
    (h : centers.get root = some ⟨0, 0⟩) :
    (compressCentersIfPossible centers (root :: rest) minScale
      padding).centers.get root = some ⟨0, 0⟩ := by
  unfold compressCentersIfPossible
  by_cases hover : hasAnyNodeOverlap centers (root :: rest)
      (max (1 / 10) (min 1 minScale)) padding = true
  · rw [if_pos hover]
    exact scaleCenters_root centers root rest _ h
  · rw [if_neg hover]
    exact scaleCenters_root centers root rest _ h

/-- The radial engine leaves the root center at the origin, for every math
model and every input. -/
theorem radial_centers_root (M : MathModel) (a : EngineArgs) :
    (computeRadialCentersForComponent M a).centers.get a.centerId =
      some ⟨0, 0⟩ := by
  simp only [computeRadialCentersForComponent]
  have hc0 : ((Assoc.empty.set a.centerId (⟨0, 0⟩ : Point))).get a.centerId
      = some ⟨0, 0⟩ := by
    rw [Assoc.get_set, if_pos rfl]
  by_cases hempty : ((radialRootChildren a (radialBfs a).1)).isEmpty = true
  · rw [if_pos hempty]
    exact hc0
  · rw [if_neg hempty]
    refine compressCentersIfPossible_root _ _ _ _ _ ?_
    refine foldl_inv (P := fun cs =>
      Assoc.get cs a.centerId = some ⟨0, 0⟩) _ ?_ _ _ hc0
    intro cs id hcs
    rw [radialCenterStep_root]
    exact hcs

end RadialRootLemmas

section OrchestratorRootLemmas

/-- Any engine attempt leaves the root center at the origin. -/
theorem engineAttempt_root (M : MathModel) (a : EngineArgs)
    (hnd : a.componentIds.Nodup) :
    (engineAttempt M a).centers.get a.centerId = some ⟨0, 0⟩ := by
  cases hstyle : a.options.layoutStyle with
  | layered =>
    simp only [engineAttempt, hstyle]
    exact layered_centers_root a hnd
  | radial =>
    simp only [engineAttempt, hstyle]
    exact radial_centers_root M a

/-- The attempt loop keeps a root anchored best result anchored. -/
theorem bestLoop_root_aux (M : MathModel) (c : ComponentArgs)
    (hall : ∀ seed, (engineAttempt M (c.withSeed seed)).centers.get
      c.centerId = some ⟨0, 0⟩) :
    ∀ (n seed : ℕ) (cbest : StrMap Point) (crbest : ℤ),
      cbest.get c.centerId = some ⟨0, 0⟩ →
      (bestLoop M c seed n (some cbest) (some crbest)).centers.get
        c.centerId = some ⟨0, 0⟩
  | 0, _, _, _, h => h
  | n + 1, seed, cbest, crbest, h => by
    simp only [bestLoop]
    by_cases hz : (engineAttempt M (c.withSeed seed)).crossings = 0
    · rw [if_pos hz]
      exact hall seed
    · rw [if_neg hz]
      by_cases hb : betterThan (engineAttempt M (c.withSeed seed)).crossings
          (some crbest) = true
      · rw [if_pos hb]
        exact bestLoop_root_aux M c hall n (seed + 1) _ _ (hall seed)
      · rw [if_neg hb]
        exact bestLoop_root_aux M c hall n (seed + 1) cbest crbest h

/-- The orchestrator returns a result with the root at the origin. -/
theorem computeBest_root (M : MathModel) (c : ComponentArgs)
    (hnd : c.componentIds.Nodup) :
    (computeBestCentersForComponent M c).centers.get c.centerId =
      some ⟨0, 0⟩ := by
  have hall : ∀ seed, (engineAttempt M (c.withSeed seed)).centers.get
      c.centerId = some ⟨0, 0⟩ := fun seed =>
    engineAttempt_root M (c.withSeed seed) hnd
  unfold computeBestCentersForComponent
  have hm : max 1 c.options.maxAttempts =
      (max 1 c.options.maxAttempts - 1) + 1 := by omega
  rw [hm]
  simp only [bestLoop]
  by_cases hz : (engineAttempt M (c.withSeed 0)).crossings = 0
  · rw [if_pos hz]
    exact hall 0
  · rw [if_neg hz]
    rw [if_pos (show betterThan (engineAttempt M
      (c.withSeed 0)).crossings none = true from rfl)]
    exact bestLoop_root_aux M c hall _ 1 _ _ (hall 0)

/-- One packing step never writes a key outside its component ids. -/
theorem packStep_get_not_mem (opts : ResolvedOptions) (rootBounds : Bounds)
    (columnMaxHeight : ℚ) (st : PackState)
    (layout : List String × StrMap Point × ℤ) {root : String}
    (h : root ∉ layout.1) :
    (packStep opts rootBounds columnMaxHeight st
      layout).placedCenters.get root = st.placedCenters.get root := by
  simp only [packStep]
  by_cases hwrap : st.cursorY +
      (computeBoundsFromCenters layout.2.1 layout.1 80).height >
      rootBounds.minY + columnMaxHeight ∧ st.cursorY ≠ rootBounds.minY
  · rw [if_pos hwrap]
    exact placeCenters_get_of_not_mem _ _ _ _ h
  · rw [if_neg hwrap]
    exact placeCenters_get_of_not_mem _ _ _ _ h

/-- Packing extra components never moves a key outside their ids. -/
theorem packOtherComponents_get_not_mem (opts : ResolvedOptions)
    (rootBounds : Bounds) (columnMaxHeight : ℚ)
    (layouts : List (List String × StrMap Point × ℤ))
    (pc : StrMap Point) (cr : ℤ) {root : String}
    (h : ∀ lay ∈ layouts, root ∉ lay.1) :
    (packOtherComponents opts rootBounds columnMaxHeight layouts pc
      cr).1.get root = pc.get root := by
  unfold packOtherComponents
  refine foldl_inv_mem (P := fun (st : PackState) =>
    st.placedCenters.get root = pc.get root) _ layouts ?_ _ rfl
  intro st lay hmem hst
  rw [packStep_get_not_mem opts rootBounds columnMaxHeight st lay
    (h lay hmem)]
  exact hst

end OrchestratorRootLemmas

/-- Claim C3: when the root id does not occur among the node ids the
composer returns an empty position map and zero crossings; the embedding is
a total function, so no exception is possible on this path. Confirmed. -/
theorem C3_root_not_found (M : MathModel) (nodes : List GNode)
    (edges : List GEdge) (rootId : String) (options : AutoLayoutOptions)
    (h : ∀ n ∈ nodes, n.id ≠ rootId) :
    computeAutoLayoutPositions M nodes edges rootId options =
      { positions := Assoc.empty, crossings := 0 } := by
  have hf : nodes.find? (fun n => n.id = rootId) = none :=
    List.find?_eq_none.mpr (fun n hn => by simpa using h n hn)
  unfold computeAutoLayoutPositions
  rw [hf]

/-- Witness for C3 at a concrete input. -/
theorem C3_root_not_found_witness :
    computeAutoLayoutPositions trivMathModel
      [⟨"A", ⟨0, 0⟩, false⟩] [] "Z" {} =
      { positions := Assoc.empty, crossings := 0 } :=
  C3_root_not_found trivMathModel _ _ _ _ (by decide)

/-- Claim C5: the layout is a pure function of the snapshot and options
(the seed sequence 0, 1, ... is fixed in the code and no ambient state,
time or system randomness is read), so equal inputs give identical
positions and crossings. Confirmed. -/
theorem C5_determinism (M : MathModel) (nodes1 nodes2 : List GNode)
    (edges1 edges2 : List GEdge) (root1 root2 : String)
    (opts1 opts2 : AutoLayoutOptions) (hn : nodes1 = nodes2)
    (he : edges1 = edges2) (hr : root1 = root2) (ho : opts1 = opts2) :
    (computeAutoLayoutPositions M nodes1 edges1 root1 opts1).positions =
      (computeAutoLayoutPositions M nodes2 edges2 root2 opts2).positions ∧
    (computeAutoLayoutPositions M nodes1 edges1 root1 opts1).crossings =
      (computeAutoLayoutPositions M nodes2 edges2 root2 opts2).crossings := by
  subst hn; subst he; subst hr; subst ho
  exact ⟨rfl, rfl⟩

/-- Witness for C5 at a concrete input. -/
theorem C5_determinism_witness :
    (computeAutoLayoutPositions trivMathModel
      [⟨"A", ⟨0, 0⟩, false⟩, ⟨"B", ⟨9, 7⟩, false⟩] [⟨"A", "B"⟩] "A"
      { layoutStyle := some LayoutStyle.layered }).positions =
    (computeAutoLayoutPositions trivMathModel
      [⟨"A", ⟨0, 0⟩, false⟩, ⟨"B", ⟨9, 7⟩, false⟩] [⟨"A", "B"⟩] "A"
      { layoutStyle := some LayoutStyle.layered }).positions :=
  (C5_determinism trivMathModel _ _ _ _ _ _ _ _ rfl rfl rfl rfl).1

/-- Claim C6 counterexample: a self loop on node A is not ignored: the
adjacency list of A contains A itself, twice. The claim that self loops and
duplicate edges are filtered out of the adjacency is false. -/
theorem C6_counterexample :
    buildUndirectedAdjacency ["A"] [⟨"A", "A"⟩] "A" = ["A", "A"] ∧
    "A" ∈ buildUndirectedAdjacency ["A"] [⟨"A", "A"⟩] "A" ∧
    ¬ (buildUndirectedAdjacency ["A"] [⟨"A", "A"⟩] "A").Nodup := by
  refine ⟨rfl, by decide, by decide⟩

/-- Claim C6 amended: only edges referencing a node id absent from the node
set are dropped during adjacency construction; every neighbor stored in the
adjacency belongs to the node set (and so does the key), while self loops
and duplicate edges are retained verbatim. -/
theorem C6_adjacency_members (nodeIds : List String) (edges : List GEdge)
    (n m : String) (h : m ∈ buildUndirectedAdjacency nodeIds edges n) :
    nodeIds.contains m = true ∧ nodeIds.contains n = true :=
  mem_buildUndirectedAdjacency h

/-- Witness for the amended C6 at a concrete input. -/
theorem C6_adjacency_members_witness :
    "B" ∈ buildUndirectedAdjacency ["A", "B"] [⟨"A", "B"⟩] "A" ∧
    (["A", "B"].contains "B" = true ∧ ["A", "B"].contains "A" = true) :=
  ⟨by decide, C6_adjacency_members ["A", "B"] [⟨"A", "B"⟩] "A" "B" (by decide)⟩

/-- Claim C7 counterexample: BFS from a root absent from the adjacency
returns the singleton of the root, not the empty set (the root is added to
the visited set before the loop runs). -/
theorem C7_counterexample :
    computeComponentIdSetFromRoot "A" (buildUndirectedAdjacency [] []) 5 =
      ["A"] ∧
    computeComponentIdSetFromRoot "A" (buildUndirectedAdjacency [] []) 5 ≠
      ([] : List String) := by
  refine ⟨rfl, by decide⟩

/-- Claim C7 amended: for a root id absent from the node set the
component-from-root BFS returns exactly the singleton of the root (the
composer then filters against the node list, which yields the empty
component there). -/
theorem C7_absent_root_singleton (nodeIds : List String)
    (edges : List GEdge) (rootId : String) (fuel : ℕ)
    (h : nodeIds.contains rootId = false) :
    computeComponentIdSetFromRoot rootId
      (buildUndirectedAdjacency nodeIds edges) fuel = [rootId] :=
  computeComponentIdSetFromRoot_no_neighbors _ _ _
    (buildUndirectedAdjacency_not_mem h)

/-- Witness for the amended C7 at a concrete input. -/
theorem C7_absent_root_singleton_witness :
    computeComponentIdSetFromRoot "Z"
      (buildUndirectedAdjacency ["A", "B"] [⟨"A", "B"⟩]) 7 = ["Z"] :=
  C7_absent_root_singleton ["A", "B"] [⟨"A", "B"⟩] "Z" 7 (by decide)

/-- Shared composer lemma: the returned position of the root equals its
pre-layout position, for both engines and every option set. -/
theorem composer_root_position (M : MathModel) (nodes : List GNode)
    (edges : List GEdge) (rootId : String) (options : AutoLayoutOptions)
    (rootNode : GNode)
    (hfind : nodes.find? (fun n => n.id = rootId) = some rootNode)
    (hnd : (composerNodeIds nodes).Nodup) :
    (computeAutoLayoutPositions M nodes edges rootId options).positions.get
      rootId = some rootNode.position := by
  have hid : rootNode.id = rootId := by simpa using List.find?_some hfind
  have hmemroot : rootId ∈ composerNodeIds nodes := by
    unfold composerNodeIds
    exact hid ▸ List.mem_map_of_mem (fun n => n.id)
      (List.mem_of_find?_eq_some hfind)
  have hmemfil : rootId ∈ composerRootComponentIds nodes edges rootId := by
    unfold composerRootComponentIds
    refine List.mem_filter.mpr ⟨hmemroot, ?_⟩
    have := root_mem_computeComponentIdSetFromRoot rootId
      (composerAdjacency nodes edges) ((composerNodeIds nodes).length + 2)
    simpa using this
  have hnotempty :
      ¬ (composerRootComponentIds nodes edges rootId).isEmpty = true := by
    intro he
    rw [List.isEmpty_iff] at he
    rw [he] at hmemfil
    cases hmemfil
  have hndfil : (composerRootComponentIds nodes edges rootId).Nodup :=
    hnd.filter _
  have hroot : (computeBestCentersForComponent M
      (composerRootArgs nodes edges rootId options)).centers.get rootId =
      some ⟨0, 0⟩ :=
    computeBest_root M (composerRootArgs nodes edges rootId options) hndfil
  have hplaced : ∀ (rc : Point),
      (composerPlacedCenters M nodes edges rootId options rc).get rootId =
        some ⟨rc.x + 0, rc.y + 0⟩ := by
    intro rc
    unfold composerPlacedCenters
    exact placeCenters_get_of_mem _ _ _ _ hmemfil hroot
  have hother : ∀ lay ∈ composerOtherLayouts M nodes edges rootId options,
      rootId ∉ lay.1 := by
    intro lay hmem
    simp only [composerOtherLayouts] at hmem
    obtain ⟨ids, hids, rfl⟩ := List.mem_map.mp hmem
    have hfil := (List.mem_filter.mp hids).2
    intro habs
    have htrue : ids.contains rootId = true := List.elem_iff.mpr habs
    simp only [Bool.not_eq_eq_eq_not, Bool.not_true] at hfil
    rw [htrue] at hfil
    cases hfil
  have hpacked : ∀ (rc : Point),
      (composerPacked M nodes edges rootId options rc).1.get rootId =
        some ⟨rc.x + 0, rc.y + 0⟩ := by
    intro rc
    simp only [composerPacked]
    by_cases hio : (mergeOptions options).includeOtherComponents = true
    · rw [if_pos hio,
        packOtherComponents_get_not_mem _ _ _ _ _ _ hother]
      exact hplaced rc
    · rw [if_neg hio]
      exact hplaced rc
  simp only [computeAutoLayoutPositions, hfind]
  rw [if_neg hnotempty]
  rw [Assoc.get_map_value]
  rw [hpacked ⟨rootNode.position.x + NODE_CENTER_OFFSET.x,
    rootNode.position.y + NODE_CENTER_OFFSET.y⟩]
  show some (⟨rootNode.position.x + NODE_CENTER_OFFSET.x + 0 -
      NODE_CENTER_OFFSET.x, rootNode.position.y + NODE_CENTER_OFFSET.y + 0 -
      NODE_CENTER_OFFSET.y⟩ : Point) = some rootNode.position
  refine congrArg some ?_
  rw [show rootNode.position.x + NODE_CENTER_OFFSET.x + 0 -
    NODE_CENTER_OFFSET.x = rootNode.position.x from by ring]
  rw [show rootNode.position.y + NODE_CENTER_OFFSET.y + 0 -
    NODE_CENTER_OFFSET.y = rootNode.position.y from by ring]

/-- Claim C2: when the root exists in the (duplicate free) node list, the
returned position of the root equals its pre-layout position, for both
engines, every math model, every seed budget and every option set: the
radial engine pins the root at the relative origin and the layered engine
anchors level zero at the root, so the composer translation returns the
root to its own anchor. Confirmed. -/
theorem C2_root_position_preserved (M : MathModel) (nodes : List GNode)
    (edges : List GEdge) (rootId : String) (options : AutoLayoutOptions)
    (rootNode : GNode)
    (hfind : nodes.find? (fun n => n.id = rootId) = some rootNode)
    (hnd : (composerNodeIds nodes).Nodup) :
    (computeAutoLayoutPositions M nodes edges rootId options).positions.get
      rootId = some rootNode.position :=
  composer_root_position M nodes edges rootId options rootNode hfind hnd

/-- Witness for C2 at a concrete input (layered engine, root off origin). -/
theorem C2_root_position_preserved_witness :
    (computeAutoLayoutPositions trivMathModel
      [⟨"A", ⟨3, 4⟩, false⟩, ⟨"B", ⟨9, 9⟩, false⟩] [⟨"A", "B"⟩] "A"
      { layoutStyle := some LayoutStyle.layered }).positions.get "A" =
      some ⟨3, 4⟩ :=
  C2_root_position_preserved trivMathModel _ _ _ _
    ⟨"A", ⟨3, 4⟩, false⟩ (by rfl) (by decide)

/-- Claim C1 evaluated at a failing input: node B is locked, so the store
merges it into the fixed id set, yet the layout module never reads the
forwarded fixedNodeIds and the store applies every returned position, so the
locked node B moves from (500, 500) to (140, 0). The claim that every
fixed or locked id keeps its pre-layout position is violated by the code. -/
theorem C1_locked_node_moves :
    storeFixedNodeIdSet
      [⟨"A", ⟨0, 0⟩, false⟩, ⟨"B", ⟨500, 500⟩, true⟩]
      (some { base := { layoutStyle := some LayoutStyle.layered } }) = ["B"]
    ∧ (computeAutoLayoutPositions trivMathModel
        [⟨"A", ⟨0, 0⟩, false⟩, ⟨"B", ⟨500, 500⟩, true⟩]
        [⟨"A", "B"⟩] "A"
        { layoutStyle := some LayoutStyle.layered }).positions.get "B" =
        some ⟨140, 0⟩
    ∧ (autoLayoutFromNode trivMathModel
        [⟨"A", ⟨0, 0⟩, false⟩, ⟨"B", ⟨500, 500⟩, true⟩]
        [⟨"A", "B"⟩] "A"
        (some { base := { layoutStyle := some LayoutStyle.layered } })).nodes
        = [⟨"A", ⟨0, 0⟩, false⟩, ⟨"B", ⟨140, 0⟩, true⟩] := by
  exact ⟨rfl, by with_unfolding_all rfl, by with_unfolding_all rfl⟩

/-- Claim C4 counterexample: with the layered engine and nodeSpacing 0 the
two children of the root land on the same point, so two distinct ids in the
result have intersecting bounding boxes with the default half extents (no
compaction step runs after the layered engine). -/
theorem C4_counterexample :
    (computeAutoLayoutPositions trivMathModel
      [⟨"A", ⟨0, 0⟩, false⟩, ⟨"B", ⟨10, 10⟩, false⟩, ⟨"C", ⟨20, 20⟩, false⟩]
      [⟨"A", "B"⟩, ⟨"A", "C"⟩] "A"
      { layoutStyle := some LayoutStyle.layered,
        nodeSpacing := some 0 }).positions.get "B" = some ⟨140, 0⟩
    ∧ (computeAutoLayoutPositions trivMathModel
      [⟨"A", ⟨0, 0⟩, false⟩, ⟨"B", ⟨10, 10⟩, false⟩, ⟨"C", ⟨20, 20⟩, false⟩]
      [⟨"A", "B"⟩, ⟨"A", "C"⟩] "A"
      { layoutStyle := some LayoutStyle.layered,
        nodeSpacing := some 0 }).positions.get "C" = some ⟨140, 0⟩
    ∧ boxesOverlap ⟨140, 0⟩ ⟨140, 0⟩ NODE_CENTER_OFFSET.x
        NODE_CENTER_OFFSET.y = true := by
  exact ⟨by with_unfolding_all rfl, by with_unfolding_all rfl,
    by with_unfolding_all rfl⟩

/-- Claim C8 counterexample: an isolated root with includeOtherComponents
true does not return a map holding exactly the root: the disconnected pair
B, C is laid out and packed beside the root, so the result holds three
entries. -/
theorem C8_counterexample :
    buildUndirectedAdjacency ["A", "B", "C"] [⟨"B", "C"⟩] "A" = []
    ∧ (computeAutoLayoutPositions trivMathModel
      [⟨"A", ⟨0, 0⟩, false⟩, ⟨"B", ⟨10, 10⟩, false⟩, ⟨"C", ⟨20, 20⟩, false⟩]
      [⟨"B", "C"⟩] "A"
      { layoutStyle := some LayoutStyle.layered,
        includeOtherComponents := some true }).positions =
      [("A", ⟨0, 0⟩), ("B", ⟨600, 0⟩), ("C", ⟨740, 0⟩)] := by
  exact ⟨rfl, by with_unfolding_all rfl⟩

/-- A duplicate free list filtered to its members equal to r is just [r]. -/
theorem filter_contains_singleton {l : List String} {r : String}
    (hnd : l.Nodup) (hmem : r ∈ l) :
    l.filter (fun id => ([r] : List String).contains id) = [r] := by
  induction l with
  | nil => cases hmem
  | cons x xs ih =>
    rw [List.filter_cons]
    by_cases hx : x = r
    · subst hx
      rw [if_pos (List.elem_iff.mpr (List.mem_singleton.mpr rfl))]
      have hnotin : x ∉ xs := (List.nodup_cons.mp hnd).1
      have hfil : xs.filter (fun id => ([x] : List String).contains id)
          = [] := by
        rw [List.filter_eq_nil_iff]
        intro a ha hc
        have : a ∈ [x] := List.elem_iff.mp hc
        rw [List.mem_singleton] at this
        exact hnotin (this ▸ ha)
      rw [hfil]
    · have hmem2 : r ∈ xs := by
        rcases List.mem_cons.mp hmem with h1 | h2
        · exact absurd h1.symm hx
        · exact h2
      rw [if_neg (fun hc => by
        have : x ∈ [r] := List.elem_iff.mp hc
        exact hx (List.mem_singleton.mp this))]
      exact ih (List.nodup_cons.mp hnd).2 hmem2

/-- When the root has no undirected neighbors, no snapshot edge survives
the root component filter. -/
theorem filterComponentEdges_isolated (nodes : List GNode)
    (edges : List GEdge) (rootId : String)
    (hmem : rootId ∈ composerNodeIds nodes)
    (hadj : composerAdjacency nodes edges rootId = []) :
    filterComponentEdges edges [rootId] = [] := by
  have hadj2 : buildUndirectedAdjacency (composerNodeIds nodes) edges
      rootId = [] := hadj
  unfold filterComponentEdges
  rw [List.filter_eq_nil_iff]
  intro e he hval
  have hs : e.source = rootId := by
    have h1 := ((Bool.and_eq_true _ _).mp hval).1
    have h2 : e.source ∈ [rootId] := List.elem_iff.mp h1
    exact List.mem_singleton.mp h2
  have ht : e.target = rootId := by
    have h1 := ((Bool.and_eq_true _ _).mp hval).2
    have h2 : e.target ∈ [rootId] := List.elem_iff.mp h1
    exact List.mem_singleton.mp h2
  refine buildUndirectedAdjacency_ne_nil he ?_ ?_ (Or.inl hs) hadj2
  · rw [hs]
    exact List.elem_iff.mpr hmem
  · rw [ht]
    exact List.elem_iff.mpr hmem

/-- The layered engine reports zero crossings when the component has no
edges (the refinement is skipped and the initial count is zero). -/
theorem computeLayered_crossings_no_edges (a : EngineArgs)
    (h : engineComponentEdges a = []) :
    (computeLayeredCentersForComponent a).crossings = 0 := by
  have hcr : layeredInitialCrossings a = 0 := by
    unfold layeredInitialCrossings
    rw [h]
    rfl
  simp only [computeLayeredCentersForComponent]
  rw [if_neg (fun hc => by
    have heq : (layeredStartState a).crossings = layeredInitialCrossings a :=
      rfl
    rw [heq, hcr] at hc
    exact absurd hc.1 (lt_irrefl 0))]
  show (layeredStartState a).crossings = 0
  exact hcr

/-- The radial engine reports zero crossings when the component has no
edges. -/
theorem radial_crossings_no_edges (M : MathModel) (a : EngineArgs)
    (h : engineComponentEdges a = []) :
    (computeRadialCentersForComponent M a).crossings = 0 := by
  simp only [computeRadialCentersForComponent]
  by_cases he : (radialRootChildren a (radialBfs a).1).isEmpty = true
  · rw [if_pos he]
  · rw [if_neg he]
    rw [h]
    rfl

/-- Either engine reports zero crossings on an edgeless component. -/
theorem engineAttempt_crossings_no_edges (M : MathModel) (a : EngineArgs)
    (h : engineComponentEdges a = []) :
    (engineAttempt M a).crossings = 0 := by
  cases hst : a.options.layoutStyle
  · simp only [engineAttempt, hst]
    exact computeLayered_crossings_no_edges a h
  · simp only [engineAttempt, hst]
    exact radial_crossings_no_edges M a h

/-- The orchestrator short circuits on a zero crossing first attempt, so
its reported crossing count is zero. -/
theorem computeBest_crossings_zero (M : MathModel) (c : ComponentArgs)
    (hz : (engineAttempt M (c.withSeed 0)).crossings = 0) :
    (computeBestCentersForComponent M c).crossings = 0 := by
  unfold computeBestCentersForComponent
  have hm : max 1 c.options.maxAttempts =
      (max 1 c.options.maxAttempts - 1) + 1 := by omega
  rw [hm]
  simp only [bestLoop]
  rw [if_pos hz]

/-- Claim C8 (amended): the claim holds once includeOtherComponents
resolves to false (the counterexample shows the packing of the other
components otherwise adds further entries). For a duplicate free snapshot
whose root exists and has no undirected neighbors, the result maps the
root to its original pre-layout position, maps no other id, and reports
zero crossings. -/
theorem C8_isolated_root (M : MathModel) (nodes : List GNode)
    (edges : List GEdge) (rootId : String) (options : AutoLayoutOptions)
    (rootNode : GNode)
    (hfind : nodes.find? (fun n => n.id = rootId) = some rootNode)
    (hnd : (composerNodeIds nodes).Nodup)
    (hadj : composerAdjacency nodes edges rootId = [])
    (hinc : (mergeOptions options).includeOtherComponents = false) :
    (computeAutoLayoutPositions M nodes edges rootId options).positions.get
      rootId = some rootNode.position
    ∧ (∀ id, id ≠ rootId →
        (computeAutoLayoutPositions M nodes edges rootId
          options).positions.get id = none)
    ∧ (computeAutoLayoutPositions M nodes edges rootId options).crossings
        = 0 := by
  have hid : rootNode.id = rootId := by simpa using List.find?_some hfind
  have hmemroot : rootId ∈ composerNodeIds nodes := by
    unfold composerNodeIds
    exact hid ▸ List.mem_map_of_mem (fun n => n.id)
      (List.mem_of_find?_eq_some hfind)
  have hsingle : composerRootComponentIds nodes edges rootId = [rootId] := by
    unfold composerRootComponentIds
    rw [computeComponentIdSetFromRoot_no_neighbors
      (composerAdjacency nodes edges) rootId _ hadj]
    exact filter_contains_singleton hnd hmemroot
  have hnotempty :
      ¬ (composerRootComponentIds nodes edges rootId).isEmpty = true := by
    rw [hsingle]
    exact fun h => nomatch h
  have hedges : engineComponentEdges
      ((composerRootArgs nodes edges rootId options).withSeed 0) = [] := by
    show filterComponentEdges edges
      (composerRootComponentIds nodes edges rootId) = []
    rw [hsingle]
    exact filterComponentEdges_isolated nodes edges rootId hmemroot hadj
  have hcross0 : (computeBestCentersForComponent M
      (composerRootArgs nodes edges rootId options)).crossings = 0 :=
    computeBest_crossings_zero M _
      (engineAttempt_crossings_no_edges M _ hedges)
  have hincn : ¬ (mergeOptions options).includeOtherComponents = true := by
    rw [hinc]
    exact fun h => nomatch h
  refine ⟨composer_root_position M nodes edges rootId options rootNode
    hfind hnd, ?_, ?_⟩
  · intro id hne
    have hpnone : ∀ (rc : Point),
        (composerPacked M nodes edges rootId options rc).1.get id = none := by
      intro rc
      simp only [composerPacked]
      rw [if_neg hincn]
      unfold composerPlacedCenters
      rw [hsingle]
      rw [placeCenters_get_of_not_mem _ _ _ _ (fun hm => hne
        (List.mem_singleton.mp hm))]
      rfl
    simp only [computeAutoLayoutPositions, hfind]
    rw [if_neg hnotempty]
    rw [Assoc.get_map_value]
    rw [hpnone ⟨rootNode.position.x + NODE_CENTER_OFFSET.x,
      rootNode.position.y + NODE_CENTER_OFFSET.y⟩]
    rfl
  · simp only [computeAutoLayoutPositions, hfind]
    rw [if_neg hnotempty]
    show (composerPacked M nodes edges rootId options
      ⟨rootNode.position.x + NODE_CENTER_OFFSET.x,
       rootNode.position.y + NODE_CENTER_OFFSET.y⟩).2 = 0
    simp only [composerPacked]
    rw [if_neg hincn]
    exact hcross0

/-- Witness for the amended C8 at a concrete input. -/
theorem C8_isolated_root_witness :
    (computeAutoLayoutPositions trivMathModel
      [⟨"A", ⟨7, 11⟩, false⟩, ⟨"B", ⟨10, 10⟩, false⟩] [⟨"B", "B"⟩] "A"
      {}).positions.get "A" = some ⟨7, 11⟩
    ∧ (computeAutoLayoutPositions trivMathModel
      [⟨"A", ⟨7, 11⟩, false⟩, ⟨"B", ⟨10, 10⟩, false⟩] [⟨"B", "B"⟩] "A"
      {}).positions.get "B" = none
    ∧ (computeAutoLayoutPositions trivMathModel
      [⟨"A", ⟨7, 11⟩, false⟩, ⟨"B", ⟨10, 10⟩, false⟩] [⟨"B", "B"⟩] "A"
      {}).crossings = 0 := by
  have h := C8_isolated_root trivMathModel
    [⟨"A", ⟨7, 11⟩, false⟩, ⟨"B", ⟨10, 10⟩, false⟩] [⟨"B", "B"⟩] "A" {}
    ⟨"A", ⟨7, 11⟩, false⟩ (by rfl) (by decide) (by rfl) (by rfl)
  exact ⟨h.1, h.2.1 "B" (by decide), h.2.2⟩

/-- One swap attempt never increases the tracked crossing count: a kept
swap strictly decreases it, a rollback leaves it unchanged. -/
theorem swapAttempt_crossings_le (ctx : RefineCtx) (d : ℕ)
    (st : RefineState) (i : ℕ) :
    (swapAttempt ctx d st i).crossings ≤ st.crossings := by
  cases h1 : (st.lv.getD d [])[i]? with
  | none =>
    simp only [swapAttempt, h1]
    exact le_refl _
  | some aId =>
    cases h2 : (st.lv.getD d [])[i + 1]? with
    | none =>
      simp only [swapAttempt, h1, h2]
      exact le_refl _
    | some bId =>
      simp only [swapAttempt, h1, h2]
      by_cases hie : ((ctx.incident aId).isEmpty &&
          (ctx.incident bId).isEmpty) = true
      · rw [if_pos hie]
      · rw [if_neg hie]
        by_cases hlt : countCrossingsInvolvingMarkedEdgeIndices
            ctx.componentEdges
            ((st.centers.set aId
              ⟨ctx.opts.ringSpacing * (d : ℚ) * ctx.opts.xScale,
               getLevelY (i + 1) (st.lv.getD d []).length
                 (ctx.opts.nodeSpacing * ctx.opts.yScale)⟩).set bId
              ⟨ctx.opts.ringSpacing * (d : ℚ) * ctx.opts.xScale,
               getLevelY i (st.lv.getD d []).length
                 (ctx.opts.nodeSpacing * ctx.opts.yScale)⟩)
            (dedupAppend (ctx.incident aId) (ctx.incident bId)) <
            countCrossingsInvolvingMarkedEdgeIndices ctx.componentEdges
              st.centers
              (dedupAppend (ctx.incident aId) (ctx.incident bId))
        · rw [if_pos hlt]
          show st.crossings + _ - _ ≤ st.crossings
          omega
        · rw [if_neg hlt]

/-- The inner pair sweep never increases the tracked crossing count. -/
theorem sweepPairs_crossings_le (ctx : RefineCtx) (d : ℕ) :
    ∀ (fuel i : ℕ) (st : RefineState),
      (sweepPairs ctx d fuel i st).crossings ≤ st.crossings
  | 0, _, _ => le_refl _
  | fuel + 1, i, st => by
    simp only [sweepPairs]
    by_cases hc : i + 1 < (st.lv.getD d []).length ∧ 0 < st.crossings
    · rw [if_pos hc]
      by_cases hs : ctx.maxSwaps ≤ st.swaps
      · rw [if_pos hs]
      · rw [if_neg hs]
        exact le_trans
          (sweepPairs_crossings_le ctx d fuel (i + 1)
            (swapAttempt ctx d st i))
          (swapAttempt_crossings_le ctx d st i)
    · rw [if_neg hc]

/-- One full pass over the levels never increases the tracked crossing
count. -/
theorem sweepLevels_crossings_le (ctx : RefineCtx) (st : RefineState) :
    (sweepLevels ctx st).crossings ≤ st.crossings := by
  unfold sweepLevels
  refine foldl_inv (P := fun s => s.crossings ≤ st.crossings) _ ?_
    (List.range (ctx.maxDistance + 1)) st (le_refl _)
  intro s d hle
  by_cases hc : 0 < s.crossings
  · rw [if_pos hc]
    by_cases hlen : (s.lv.getD d []).length ≤ 1
    · rw [if_pos hlen]
      exact hle
    · rw [if_neg hlen]
      exact le_trans
        (sweepPairs_crossings_le ctx d (s.lv.getD d []).length 0 s) hle
  · rw [if_neg hc]
    exact hle

/-- The pass loop never increases the tracked crossing count. -/
theorem passLoop_crossings_le (ctx : RefineCtx) :
    ∀ (n : ℕ) (st : RefineState),
      (passLoop ctx n st).crossings ≤ st.crossings
  | 0, _ => le_refl _
  | n + 1, st => by
    simp only [passLoop]
    by_cases hc : 0 < st.crossings
    · rw [if_pos hc]
      have h1 : (sweepLevels ctx { st with improved := false }).crossings ≤
          st.crossings :=
        sweepLevels_crossings_le ctx { st with improved := false }
      by_cases himp : (sweepLevels ctx
          { st with improved := false }).improved = false
      · rw [if_pos himp]
        exact h1
      · rw [if_neg himp]
        by_cases hs : ctx.maxSwaps ≤
            (sweepLevels ctx { st with improved := false }).swaps
        · rw [if_pos hs]
          exact h1
        · rw [if_neg hs]
          exact le_trans
            (passLoop_crossings_le ctx n
              (sweepLevels ctx { st with improved := false })) h1
    · rw [if_neg hc]

/-- Claim C9: the greedy adjacent swap local search of the layered engine
is monotone: a candidate swap is kept only when the incremental crossing
count strictly decreases and is rolled back otherwise, so the crossing
count the engine returns is never greater than the crossing count before
the refinement started. Confirmed. -/
theorem C9_crossings_non_increasing (a : EngineArgs) :
    (computeLayeredCentersForComponent a).crossings ≤
      layeredInitialCrossings a := by
  simp only [computeLayeredCentersForComponent]
  by_cases hc : 0 < (layeredStartState a).crossings ∧
      1 < (engineComponentEdges a).length
  · rw [if_pos hc]
    exact passLoop_crossings_le (layeredRefineCtx a)
      (refineMaxPasses a.componentIds.length) (layeredStartState a)
  · rw [if_neg hc]
    exact le_refl _

section CrossingSplit

variable {α : Type}

/-- pairSum is invariant under permutation for a symmetric weight. -/
theorem pairSum_perm {f : α → α → ℤ} (hsym : ∀ x y, f x y = f y x)
    {l1 l2 : List α} (h : l1.Perm l2) : pairSum f l1 = pairSum f l2 := by
  induction h with
  | nil => rfl
  | cons x h ih => rw [pairSum_cons, pairSum_cons, ih, listSum_perm h]
  | swap x y l =>
    rw [pairSum_cons, pairSum_cons, pairSum_cons, pairSum_cons,
      listSum_cons, listSum_cons, hsym y x]
    ring
  | trans h1 h2 ih1 ih2 => rw [ih1, ih2]

/-- Splitting a pair sum along a predicate: the mixed block plus the two
pure blocks. -/
theorem pairSum_filter_split (f : α → α → ℤ)
    (hsym : ∀ x y, f x y = f y x) (p : α → Bool) :
    ∀ l : List α, pairSum f l =
      listSum (l.filter p)
        (fun x => listSum (l.filter (fun y => !(p y))) (f x))
      + pairSum f (l.filter p)
      + pairSum f (l.filter (fun y => !(p y)))
  | [] => rfl
  | x :: xs => by
    by_cases hp : p x = true
    · rw [List.filter_cons_of_pos hp,
        List.filter_cons_of_neg (by simp [hp]), pairSum_cons,
        listSum_split xs p (f x), pairSum_filter_split f hsym p xs,
        pairSum_cons, listSum_cons]
      ring
    · rw [List.filter_cons_of_neg hp,
        List.filter_cons_of_pos (by simpa using hp), pairSum_cons,
        listSum_split xs p (f x), pairSum_filter_split f hsym p xs,
        pairSum_cons,
        listSum_congr (fun a ha =>
          listSum_cons x (xs.filter (fun y => !(p y))) (f a)),
        listSum_add,
        listSum_congr (fun a ha => hsym a x)]
      ring

/-- edgesShareEndpoint is symmetric. -/
theorem edgesShareEndpoint_symm (a b : GEdge) :
    edgesShareEndpoint a b = edgesShareEndpoint b a := by
  unfold edgesShareEndpoint
  exact decide_eq_decide.mpr (by tauto)

/-- segmentsProperlyCross is symmetric in the two segments. -/
theorem segmentsProperlyCross_symm (p1 q1 p2 q2 : Point) :
    segmentsProperlyCross p1 q1 p2 q2 =
      segmentsProperlyCross p2 q2 p1 q1 := by
  simp only [segmentsProperlyCross]
  exact decide_eq_decide.mpr and_comm

/-- The crossing contribution is symmetric in the two edge indices. -/
theorem crossTermAt_symm (c : StrMap Point) (es : List GEdge) (i j : ℕ) :
    crossTermAt c es i j = crossTermAt c es j i := by
  cases hi : es[i]? with
  | none =>
    cases hj : es[j]? with
    | none => simp only [crossTermAt, hi, hj]
    | some b => simp only [crossTermAt, hi, hj]
  | some a =>
    cases hj : es[j]? with
    | none => simp only [crossTermAt, hi, hj]
    | some b =>
      simp only [crossTermAt, hi, hj]
      rw [edgesShareEndpoint_symm a b]
      by_cases hsh : edgesShareEndpoint b a = true
      · rw [if_pos hsh, if_pos hsh]
      · rw [if_neg hsh, if_neg hsh]
        cases h1 : c.get a.source <;> cases h2 : c.get a.target <;>
          cases h3 : c.get b.source <;> cases h4 : c.get b.target <;>
          simp only [h1, h2, h3, h4] <;>
          first
          | rfl
          | rw [segmentsProperlyCross_symm]

/-- The range filtered to the members of a bounded duplicate free index
list is a permutation of that list. -/
theorem range_filter_contains_perm {aff : List ℕ} {n : ℕ}
    (hnd : aff.Nodup) (hlt : ∀ k ∈ aff, k < n) :
    ((List.range n).filter (fun k => aff.contains k)).Perm aff := by
  refine (List.perm_ext_iff_of_nodup
    ((List.nodup_range n).filter _) hnd).mpr ?_
  intro a
  rw [List.mem_filter, List.mem_range]
  constructor
  · rintro ⟨_, hc⟩
    exact List.elem_iff.mp hc
  · intro ha
    exact ⟨hlt a ha, List.elem_iff.mpr ha⟩

/-- The full pairwise crossing count splits into the marked count plus the
residue over the unaffected index pairs. -/
theorem marked_split (es : List GEdge) (c : StrMap Point) (aff : List ℕ)
    (hnd : aff.Nodup) (hlt : ∀ k ∈ aff, k < es.length) :
    pairSum (crossTermAt c es) (List.range es.length) =
      countCrossingsInvolvingMarkedEdgeIndices es c aff +
      pairSum (crossTermAt c es)
        ((List.range es.length).filter (fun k => !(aff.contains k))) := by
  have hsym : ∀ i j, crossTermAt c es i j = crossTermAt c es j i :=
    crossTermAt_symm c es
  rw [pairSum_filter_split (crossTermAt c es) hsym
    (fun k => aff.contains k) (List.range es.length)]
  simp only [countCrossingsInvolvingMarkedEdgeIndices]
  by_cases haff : aff.isEmpty = true
  · rw [if_pos haff]
    have haffnil : aff = [] := List.isEmpty_iff.mp haff
    subst haffnil
    rw [show (List.range es.length).filter
        (fun k => ([] : List ℕ).contains k) = [] from
      List.filter_eq_nil_iff.mpr (fun a _ h => nomatch h)]
    rw [listSum_nil, pairSum_nil]
    ring
  · rw [if_neg haff]
    have hperm := range_filter_contains_perm hnd hlt
    have hpart2 : pairSum (crossTermAt c es)
        ((List.range es.length).filter (fun k => aff.contains k)) =
        pairSum (crossTermAt c es) aff := pairSum_perm hsym hperm
    have hpart1 : listSum
        ((List.range es.length).filter (fun k => aff.contains k))
        (fun x => listSum
          ((List.range es.length).filter (fun y => !(aff.contains y)))
          (crossTermAt c es x)) =
        listSum aff (fun i => listSum (List.range es.length)
          (fun j => if aff.contains j then 0 else crossTermAt c es i j)) := by
      rw [listSum_perm hperm]
      refine listSum_congr (fun i hi => ?_)
      rw [listSum_split (List.range es.length) (fun k => aff.contains k)
        (fun j => if aff.contains j then 0 else crossTermAt c es i j)]
      rw [listSum_zero (fun j hj => if_pos (List.mem_filter.mp hj).2)]
      rw [zero_add]
      refine listSum_congr (fun j hj => ?_)
      have hjn : aff.contains j = false := by
        simpa using (List.mem_filter.mp hj).2
      exact (if_neg (fun hcc => by rw [hjn] at hcc; cases hcc)).symm
    rw [hpart1, hpart2]

end CrossingSplit

section IncidentLemmas

/-- Membership in a fold that appends two conditional blocks per entry. -/
theorem foldl_append2_mem {β γ : Type} (h1 h2 : β → List γ) :
    ∀ (l : List β) (acc : List γ) (a : γ),
      (a ∈ l.foldl (fun acc p => acc ++ h1 p ++ h2 p) acc) ↔
        (a ∈ acc ∨ ∃ p ∈ l, a ∈ h1 p ∨ a ∈ h2 p)
  | [], acc, a => by simp
  | b :: l, acc, a => by
    rw [List.foldl_cons, foldl_append2_mem h1 h2 l, List.mem_append,
      List.mem_append]
    constructor
    · rintro (((h | h) | h) | ⟨p, hp, hc⟩)
      · exact Or.inl h
      · exact Or.inr ⟨b, List.mem_cons_self b l, Or.inl h⟩
      · exact Or.inr ⟨b, List.mem_cons_self b l, Or.inr h⟩
      · exact Or.inr ⟨p, List.mem_cons_of_mem b hp, hc⟩
    · rintro (h | ⟨p, hp, hc⟩)
      · exact Or.inl (Or.inl (Or.inl h))
      · rcases List.mem_cons.mp hp with rfl | hp2
        · rcases hc with h | h
          · exact Or.inl (Or.inl (Or.inr h))
          · exact Or.inl (Or.inr h)
        · exact Or.inr ⟨p, hp2, hc⟩

/-- An indexed read produces an enumFrom entry. -/
theorem enumFrom_of_getElem {α : Type} :
    ∀ (n : ℕ) (l : List α) (k : ℕ) (e : α), l[k]? = some e →
      (n + k, e) ∈ l.enumFrom n
  | _, [], k, e, h => by cases h
  | n, x :: xs, 0, e, h => by
    obtain rfl : x = e := by simpa using h
    rw [List.enumFrom_cons]
    exact List.mem_cons_self _ _
  | n, x :: xs, k + 1, e, h => by
    have h2 : xs[k]? = some e := by simpa using h
    rw [List.enumFrom_cons]
    refine List.mem_cons_of_mem _ ?_
    have := enumFrom_of_getElem (n + 1) xs k e h2
    rw [show n + (k + 1) = (n + 1) + k from by omega]
    exact this

/-- Characterisation of the incident edge index map: the indices of the
edges with the node as an endpoint. -/
theorem mem_buildIncidentEdgeIndexMap {es : List GEdge} {x : String}
    {k : ℕ} :
    k ∈ buildIncidentEdgeIndexMap es x ↔
      ∃ e, es[k]? = some e ∧ (e.source = x ∨ e.target = x) := by
  unfold buildIncidentEdgeIndexMap
  rw [foldl_append2_mem]
  simp only [List.not_mem_nil, false_or]
  constructor
  · rintro ⟨p, hp, hc⟩
    have hget := (enumFrom_getElem 0 es p hp).2
    rw [Nat.sub_zero] at hget
    rcases hc with h | h
    · by_cases hs : p.2.source = x
      · rw [if_pos hs] at h
        rw [List.mem_singleton] at h
        subst h
        exact ⟨p.2, hget, Or.inl hs⟩
      · rw [if_neg hs] at h
        cases h
    · by_cases hs : p.2.target = x
      · rw [if_pos hs] at h
        rw [List.mem_singleton] at h
        subst h
        exact ⟨p.2, hget, Or.inr hs⟩
      · rw [if_neg hs] at h
        cases h
  · rintro ⟨e, hk, hc⟩
    have hmem : (k, e) ∈ es.enumFrom 0 := by
      have := enumFrom_of_getElem 0 es k e hk
      rwa [Nat.zero_add] at this
    refine ⟨(k, e), hmem, ?_⟩
    rcases hc with h | h
    · exact Or.inl (by rw [if_pos h]; exact List.mem_singleton.mpr rfl)
    · exact Or.inr (by rw [if_pos h]; exact List.mem_singleton.mpr rfl)

/-- Incident indices are in range. -/
theorem incident_lt {es : List GEdge} {x : String} {k : ℕ}
    (h : k ∈ buildIncidentEdgeIndexMap es x) : k < es.length := by
  obtain ⟨e, hk, _⟩ := mem_buildIncidentEdgeIndexMap.mp h
  exact (List.getElem?_eq_some_iff.mp hk).1

/-- An index outside the incident list has no endpoint at the node. -/
theorem incident_not_mem {es : List GEdge} {x : String} {k : ℕ} {e : GEdge}
    (h : k ∉ buildIncidentEdgeIndexMap es x) (hk : es[k]? = some e) :
    e.source ≠ x ∧ e.target ≠ x := by
  constructor
  · intro hs
    exact h (mem_buildIncidentEdgeIndexMap.mpr ⟨e, hk, Or.inl hs⟩)
  · intro ht
    exact h (mem_buildIncidentEdgeIndexMap.mpr ⟨e, hk, Or.inr ht⟩)

/-- Membership through the dedup fold. -/
theorem dedupFold_mem :
    ∀ (l acc : List ℕ) (a : ℕ),
      (a ∈ l.foldl (fun acc i =>
        if acc.contains i then acc else acc ++ [i]) acc) ↔
      (a ∈ acc ∨ a ∈ l)
  | [], acc, a => by simp
  | x :: l, acc, a => by
    rw [List.foldl_cons]
    by_cases hx : acc.contains x = true
    · rw [if_pos hx, dedupFold_mem l acc a, List.mem_cons]
      have hxa : x ∈ acc := List.elem_iff.mp hx
      constructor
      · tauto
      · rintro (h | rfl | h) <;> tauto
    · rw [if_neg hx, dedupFold_mem l (acc ++ [x]) a, List.mem_append]
      simp only [List.mem_cons, List.not_mem_nil, or_false]
      tauto

/-- The dedup fold keeps the accumulator duplicate free. -/
theorem dedupFold_nodup :
    ∀ (l acc : List ℕ), acc.Nodup →
      (l.foldl (fun acc i =>
        if acc.contains i then acc else acc ++ [i]) acc).Nodup
  | [], _, h => h
  | x :: l, acc, h => by
    rw [List.foldl_cons]
    by_cases hx : acc.contains x = true
    · rw [if_pos hx]
      exact dedupFold_nodup l acc h
    · rw [if_neg hx]
      refine dedupFold_nodup l (acc ++ [x]) ?_
      refine h.append (List.nodup_singleton x) ?_
      intro a ha hax
      rw [List.mem_singleton] at hax
      subst hax
      exact hx (List.elem_iff.mpr ha)

/-- Membership in dedupAppend. -/
theorem dedupAppend_mem {xs ys : List ℕ} {a : ℕ} :
    a ∈ dedupAppend xs ys ↔ (a ∈ xs ∨ a ∈ ys) := by
  unfold dedupAppend
  rw [dedupFold_mem (xs ++ ys) [] a]
  simp [List.mem_append]

/-- dedupAppend is duplicate free. -/
theorem dedupAppend_nodup (xs ys : List ℕ) : (dedupAppend xs ys).Nodup :=
  dedupFold_nodup (xs ++ ys) [] List.nodup_nil

end IncidentLemmas

section CenterCongr

/-- A double set read at a third key. -/
theorem get_set_set_ne (c : StrMap Point) (aId bId : String)
    (pA pB : Point) {q : String} (ha : q ≠ aId) (hb : q ≠ bId) :
    ((c.set aId pA).set bId pB).get q = c.get q := by
  rw [Assoc.get_set, if_neg hb, Assoc.get_set, if_neg ha]

/-- The crossing contribution only reads the centers through get. -/
theorem crossTermAt_congr {c1 c2 : StrMap Point} (es : List GEdge)
    (i j : ℕ) (h : ∀ q, c1.get q = c2.get q) :
    crossTermAt c1 es i j = crossTermAt c2 es i j := by
  cases hi : es[i]? with
  | none => simp only [crossTermAt, hi]
  | some a =>
    cases hj : es[j]? with
    | none => simp only [crossTermAt, hi, hj]
    | some b =>
      simp only [crossTermAt, hi, hj, h a.source, h a.target, h b.source,
        h b.target]

/-- The crossing contribution of a pair of unaffected edges is unchanged
when the centers of the two swapped nodes are reassigned. -/
theorem crossTermAt_unaffected (es : List GEdge) (c : StrMap Point)
    (aId bId : String) (pA pB : Point) (i j : ℕ)
    (hi : ∀ e, es[i]? = some e → e.source ≠ aId ∧ e.target ≠ aId ∧
      e.source ≠ bId ∧ e.target ≠ bId)
    (hj : ∀ e, es[j]? = some e → e.source ≠ aId ∧ e.target ≠ aId ∧
      e.source ≠ bId ∧ e.target ≠ bId) :
    crossTermAt ((c.set aId pA).set bId pB) es i j =
      crossTermAt c es i j := by
  cases hie : es[i]? with
  | none => simp only [crossTermAt, hie]
  | some a =>
    cases hje : es[j]? with
    | none => simp only [crossTermAt, hie, hje]
    | some b =>
      obtain ⟨ha1, ha2, ha3, ha4⟩ := hi a hie
      obtain ⟨hb1, hb2, hb3, hb4⟩ := hj b hje
      simp only [crossTermAt, hie, hje,
        get_set_set_ne c aId bId pA pB ha1 ha3,
        get_set_set_ne c aId bId pA pB ha2 ha4,
        get_set_set_ne c aId bId pA pB hb1 hb3,
        get_set_set_ne c aId bId pA pB hb2 hb4]

end CenterCongr

section LevelListLemmas

/-- Replacing one level by a permutation permutes the flattened levels. -/
theorem flatten_set_perm {α : Type} :
    ∀ (lv : List (List α)) (d : ℕ) (ys : List α),
      ys.Perm (lv.getD d []) →
      ((lv.set d ys).flatten).Perm lv.flatten
  | [], _, ys, h => by
    rw [List.set_nil]
  | x :: rest, 0, ys, h => by
    have h0 : ys.Perm x := h
    rw [List.set_cons_zero, List.flatten_cons, List.flatten_cons]
    exact h0.append_right rest.flatten
  | x :: rest, d + 1, ys, h => by
    have h0 : ys.Perm (rest.getD d []) := h
    rw [List.set_cons_succ, List.flatten_cons, List.flatten_cons]
    exact List.Perm.append_left x (flatten_set_perm rest d ys h0)

/-- Writing back the entry read at an index leaves the list unchanged. -/
theorem set_getD_eq_self {α : Type} (l : List α) (d : ℕ) (dflt : α) :
    l.set d (l.getD d dflt) = l := by
  by_cases hdl : d < l.length
  · refine List.ext_getElem? (fun n => ?_)
    rw [List.getElem?_set]
    by_cases he : d = n
    · subst he
      rw [if_pos rfl, if_pos hdl, List.getD_eq_getElem?_getD]
      cases hv : l[d]? with
      | none =>
        exact absurd (List.getElem?_eq_none_iff.mp hv) (Nat.not_le_of_lt hdl)
      | some v => rfl
    · rw [if_neg he]
  · rw [List.set_eq_of_length_le (Nat.le_of_not_lt hdl)]

/-- The double swap of the rollback restores the original level order. -/
theorem set_set_restore {α : Type} (l : List α) (i : ℕ) (a b : α)
    (ha : l[i]? = some a) (hb : l[i + 1]? = some b) :
    (((l.set i b).set (i + 1) a).set i a).set (i + 1) b = l := by
  have hi : i < l.length := (List.getElem?_eq_some_iff.mp ha).1
  have hi1 : i + 1 < l.length := (List.getElem?_eq_some_iff.mp hb).1
  refine List.ext_getElem? (fun n => ?_)
  rw [List.getElem?_set, List.getElem?_set, List.getElem?_set,
    List.getElem?_set]
  simp only [List.length_set]
  by_cases h1 : i + 1 = n
  · rw [if_pos h1, if_pos hi1, ← h1]
    exact hb.symm
  · rw [if_neg h1]
    by_cases h2 : i = n
    · rw [if_pos h2, if_pos hi, ← h2]
      exact ha.symm
    · rw [if_neg h2, if_neg h1, if_neg h2]

/-- Positions of a duplicate free list are determined by the element. -/
theorem nodup_getElem?_inj {α : Type} {l : List α} (h : l.Nodup)
    {i j : ℕ} {x : α} (hi : l[i]? = some x) (hj : l[j]? = some x) :
    i = j := by
  obtain ⟨hib, hie⟩ := List.getElem?_eq_some_iff.mp hi
  obtain ⟨hjb, hje⟩ := List.getElem?_eq_some_iff.mp hj
  exact (List.Nodup.getElem_inj_iff h).mp (hie.trans hje.symm)

/-- Each level of a flat duplicate free level list is duplicate free. -/
theorem nodup_flatten_level {lv : List (List String)}
    (h : lv.flatten.Nodup) (d : ℕ) : (lv.getD d []).Nodup := by
  rw [List.getD_eq_getElem?_getD]
  cases hv : lv[d]? with
  | none => exact List.nodup_nil
  | some ids => exact (List.nodup_flatten.mp h).1 ids (mem_of_get? hv)

/-- Two different levels of a flat duplicate free level list share no
member. -/
theorem flatten_disjoint_levels {lv : List (List String)}
    (h : lv.flatten.Nodup) {d1 d2 : ℕ} (hne : d1 ≠ d2) {q : String}
    (h1 : q ∈ lv.getD d1 []) (h2 : q ∈ lv.getD d2 []) : False := by
  rw [List.getD_eq_getElem?_getD] at h1 h2
  cases hv1 : lv[d1]? with
  | none => rw [hv1] at h1; cases h1
  | some ids1 =>
    cases hv2 : lv[d2]? with
    | none => rw [hv2] at h2; cases h2
    | some ids2 =>
      rw [hv1] at h1
      rw [hv2] at h2
      have hp := (List.nodup_flatten.mp h).2
      have hb1 := (List.getElem?_eq_some_iff.mp hv1).1
      have hb2 := (List.getElem?_eq_some_iff.mp hv2).1
      have hg1 := (List.getElem?_eq_some_iff.mp hv1).2
      have hg2 := (List.getElem?_eq_some_iff.mp hv2).2
      rcases Nat.lt_or_ge d1 d2 with hlt | hge
      · have hdisj := (List.pairwise_iff_getElem.mp hp) d1 d2 hb1 hb2 hlt
        rw [hg1, hg2] at hdisj
        exact hdisj h1 h2
      · have hlt2 : d2 < d1 := Nat.lt_of_le_of_ne hge (fun he => hne he.symm)
        have hdisj := (List.pairwise_iff_getElem.mp hp) d2 d1 hb2 hb1 hlt2
        rw [hg1, hg2] at hdisj
        exact hdisj.symm h1 h2

end LevelListLemmas

section RefineInvariant

/-- Level discipline of the layered centers: the node at index i of level d
sits at the grid point of that position. -/
def LvCenters (opts : ResolvedOptions) (lv : List (List String))
    (cs : StrMap Point) : Prop :=
  ∀ d i id, (lv.getD d [])[i]? = some id →
    cs.get id = some ⟨opts.ringSpacing * (d : ℚ) * opts.xScale,
      getLevelY i (lv.getD d []).length (opts.nodeSpacing * opts.yScale)⟩

/-- Every center key occurs in the levels. -/
def LvDomain (lv : List (List String)) (cs : StrMap Point) : Prop :=
  ∀ q p, cs.get q = some p → q ∈ lv.flatten

/-- Joint invariant of the local swap refinement: duplicate free levels,
grid discipline of the centers and agreement of the tracked crossing count
with the full pairwise count. -/
def RefineInv (ctx : RefineCtx) (st : RefineState) : Prop :=
  st.lv.flatten.Nodup ∧
  LvCenters ctx.opts st.lv st.centers ∧
  st.crossings = pairSum (crossTermAt st.centers ctx.componentEdges)
    (List.range ctx.componentEdges.length)

/-- The entry read by getD at an index in range is a member. -/
theorem getD_mem {α : Type} {l : List (List α)} {d : ℕ}
    (h : d < l.length) : l.getD d [] ∈ l := by
  rw [List.getD_eq_getElem?_getD]
  cases hv : l[d]? with
  | none => exact absurd (List.getElem?_eq_none_iff.mp hv) (Nat.not_le_of_lt h)
  | some v => exact mem_of_get? hv

/-- The swapped level list with the swapped centers keeps the level
structure: duplicate freedom, grid discipline and the flat membership. -/
theorem refineInv_swapped (opts : ResolvedOptions) (lv : List (List String))
    (cs : StrMap Point) (d i : ℕ) (aId bId : String)
    (h1 : (lv.getD d [])[i]? = some aId)
    (h2 : (lv.getD d [])[i + 1]? = some bId)
    (hnd : lv.flatten.Nodup) (hcm : LvCenters opts lv cs) :
    (lv.set d (((lv.getD d []).set i bId).set (i + 1) aId)).flatten.Nodup ∧
    LvCenters opts
      (lv.set d (((lv.getD d []).set i bId).set (i + 1) aId))
      ((cs.set aId ⟨opts.ringSpacing * (d : ℚ) * opts.xScale,
          getLevelY (i + 1) (lv.getD d []).length
            (opts.nodeSpacing * opts.yScale)⟩).set bId
        ⟨opts.ringSpacing * (d : ℚ) * opts.xScale,
          getLevelY i (lv.getD d []).length
            (opts.nodeSpacing * opts.yScale)⟩) ∧
    ((lv.set d (((lv.getD d []).set i bId).set (i + 1) aId)).flatten.Perm
      lv.flatten) := by
  have hne : lv.getD d [] ≠ [] := fun he => by rw [he] at h1; cases h1
  have hdlen : d < lv.length := lt_length_of_getD_ne_nil hne
  have hlnd : (lv.getD d []).Nodup := nodup_flatten_level hnd d
  have hab : aId ≠ bId := by
    intro he
    have := nodup_getElem?_inj hlnd h1 (he ▸ h2)
    omega
  have hilen : i < (lv.getD d []).length :=
    (List.getElem?_eq_some_iff.mp h1).1
  have hi1len : i + 1 < (lv.getD d []).length :=
    (List.getElem?_eq_some_iff.mp h2).1
  have hperm : (((lv.getD d []).set i bId).set (i + 1) aId).Perm
      (lv.getD d []) := set_swap_perm (lv.getD d []) i aId bId h1 h2
  have hflat := flatten_set_perm lv d _ hperm
  refine ⟨hflat.nodup_iff.mpr hnd, ?_, hflat⟩
  intro dq iq id hgt
  by_cases hdd : dq = d
  · subst hdd
    rw [getD_set_self lv dq _ [] hdlen] at hgt ⊢
    simp only [List.length_set]
    by_cases hii : iq = i
    · subst hii
      rw [List.getElem?_set_ne (by omega),
        List.getElem?_set_self (by simpa using hilen)] at hgt
      obtain rfl : bId = id := Option.some_inj.mp hgt
      rw [Assoc.get_set, if_pos rfl]
    · by_cases hii1 : iq = i + 1
      · subst hii1
        rw [List.getElem?_set_self (by simpa using hi1len)] at hgt
        obtain rfl : aId = id := Option.some_inj.mp hgt
        rw [Assoc.get_set, if_neg hab, Assoc.get_set, if_pos rfl]
      · rw [List.getElem?_set_ne (fun he => hii1 he.symm),
          List.getElem?_set_ne (fun he => hii he.symm)] at hgt
        have hia : id ≠ aId := fun he => hii
          (nodup_getElem?_inj hlnd hgt (he ▸ h1))
        have hib : id ≠ bId := fun he => hii1
          (nodup_getElem?_inj hlnd hgt (he ▸ h2))
        rw [get_set_set_ne cs aId bId _ _ hia hib]
        exact hcm dq iq id hgt
  · rw [getD_set_ne lv d dq _ [] hdd] at hgt ⊢
    have hia : id ≠ aId := fun he =>
      flatten_disjoint_levels hnd hdd (he ▸ mem_of_get? hgt)
        (mem_of_get? h1)
    have hib : id ≠ bId := fun he =>
      flatten_disjoint_levels hnd hdd (he ▸ mem_of_get? hgt)
        (mem_of_get? h2)
    rw [get_set_set_ne cs aId bId _ _ hia hib]
    exact hcm dq iq id hgt

/-- The rollback writes restore every center read. -/
theorem rollback_get_eq (cs : StrMap Point) (aId bId : String)
    (hab : aId ≠ bId) (pA pB pA2 pB2 : Point)
    (hA : cs.get aId = some pA) (hB : cs.get bId = some pB) (q : String) :
    ((((cs.set aId pA2).set bId pB2).set aId pA).set bId pB).get q =
      cs.get q := by
  by_cases hqb : q = bId
  · subst hqb
    rw [Assoc.get_set, if_pos rfl, hB]
  · rw [Assoc.get_set, if_neg hqb]
    by_cases hqa : q = aId
    · subst hqa
      rw [Assoc.get_set, if_pos rfl, hA]
    · rw [Assoc.get_set, if_neg hqa, Assoc.get_set, if_neg hqb,
        Assoc.get_set, if_neg hqa]

end RefineInvariant

section SwapDelta

/-- The kept swap updates the tracked count to the full count of the
swapped centers: the unaffected residue is unchanged, so adding the marked
delta lands exactly on the new total. -/
theorem kept_crossings (es : List GEdge) (cs : StrMap Point)
    (aId bId : String) (inc : String → List ℕ)
    (hinc : inc = buildIncidentEdgeIndexMap es) (pA pB : Point) (T : ℤ)
    (hcross : T = pairSum (crossTermAt cs es) (List.range es.length)) :
    T + countCrossingsInvolvingMarkedEdgeIndices es
        ((cs.set aId pA).set bId pB) (dedupAppend (inc aId) (inc bId))
      - countCrossingsInvolvingMarkedEdgeIndices es cs
        (dedupAppend (inc aId) (inc bId)) =
      pairSum (crossTermAt ((cs.set aId pA).set bId pB) es)
        (List.range es.length) := by
  subst hinc
  have hndaff := dedupAppend_nodup (buildIncidentEdgeIndexMap es aId)
    (buildIncidentEdgeIndexMap es bId)
  have hltaff : ∀ k ∈ dedupAppend (buildIncidentEdgeIndexMap es aId)
      (buildIncidentEdgeIndexMap es bId), k < es.length := by
    intro k hk
    rcases dedupAppend_mem.mp hk with hk2 | hk2 <;> exact incident_lt hk2
  have hside : ∀ k ∈ (List.range es.length).filter
      (fun k => !((dedupAppend (buildIncidentEdgeIndexMap es aId)
        (buildIncidentEdgeIndexMap es bId)).contains k)),
      ∀ e, es[k]? = some e →
        e.source ≠ aId ∧ e.target ≠ aId ∧ e.source ≠ bId ∧
          e.target ≠ bId := by
    intro k hk e hke
    have hknot : k ∉ dedupAppend (buildIncidentEdgeIndexMap es aId)
        (buildIncidentEdgeIndexMap es bId) := by
      intro hm
      have hcont := (List.mem_filter.mp hk).2
      have hcont2 : (dedupAppend (buildIncidentEdgeIndexMap es aId)
          (buildIncidentEdgeIndexMap es bId)).contains k = true :=
        List.elem_iff.mpr hm
      rw [hcont2] at hcont
      exact Bool.noConfusion hcont
    have hnA : k ∉ buildIncidentEdgeIndexMap es aId := fun hm =>
      hknot (dedupAppend_mem.mpr (Or.inl hm))
    have hnB : k ∉ buildIncidentEdgeIndexMap es bId := fun hm =>
      hknot (dedupAppend_mem.mpr (Or.inr hm))
    obtain ⟨hs1, ht1⟩ := incident_not_mem hnA hke
    obtain ⟨hs2, ht2⟩ := incident_not_mem hnB hke
    exact ⟨hs1, ht1, hs2, ht2⟩
  have hres : pairSum (crossTermAt ((cs.set aId pA).set bId pB) es)
      ((List.range es.length).filter
        (fun k => !((dedupAppend (buildIncidentEdgeIndexMap es aId)
          (buildIncidentEdgeIndexMap es bId)).contains k))) =
      pairSum (crossTermAt cs es)
        ((List.range es.length).filter
          (fun k => !((dedupAppend (buildIncidentEdgeIndexMap es aId)
            (buildIncidentEdgeIndexMap es bId)).contains k))) :=
    pairSum_congr (fun p hp q hq =>
      crossTermAt_unaffected es cs aId bId pA pB p q (hside p hp)
        (hside q hq))
  have hsplit1 := marked_split es cs
    (dedupAppend (buildIncidentEdgeIndexMap es aId)
      (buildIncidentEdgeIndexMap es bId)) hndaff hltaff
  have hsplit2 := marked_split es ((cs.set aId pA).set bId pB)
    (dedupAppend (buildIncidentEdgeIndexMap es aId)
      (buildIncidentEdgeIndexMap es bId)) hndaff hltaff
  omega

/-- One swap attempt preserves the refinement invariant. -/
theorem swapAttempt_inv (ctx : RefineCtx)
    (hinc : ctx.incident = buildIncidentEdgeIndexMap ctx.componentEdges)
    (d : ℕ) (st : RefineState) (i : ℕ) (h : RefineInv ctx st) :
    RefineInv ctx (swapAttempt ctx d st i) := by
  obtain ⟨hnd, hcm, hcross⟩ := h
  cases h1 : (st.lv.getD d [])[i]? with
  | none =>
    simp only [swapAttempt, h1]
    exact ⟨hnd, hcm, hcross⟩
  | some aId =>
    cases h2 : (st.lv.getD d [])[i + 1]? with
    | none =>
      simp only [swapAttempt, h1, h2]
      exact ⟨hnd, hcm, hcross⟩
    | some bId =>
      simp only [swapAttempt, h1, h2]
      by_cases hie : ((ctx.incident aId).isEmpty &&
          (ctx.incident bId).isEmpty) = true
      · rw [if_pos hie]
        exact ⟨hnd, hcm, hcross⟩
      · rw [if_neg hie]
        have hlnd : (st.lv.getD d []).Nodup := nodup_flatten_level hnd d
        have hab : aId ≠ bId := by
          intro he
          have := nodup_getElem?_inj hlnd h1 (he ▸ h2)
          omega
        have hswapped := refineInv_swapped ctx.opts st.lv st.centers d i
          aId bId h1 h2 hnd hcm
        by_cases hlt : countCrossingsInvolvingMarkedEdgeIndices
            ctx.componentEdges
            ((st.centers.set aId
              ⟨ctx.opts.ringSpacing * (d : ℚ) * ctx.opts.xScale,
               getLevelY (i + 1) (st.lv.getD d []).length
                 (ctx.opts.nodeSpacing * ctx.opts.yScale)⟩).set bId
              ⟨ctx.opts.ringSpacing * (d : ℚ) * ctx.opts.xScale,
               getLevelY i (st.lv.getD d []).length
                 (ctx.opts.nodeSpacing * ctx.opts.yScale)⟩)
            (dedupAppend (ctx.incident aId) (ctx.incident bId)) <
            countCrossingsInvolvingMarkedEdgeIndices ctx.componentEdges
              st.centers
              (dedupAppend (ctx.incident aId) (ctx.incident bId))
        · rw [if_pos hlt]
          exact ⟨hswapped.1, hswapped.2.1,
            (kept_crossings ctx.componentEdges st.centers aId bId
              ctx.incident hinc _ _ st.crossings hcross).symm.symm⟩
        · rw [if_neg hlt]
          have hlv3 : st.lv.set d (((((st.lv.getD d []).set i bId).set
              (i + 1) aId).set i aId).set (i + 1) bId) = st.lv := by
            rw [set_set_restore (st.lv.getD d []) i aId bId h1 h2,
              set_getD_eq_self]
          have hA := hcm d i aId h1
          have hB := hcm d (i + 1) bId h2
          have hpt := rollback_get_eq st.centers aId bId hab
            ⟨ctx.opts.ringSpacing * (d : ℚ) * ctx.opts.xScale,
             getLevelY i (st.lv.getD d []).length
               (ctx.opts.nodeSpacing * ctx.opts.yScale)⟩
            ⟨ctx.opts.ringSpacing * (d : ℚ) * ctx.opts.xScale,
             getLevelY (i + 1) (st.lv.getD d []).length
               (ctx.opts.nodeSpacing * ctx.opts.yScale)⟩
            ⟨ctx.opts.ringSpacing * (d : ℚ) * ctx.opts.xScale,
             getLevelY (i + 1) (st.lv.getD d []).length
               (ctx.opts.nodeSpacing * ctx.opts.yScale)⟩
            ⟨ctx.opts.ringSpacing * (d : ℚ) * ctx.opts.xScale,
             getLevelY i (st.lv.getD d []).length
               (ctx.opts.nodeSpacing * ctx.opts.yScale)⟩
            hA hB
          refine ⟨?_, ?_, ?_⟩
          · show (st.lv.set d _).flatten.Nodup
            rw [hlv3]
            exact hnd
          · intro dq iq id hgt
            show Assoc.get _ id = _
            rw [hlv3] at hgt
            have hval := hcm dq iq id hgt
            rw [hpt id]
            show st.centers.get id = _
            rw [hlv3]
            exact hval
          · show st.crossings = pairSum (crossTermAt _ ctx.componentEdges)
              (List.range ctx.componentEdges.length)
            rw [hcross]
            exact (pairSum_congr (fun p hp q hq =>
              crossTermAt_congr ctx.componentEdges p q hpt)).symm

end SwapDelta

section RefineLoopsInv

/-- The inner pair sweep preserves the refinement invariant. -/
theorem sweepPairs_inv (ctx : RefineCtx)
    (hinc : ctx.incident = buildIncidentEdgeIndexMap ctx.componentEdges)
    (d : ℕ) :
    ∀ (fuel i : ℕ) (st : RefineState), RefineInv ctx st →
      RefineInv ctx (sweepPairs ctx d fuel i st)
  | 0, _, _, h => h
  | fuel + 1, i, st, h => by
    simp only [sweepPairs]
    by_cases hc : i + 1 < (st.lv.getD d []).length ∧ 0 < st.crossings
    · rw [if_pos hc]
      by_cases hs : ctx.maxSwaps ≤ st.swaps
      · rw [if_pos hs]
        exact h
      · rw [if_neg hs]
        exact sweepPairs_inv ctx hinc d fuel (i + 1) (swapAttempt ctx d st i)
          (swapAttempt_inv ctx hinc d st i h)
    · rw [if_neg hc]
      exact h

/-- One pass over the levels preserves the refinement invariant. -/
theorem sweepLevels_inv (ctx : RefineCtx)
    (hinc : ctx.incident = buildIncidentEdgeIndexMap ctx.componentEdges)
    (st : RefineState) (h : RefineInv ctx st) :
    RefineInv ctx (sweepLevels ctx st) := by
  unfold sweepLevels
  refine foldl_inv (P := fun s => RefineInv ctx s) _ ?_
    (List.range (ctx.maxDistance + 1)) st h
  intro s d hinv
  by_cases hc : 0 < s.crossings
  · rw [if_pos hc]
    by_cases hlen : (s.lv.getD d []).length ≤ 1
    · rw [if_pos hlen]
      exact hinv
    · rw [if_neg hlen]
      exact sweepPairs_inv ctx hinc d (s.lv.getD d []).length 0 s hinv
  · rw [if_neg hc]
    exact hinv

/-- The refinement invariant is blind to the improved flag. -/
theorem RefineInv_improved (ctx : RefineCtx) (st : RefineState)
    (b : Bool) (h : RefineInv ctx st) :
    RefineInv ctx { st with improved := b } :=
  h

/-- The pass loop preserves the refinement invariant. -/
theorem passLoop_inv (ctx : RefineCtx)
    (hinc : ctx.incident = buildIncidentEdgeIndexMap ctx.componentEdges) :
    ∀ (n : ℕ) (st : RefineState), RefineInv ctx st →
      RefineInv ctx (passLoop ctx n st)
  | 0, _, h => h
  | n + 1, st, h => by
    simp only [passLoop]
    by_cases hc : 0 < st.crossings
    · rw [if_pos hc]
      have h1 : RefineInv ctx (sweepLevels ctx { st with improved := false })
        := sweepLevels_inv ctx hinc _ (RefineInv_improved ctx st false h)
      by_cases himp : (sweepLevels ctx
          { st with improved := false }).improved = false
      · rw [if_pos himp]
        exact h1
      · rw [if_neg himp]
        by_cases hs : ctx.maxSwaps ≤
            (sweepLevels ctx { st with improved := false }).swaps
        · rw [if_pos hs]
          exact h1
        · rw [if_neg hs]
          exact passLoop_inv ctx hinc n
            (sweepLevels ctx { st with improved := false }) h1
    · rw [if_neg hc]
      exact h

end RefineLoopsInv

section InitialLevels

/-- Forward sweeps permute the flattened levels. -/
theorem forwardSweep_flatten_perm (a : EngineArgs) (dist : StrMap ℕ)
    (maxD : ℕ) (lv : List (List String)) :
    (forwardSweep a dist maxD lv).flatten.Perm lv.flatten := by
  unfold forwardSweep
  refine foldl_inv
    (P := fun (lv2 : List (List String)) => lv2.flatten.Perm lv.flatten)
    _ ?_ _ _ (List.Perm.refl _)
  intro lv2 k hp
  by_cases hlen : (lv2.getD (k + 1) []).length ≤ 1
  · rw [if_pos hlen]
    exact hp
  · rw [if_neg hlen]
    exact (flatten_set_perm lv2 (k + 1) _ (sortBy_perm _ _)).trans hp

/-- Backward sweeps permute the flattened levels. -/
theorem backwardSweep_flatten_perm (a : EngineArgs) (dist : StrMap ℕ)
    (maxD : ℕ) (lv : List (List String)) :
    (backwardSweep a dist maxD lv).flatten.Perm lv.flatten := by
  unfold backwardSweep
  refine foldl_inv
    (P := fun (lv2 : List (List String)) => lv2.flatten.Perm lv.flatten)
    _ ?_ _ _ (List.Perm.refl _)
  intro lv2 k hp
  by_cases hlen : (lv2.getD (maxD - 1 - k) []).length ≤ 1
  · rw [if_pos hlen]
    exact hp
  · rw [if_neg hlen]
    exact (flatten_set_perm lv2 (maxD - 1 - k) _ (sortBy_perm _ _)).trans hp

/-- The barycenter iterations permute the flattened levels. -/
theorem barycenterIterations_flatten_perm (a : EngineArgs) (dist : StrMap ℕ)
    (maxD : ℕ) (lv : List (List String)) :
    (barycenterIterations a dist maxD lv).flatten.Perm lv.flatten := by
  unfold barycenterIterations
  refine foldl_inv
    (P := fun (lv2 : List (List String)) => lv2.flatten.Perm lv.flatten)
    _ ?_ _ _ (List.Perm.refl _)
  intro lv2 _ hp
  exact ((backwardSweep_flatten_perm a dist maxD _).trans
    (forwardSweep_flatten_perm a dist maxD lv2)).trans hp

/-- The flattened initial ordered levels are duplicate free. -/
theorem initialOrderedLevels_flatten_nodup (a : EngineArgs)
    (dist : StrMap ℕ) (maxD : ℕ) (hnd : a.componentIds.Nodup) :
    (initialOrderedLevels a dist maxD).flatten.Nodup := by
  unfold initialOrderedLevels
  rw [List.nodup_flatten]
  constructor
  · intro l hl
    obtain ⟨dd, hdd, rfl⟩ := List.mem_map.mp hl
    exact ((seedPerturb_perm a.seed _).trans
      (sortBy_perm _ _)).nodup_iff.mpr (hnd.filter _)
  · rw [List.pairwise_map]
    refine (List.pairwise_lt_range _).imp ?_
    intro d1 d2 hlt q hq1 hq2
    have hm1 : q ∈ levelOf dist a.componentIds d1 :=
      ((seedPerturb_perm _ _).trans (sortBy_perm _ _)).mem_iff.mp hq1
    have hm2 : q ∈ levelOf dist a.componentIds d2 :=
      ((seedPerturb_perm _ _).trans (sortBy_perm _ _)).mem_iff.mp hq2
    have e1 := of_decide_eq_true (List.mem_filter.mp hm1).2
    have e2 := of_decide_eq_true (List.mem_filter.mp hm2).2
    rw [e1] at e2
    have := Option.some_inj.mp e2
    omega

/-- The flattened ordered levels of the layered engine are duplicate
free. -/
theorem layeredOrderedLevels_flatten_nodup (a : EngineArgs)
    (hnd : a.componentIds.Nodup) :
    (layeredOrderedLevels a).flatten.Nodup := by
  unfold layeredOrderedLevels
  exact (barycenterIterations_flatten_perm a _ _ _).nodup_iff.mpr
    (initialOrderedLevels_flatten_nodup a _ _ hnd)

/-- Every member of a level of the ordered levels is a component id at the
matching distance. -/
theorem layeredOrderedLevels_flatten_mem (a : EngineArgs) {q : String}
    (h : q ∈ a.componentIds)
    (hq : (layeredDistanceMap a).get q = some 0) :
    q ∈ (layeredOrderedLevels a).flatten := by
  unfold layeredOrderedLevels
  rw [(barycenterIterations_flatten_perm a _ _ _).mem_iff]
  rw [List.mem_flatten]
  refine ⟨seedPerturb a.seed (sortBy (ambientLE a.orderIndex)
    (levelOf (layeredDistanceMap a) a.componentIds 0)), ?_, ?_⟩
  · unfold initialOrderedLevels
    refine List.mem_map.mpr ⟨0, ?_, rfl⟩
    rw [List.mem_range]
    omega
  · rw [((seedPerturb_perm _ _).trans (sortBy_perm _ _)).mem_iff]
    unfold levelOf
    refine List.mem_filter.mpr ⟨h, ?_⟩
    rw [hq]
    exact decide_eq_true rfl

end InitialLevels

section InitialCenters

/-- The set fold over enumerated pairs with duplicate free keys reads back
the written value. -/
theorem setPairs_get_unique :
    ∀ (pairs : List (ℕ × String)) (f : ℕ × String → Point)
      (cs : StrMap Point) (i : ℕ) (id : String),
      (i, id) ∈ pairs → (pairs.map Prod.snd).Nodup →
      (pairs.foldl (fun cs2 q => cs2.set q.2 (f q)) cs).get id =
        some (f (i, id))
  | [], _, _, _, _, hmem, _ => by cases hmem
  | p :: rest, f, cs, i, id, hmem, hnd => by
    rw [List.foldl_cons]
    rcases List.mem_cons.mp hmem with heq | hrest
    · subst heq
      rw [setPairs_get_not_mem rest f _ id ?_]
      · rw [Assoc.get_set, if_pos rfl]
      · intro q hq he
        have hin : id ∈ rest.map Prod.snd :=
          List.mem_map.mpr ⟨q, hq, he⟩
        rw [List.map_cons] at hnd
        exact (List.nodup_cons.mp hnd).1 hin
    · refine setPairs_get_unique rest f _ i id hrest ?_
      rw [List.map_cons] at hnd
      exact (List.nodup_cons.mp hnd).2

/-- levelWrite reads back the grid point of a position of a duplicate free
level. -/
theorem levelWrite_get_of_pos (opts : ResolvedOptions) (cs : StrMap Point)
    (d : ℕ) (ids : List String) (hnd : ids.Nodup) {i : ℕ} {id : String}
    (hi : ids[i]? = some id) :
    (levelWrite opts cs (d, ids)).get id =
      some ⟨opts.ringSpacing * (d : ℚ) * opts.xScale,
        getLevelY i ids.length (opts.nodeSpacing * opts.yScale)⟩ := by
  unfold levelWrite
  have hmem : (i, id) ∈ ids.enum := by
    have := enumFrom_of_getElem 0 ids i id hi
    rwa [Nat.zero_add] at this
  have hndm : (ids.enum.map Prod.snd).Nodup := by
    rw [List.enum_map_snd]
    exact hnd
  exact setPairs_get_unique ids.enum
    (fun q => ⟨opts.ringSpacing * (d : ℚ) * opts.xScale,
      getLevelY q.1 ids.length (opts.nodeSpacing * opts.yScale)⟩)
    cs i id hmem hndm

/-- Fold of levelWrite over the enumerated levels: a position of a level
reads back its grid point when the flattened levels are duplicate free. -/
theorem levelsFold_cm (opts : ResolvedOptions) :
    ∀ (lv : List (List String)) (n : ℕ) (cs0 : StrMap Point),
      lv.flatten.Nodup →
      ∀ d i id, (lv.getD d [])[i]? = some id →
        ((lv.enumFrom n).foldl (levelWrite opts) cs0).get id =
          some ⟨opts.ringSpacing * ((n + d : ℕ) : ℚ) * opts.xScale,
            getLevelY i (lv.getD d []).length
              (opts.nodeSpacing * opts.yScale)⟩
  | [], _, _, _, d, i, id, hgt => by
    rw [show (([] : List (List String)).getD d []) = [] from by
      cases d <;> rfl] at hgt
    cases hgt
  | ids :: rest, n, cs0, hnd, d, i, id, hgt => by
    rw [List.enumFrom_cons, List.foldl_cons]
    have hndparts := List.nodup_append.mp (by
      rw [← List.flatten_cons]
      exact hnd : (ids ++ rest.flatten).Nodup)
    cases d with
    | zero =>
      have hgt0 : ids[i]? = some id := hgt
      have hnotflat : id ∉ rest.flatten := fun hin =>
        hndparts.2.2 (mem_of_get? hgt0) hin
      rw [levelFold_get_not_mem opts id (rest.enumFrom (n + 1)) _ ?_]
      · rw [levelWrite_get_of_pos opts cs0 n ids hndparts.1 hgt0]
        rw [show ((n + 0 : ℕ) : ℚ) = ((n : ℕ) : ℚ) from by norm_num]
        rfl
      · intro p hp hin
        exact hnotflat (List.mem_flatten.mpr
          ⟨p.2, enumFrom_snd_mem (n + 1) rest p hp, hin⟩)
    | succ d2 =>
      have hgt2 : (rest.getD d2 [])[i]? = some id := hgt
      have := levelsFold_cm opts rest (n + 1) (levelWrite opts cs0 (n, ids))
        hndparts.2.1 d2 i id hgt2
      rw [this]
      rw [show ((n + 1) + d2 : ℕ) = (n + (d2 + 1) : ℕ) from by omega]
      rfl

end InitialCenters

section StartStateInv

/-- The component filter is idempotent. -/
theorem engineComponentEdges_filter_idem (a : EngineArgs) :
    filterComponentEdges (engineComponentEdges a) a.componentIds =
      engineComponentEdges a :=
  List.filter_eq_self.mpr (fun e he => (List.mem_filter.mp he).2)

/-- The centers induced by ordered levels satisfy the grid discipline. -/
theorem centersFromLevels_cm (opts : ResolvedOptions)
    (lv : List (List String)) (hnd : lv.flatten.Nodup) :
    LvCenters opts lv (centersFromLevels opts lv) := by
  intro d i id hgt
  have := levelsFold_cm opts lv 0 Assoc.empty hnd d i id hgt
  rw [show ((0 + d : ℕ) : ℚ) = ((d : ℕ) : ℚ) from by norm_num] at this
  exact this

/-- The initial layered centers satisfy the grid discipline. -/
theorem layeredInitialCenters_cm (a : EngineArgs)
    (hnd : a.componentIds.Nodup) :
    LvCenters a.options (layeredOrderedLevels a)
      (layeredInitialCenters a) := by
  have hndf := layeredOrderedLevels_flatten_nodup a hnd
  have hcm := centersFromLevels_cm a.options _ hndf
  unfold layeredInitialCenters
  by_cases hk : (centersFromLevels a.options
      (layeredOrderedLevels a)).hasKey a.centerId = true
  · rw [if_pos hk]
    exact hcm
  · rw [if_neg hk]
    intro d i id hgt
    have hval := hcm d i id hgt
    rw [Assoc.get_set, if_neg ?_]
    · exact hval
    · intro he
      subst he
      rw [Assoc.hasKey_iff_get_isSome, hval] at hk
      exact hk rfl

/-- The start state of the refinement satisfies the invariant when the
refinement branch is taken. -/
theorem layeredStartState_inv (a : EngineArgs)
    (hnd : a.componentIds.Nodup)
    (hlen : 1 < (engineComponentEdges a).length) :
    RefineInv (layeredRefineCtx a) (layeredStartState a) := by
  refine ⟨layeredOrderedLevels_flatten_nodup a hnd,
    layeredInitialCenters_cm a hnd, ?_⟩
  show layeredInitialCrossings a = _
  unfold layeredInitialCrossings
  rw [if_pos hlen]
  simp only [countEdgeCrossings]
  rw [engineComponentEdges_filter_idem]
  rfl

/-- Claim C10: in the layered engine the incrementally maintained crossing
count is consistent: the crossings value returned after the local swap
refinement equals the full pairwise crossing count recomputed with
countEdgeCrossings on the returned centers and the component edges.
Confirmed for every duplicate free component. -/
theorem C10_incremental_equals_full (a : EngineArgs)
    (hnd : a.componentIds.Nodup) :
    (computeLayeredCentersForComponent a).crossings =
      countEdgeCrossings (computeLayeredCentersForComponent a).centers
        a.edges a.componentIds := by
  simp only [computeLayeredCentersForComponent]
  by_cases hc : 0 < (layeredStartState a).crossings ∧
      1 < (engineComponentEdges a).length
  · rw [if_pos hc]
    obtain ⟨-, -, hcross⟩ := passLoop_inv (layeredRefineCtx a) rfl
      (refineMaxPasses a.componentIds.length) (layeredStartState a)
      (layeredStartState_inv a hnd hc.2)
    simp only [countEdgeCrossings]
    exact hcross
  · rw [if_neg hc]
    show layeredInitialCrossings a = countEdgeCrossings
      (layeredInitialCenters a) a.edges a.componentIds
    by_cases hlen : 1 < (engineComponentEdges a).length
    · unfold layeredInitialCrossings
      rw [if_pos hlen]
      simp only [countEdgeCrossings]
      rw [engineComponentEdges_filter_idem]
      rfl
    · unfold layeredInitialCrossings
      rw [if_neg hlen]
      simp only [countEdgeCrossings]
      have hle : (filterComponentEdges a.edges a.componentIds).length ≤ 1 :=
        Nat.le_of_not_lt hlen
      cases hn : (filterComponentEdges a.edges a.componentIds).length with
      | zero => rfl
      | succ m =>
        have hm : m = 0 := by
          rw [hn] at hle
          omega
        subst hm
        rfl

/-- Witness for C10 at a concrete input (layered engine, a three node
path). -/
theorem C10_incremental_equals_full_witness :
    (computeLayeredCentersForComponent
      { componentIds := ["A", "B", "C"]
        centerId := "A"
        adjacency := buildUndirectedAdjacency ["A", "B", "C"]
          [⟨"A", "B"⟩, ⟨"A", "C"⟩]
        orderIndex := buildOrderIndex ["A", "B", "C"]
        edges := [⟨"A", "B"⟩, ⟨"A", "C"⟩]
        options := mergeOptions { layoutStyle := some LayoutStyle.layered }
        seed := 0 }).crossings =
      countEdgeCrossings
        (computeLayeredCentersForComponent
          { componentIds := ["A", "B", "C"]
            centerId := "A"
            adjacency := buildUndirectedAdjacency ["A", "B", "C"]
              [⟨"A", "B"⟩, ⟨"A", "C"⟩]
            orderIndex := buildOrderIndex ["A", "B", "C"]
            edges := [⟨"A", "B"⟩, ⟨"A", "C"⟩]
            options := mergeOptions { layoutStyle := some LayoutStyle.layered }
            seed := 0 }).centers
        [⟨"A", "B"⟩, ⟨"A", "C"⟩] ["A", "B", "C"] :=
  C10_incremental_equals_full _ (by decide)

end StartStateInv

section DomainChain

/-- A member of the flattened levels has a level position. -/
theorem flatten_position {lv : List (List String)} {q : String}
    (h : q ∈ lv.flatten) : ∃ (d i : ℕ), (lv.getD d [])[i]? = some q := by
  obtain ⟨ids, hids, hq⟩ := List.mem_flatten.mp h
  obtain ⟨d, hd⟩ := List.mem_iff_getElem?.mp hids
  obtain ⟨i, hi⟩ := List.mem_iff_getElem?.mp hq
  refine ⟨d, i, ?_⟩
  rw [List.getD_eq_getElem?_getD, hd]
  exact hi

/-- centersFromLevels only holds keys of the levels. -/
theorem centersFromLevels_dom (opts : ResolvedOptions)
    (lv : List (List String)) : LvDomain lv (centersFromLevels opts lv) := by
  intro q p hq
  by_contra hqf
  rw [centersFromLevels_get_none opts lv q ?_] at hq
  · cases hq
  · intro pr hpr hin
    exact hqf (List.mem_flatten.mpr
      ⟨pr.2, enumFrom_snd_mem 0 lv pr hpr, hin⟩)

/-- The initial layered centers only hold level keys, when the center id is
a component id (so the fallback write never runs). -/
theorem layeredInitialCenters_dom (a : EngineArgs)
    (hnd : a.componentIds.Nodup) (hmemc : a.centerId ∈ a.componentIds) :
    LvDomain (layeredOrderedLevels a) (layeredInitialCenters a) := by
  have hflatmem : a.centerId ∈ (layeredOrderedLevels a).flatten :=
    layeredOrderedLevels_flatten_mem a hmemc
      (layeredDistanceMap_zero_inv a).1
  obtain ⟨d, i, hpos⟩ := flatten_position hflatmem
  have hval := centersFromLevels_cm a.options _
    (layeredOrderedLevels_flatten_nodup a hnd) d i a.centerId hpos
  have hk : (centersFromLevels a.options
      (layeredOrderedLevels a)).hasKey a.centerId = true := by
    rw [Assoc.hasKey_iff_get_isSome, hval]
    rfl
  unfold layeredInitialCenters
  rw [if_pos hk]
  exact centersFromLevels_dom a.options _

/-- One swap attempt preserves the domain discipline. -/
theorem swapAttempt_dom (ctx : RefineCtx) (d : ℕ) (st : RefineState)
    (i : ℕ) (h : LvDomain st.lv st.centers) :
    LvDomain (swapAttempt ctx d st i).lv (swapAttempt ctx d st i).centers
    := by
  cases h1 : (st.lv.getD d [])[i]? with
  | none =>
    simp only [swapAttempt, h1]
    exact h
  | some aId =>
    cases h2 : (st.lv.getD d [])[i + 1]? with
    | none =>
      simp only [swapAttempt, h1, h2]
      exact h
    | some bId =>
      simp only [swapAttempt, h1, h2]
      have hne : st.lv.getD d [] ≠ [] := fun he => by
        rw [he] at h1
        cases h1
      have hdlen := lt_length_of_getD_ne_nil hne
      have hamem : aId ∈ st.lv.flatten := List.mem_flatten.mpr
        ⟨_, getD_mem hdlen, mem_of_get? h1⟩
      have hbmem : bId ∈ st.lv.flatten := List.mem_flatten.mpr
        ⟨_, getD_mem hdlen, mem_of_get? h2⟩
      by_cases hie : ((ctx.incident aId).isEmpty &&
          (ctx.incident bId).isEmpty) = true
      · rw [if_pos hie]
        exact h
      · rw [if_neg hie]
        have hperm := set_swap_perm (st.lv.getD d []) i aId bId h1 h2
        have hflat := flatten_set_perm st.lv d _ hperm
        by_cases hlt : countCrossingsInvolvingMarkedEdgeIndices
            ctx.componentEdges
            ((st.centers.set aId
              ⟨ctx.opts.ringSpacing * (d : ℚ) * ctx.opts.xScale,
               getLevelY (i + 1) (st.lv.getD d []).length
                 (ctx.opts.nodeSpacing * ctx.opts.yScale)⟩).set bId
              ⟨ctx.opts.ringSpacing * (d : ℚ) * ctx.opts.xScale,
               getLevelY i (st.lv.getD d []).length
                 (ctx.opts.nodeSpacing * ctx.opts.yScale)⟩)
            (dedupAppend (ctx.incident aId) (ctx.incident bId)) <
            countCrossingsInvolvingMarkedEdgeIndices ctx.componentEdges
              st.centers
              (dedupAppend (ctx.incident aId) (ctx.incident bId))
        · rw [if_pos hlt]
          intro q p hq
          show q ∈ (st.lv.set d _).flatten
          rw [hflat.mem_iff]
          by_cases hqb : q = bId
          · subst hqb
            exact hbmem
          · by_cases hqa : q = aId
            · subst hqa
              exact hamem
            · rw [get_set_set_ne st.centers aId bId _ _ hqa hqb] at hq
              exact h q p hq
        · rw [if_neg hlt]
          have hlv3 : st.lv.set d (((((st.lv.getD d []).set i bId).set
              (i + 1) aId).set i aId).set (i + 1) bId) = st.lv := by
            rw [set_set_restore (st.lv.getD d []) i aId bId h1 h2,
              set_getD_eq_self]
          intro q p hq
          show q ∈ (st.lv.set d _).flatten
          rw [hlv3]
          by_cases hqb : q = bId
          · subst hqb
            exact hbmem
          · by_cases hqa : q = aId
            · subst hqa
              exact hamem
            · rw [Assoc.get_set, if_neg hqb, Assoc.get_set, if_neg hqa,
                Assoc.get_set, if_neg hqb, Assoc.get_set, if_neg hqa] at hq
              exact h q p hq

/-- The inner pair sweep preserves the domain discipline. -/
theorem sweepPairs_dom (ctx : RefineCtx) (d : ℕ) :
    ∀ (fuel i : ℕ) (st : RefineState), LvDomain st.lv st.centers →
      LvDomain (sweepPairs ctx d fuel i st).lv
        (sweepPairs ctx d fuel i st).centers
  | 0, _, _, h => h
  | fuel + 1, i, st, h => by
    simp only [sweepPairs]
    by_cases hc : i + 1 < (st.lv.getD d []).length ∧ 0 < st.crossings
    · rw [if_pos hc]
      by_cases hs : ctx.maxSwaps ≤ st.swaps
      · rw [if_pos hs]
        exact h
      · rw [if_neg hs]
        exact sweepPairs_dom ctx d fuel (i + 1) (swapAttempt ctx d st i)
          (swapAttempt_dom ctx d st i h)
    · rw [if_neg hc]
      exact h

/-- One pass over the levels preserves the domain discipline. -/
theorem sweepLevels_dom (ctx : RefineCtx) (st : RefineState)
    (h : LvDomain st.lv st.centers) :
    LvDomain (sweepLevels ctx st).lv (sweepLevels ctx st).centers := by
  unfold sweepLevels
  refine foldl_inv
    (P := fun (s : RefineState) => LvDomain s.lv s.centers) _ ?_
    (List.range (ctx.maxDistance + 1)) st h
  intro s d hinv
  by_cases hc : 0 < s.crossings
  · rw [if_pos hc]
    by_cases hlen : (s.lv.getD d []).length ≤ 1
    · rw [if_pos hlen]
      exact hinv
    · rw [if_neg hlen]
      exact sweepPairs_dom ctx d (s.lv.getD d []).length 0 s hinv
  · rw [if_neg hc]
    exact hinv

/-- The pass loop preserves the domain discipline. -/
theorem passLoop_dom (ctx : RefineCtx) :
    ∀ (n : ℕ) (st : RefineState), LvDomain st.lv st.centers →
      LvDomain (passLoop ctx n st).lv (passLoop ctx n st).centers
  | 0, _, h => h
  | n + 1, st, h => by
    simp only [passLoop]
    by_cases hc : 0 < st.crossings
    · rw [if_pos hc]
      have h1 : LvDomain (sweepLevels ctx { st with improved := false }).lv
          (sweepLevels ctx { st with improved := false }).centers :=
        sweepLevels_dom ctx { st with improved := false } h
      by_cases himp : (sweepLevels ctx
          { st with improved := false }).improved = false
      · rw [if_pos himp]
        exact h1
      · rw [if_neg himp]
        by_cases hs : ctx.maxSwaps ≤
            (sweepLevels ctx { st with improved := false }).swaps
        · rw [if_pos hs]
          exact h1
        · rw [if_neg hs]
          exact passLoop_dom ctx n
            (sweepLevels ctx { st with improved := false }) h1
    · rw [if_neg hc]
      exact h

end DomainChain

section GridSeparation

/-- Two distinct ids that both carry grid discipline centers are separated
by at least one ring spacing horizontally (different levels) or one node
spacing vertically (same level), so their default boxes never overlap once
the spacings cover the box extents. -/
theorem lvgrid_no_overlap (opts : ResolvedOptions)
    (lv : List (List String)) (cs : StrMap Point)
    (hcm : LvCenters opts lv cs) (hdom : LvDomain lv cs)
    (hx : 120 ≤ opts.ringSpacing * opts.xScale)
    (hy : 50 ≤ opts.nodeSpacing * opts.yScale)
    {id1 id2 : String} (hne : id1 ≠ id2) {p1 p2 : Point}
    (h1 : cs.get id1 = some p1) (h2 : cs.get id2 = some p2) :
    boxesOverlap p1 p2 NODE_CENTER_OFFSET.x NODE_CENTER_OFFSET.y
      = false := by
  obtain ⟨d1, i1, hpos1⟩ := flatten_position (hdom id1 p1 h1)
  obtain ⟨d2, i2, hpos2⟩ := flatten_position (hdom id2 p2 h2)
  have hv1 := hcm d1 i1 id1 hpos1
  have hv2 := hcm d2 i2 id2 hpos2
  rw [h1] at hv1
  rw [h2] at hv2
  have hp1 := Option.some_inj.mp hv1
  have hp2 := Option.some_inj.mp hv2
  subst hp1
  subst hp2
  unfold boxesOverlap
  refine decide_eq_false ?_
  rintro ⟨hcx, hcy⟩
  dsimp only at hcx hcy
  by_cases hdd : d1 = d2
  · subst hdd
    have hii : i1 ≠ i2 := by
      intro he
      subst he
      rw [hpos1] at hpos2
      exact hne (Option.some_inj.mp hpos2)
    have hs0 : (0 : ℚ) ≤ opts.nodeSpacing * opts.yScale :=
      le_trans (by norm_num) hy
    have hdiff : getLevelY i1 (lv.getD d1 []).length
        (opts.nodeSpacing * opts.yScale) -
        getLevelY i2 (lv.getD d1 []).length
          (opts.nodeSpacing * opts.yScale) =
        ((i1 : ℚ) - (i2 : ℚ)) * (opts.nodeSpacing * opts.yScale) := by
      unfold getLevelY
      ring
    have habs1 : (1 : ℚ) ≤ |(i1 : ℚ) - (i2 : ℚ)| := by
      rcases Nat.lt_or_ge i1 i2 with hlt | hge
      · have hc2 : (i1 : ℚ) + 1 ≤ (i2 : ℚ) := by exact_mod_cast hlt
        calc (1 : ℚ) ≤ (i2 : ℚ) - (i1 : ℚ) := by linarith
          _ ≤ |(i2 : ℚ) - (i1 : ℚ)| := le_abs_self _
          _ = |(i1 : ℚ) - (i2 : ℚ)| := abs_sub_comm _ _
      · have hlt2 : i2 < i1 := Nat.lt_of_le_of_ne hge
          (fun he => hii he.symm)
        have hc2 : (i2 : ℚ) + 1 ≤ (i1 : ℚ) := by exact_mod_cast hlt2
        calc (1 : ℚ) ≤ (i1 : ℚ) - (i2 : ℚ) := by linarith
          _ ≤ |(i1 : ℚ) - (i2 : ℚ)| := le_abs_self _
    have he1 : |((i1 : ℚ) - (i2 : ℚ)) *
        (opts.nodeSpacing * opts.yScale)| =
        |(i1 : ℚ) - (i2 : ℚ)| * (opts.nodeSpacing * opts.yScale) := by
      rw [abs_mul, abs_of_nonneg hs0]
    have h50 : NODE_CENTER_OFFSET.y * 2 = (50 : ℚ) := by
      norm_num [NODE_CENTER_OFFSET]
    rw [hdiff, he1, h50] at hcy
    have hmul : (1 : ℚ) * 50 ≤ |(i1 : ℚ) - (i2 : ℚ)| *
        (opts.nodeSpacing * opts.yScale) :=
      mul_le_mul habs1 hy (by norm_num) (abs_nonneg _)
    linarith
  · have hs0 : (0 : ℚ) ≤ opts.ringSpacing * opts.xScale :=
      le_trans (by norm_num) hx
    have hdiffx : opts.ringSpacing * (d1 : ℚ) * opts.xScale -
        opts.ringSpacing * (d2 : ℚ) * opts.xScale =
        ((d1 : ℚ) - (d2 : ℚ)) * (opts.ringSpacing * opts.xScale) := by
      ring
    have habs1 : (1 : ℚ) ≤ |(d1 : ℚ) - (d2 : ℚ)| := by
      rcases Nat.lt_or_ge d1 d2 with hlt | hge
      · have hc2 : (d1 : ℚ) + 1 ≤ (d2 : ℚ) := by exact_mod_cast hlt
        calc (1 : ℚ) ≤ (d2 : ℚ) - (d1 : ℚ) := by linarith
          _ ≤ |(d2 : ℚ) - (d1 : ℚ)| := le_abs_self _
          _ = |(d1 : ℚ) - (d2 : ℚ)| := abs_sub_comm _ _
      · have hlt2 : d2 < d1 := Nat.lt_of_le_of_ne hge
          (fun he => hdd he.symm)
        have hc2 : (d2 : ℚ) + 1 ≤ (d1 : ℚ) := by exact_mod_cast hlt2
        calc (1 : ℚ) ≤ (d1 : ℚ) - (d2 : ℚ) := by linarith
          _ ≤ |(d1 : ℚ) - (d2 : ℚ)| := le_abs_self _
    have he1 : |((d1 : ℚ) - (d2 : ℚ)) *
        (opts.ringSpacing * opts.xScale)| =
        |(d1 : ℚ) - (d2 : ℚ)| * (opts.ringSpacing * opts.xScale) := by
      rw [abs_mul, abs_of_nonneg hs0]
    have h120 : NODE_CENTER_OFFSET.x * 2 = (120 : ℚ) := by
      norm_num [NODE_CENTER_OFFSET]
    rw [hdiffx, he1, h120] at hcx
    have hmul : (1 : ℚ) * 120 ≤ |(d1 : ℚ) - (d2 : ℚ)| *
        (opts.ringSpacing * opts.xScale) :=
      mul_le_mul habs1 hx (by norm_num) (abs_nonneg _)
    linarith

/-- Claim C4 (amended): the unconditional claim fails (see the
counterexample: the layered engine never runs the compaction step and a
zero node spacing stacks two children on one point), but the no overlap
guarantee holds for the layered engine whenever the resolved spacings
cover the default box extents: with 120 ≤ ringSpacing * xScale and
50 ≤ nodeSpacing * yScale, any two distinct ids of a duplicate free
component holding centers in the result have disjoint boxes with the
default half extents. -/
theorem C4_layered_no_overlap (a : EngineArgs)
    (hnd : a.componentIds.Nodup) (hmemc : a.centerId ∈ a.componentIds)
    (hx : 120 ≤ a.options.ringSpacing * a.options.xScale)
    (hy : 50 ≤ a.options.nodeSpacing * a.options.yScale)
    {id1 id2 : String} (hne : id1 ≠ id2) {p1 p2 : Point}
    (h1 : (computeLayeredCentersForComponent a).centers.get id1 = some p1)
    (h2 : (computeLayeredCentersForComponent a).centers.get id2 = some p2) :
    boxesOverlap p1 p2 NODE_CENTER_OFFSET.x NODE_CENTER_OFFSET.y
      = false := by
  have hdom0 : LvDomain (layeredOrderedLevels a)
      (layeredInitialCenters a) := layeredInitialCenters_dom a hnd hmemc
  simp only [computeLayeredCentersForComponent] at h1 h2
  by_cases hc : 0 < (layeredStartState a).crossings ∧
      1 < (engineComponentEdges a).length
  · rw [if_pos hc] at h1 h2
    obtain ⟨-, hcmF, -⟩ := passLoop_inv (layeredRefineCtx a) rfl
      (refineMaxPasses a.componentIds.length) (layeredStartState a)
      (layeredStartState_inv a hnd hc.2)
    have hdomF := passLoop_dom (layeredRefineCtx a)
      (refineMaxPasses a.componentIds.length) (layeredStartState a) hdom0
    exact lvgrid_no_overlap a.options _ _ hcmF hdomF hx hy hne h1 h2
  · rw [if_neg hc] at h1 h2
    exact lvgrid_no_overlap a.options (layeredOrderedLevels a)
      (layeredInitialCenters a) (layeredInitialCenters_cm a hnd) hdom0
      hx hy hne h1 h2

/-- Witness for the amended C4 at a concrete input (default spacings,
two children of the root on level one). -/
theorem C4_layered_no_overlap_witness :
    boxesOverlap ⟨140, -70⟩ ⟨140, 70⟩ NODE_CENTER_OFFSET.x
      NODE_CENTER_OFFSET.y = false :=
  @C4_layered_no_overlap
    { componentIds := ["A", "B", "C"]
      centerId := "A"
      adjacency := buildUndirectedAdjacency ["A", "B", "C"]
        [⟨"A", "B"⟩, ⟨"A", "C"⟩]
      orderIndex := buildOrderIndex ["A", "B", "C"]
      edges := [⟨"A", "B"⟩, ⟨"A", "C"⟩]
      options := mergeOptions { layoutStyle := some LayoutStyle.layered }
      seed := 0 }
    (by decide) (by decide)
    (by with_unfolding_all decide) (by with_unfolding_all decide)
    "B" "C" (by decide) ⟨140, -70⟩ ⟨140, 70⟩
    (by with_unfolding_all rfl) (by with_unfolding_all rfl)

end GridSeparation

end GT
